import Mathlib

/-!
# filtered_string_view

A shallow embedding of `src/filtered_string_view.h` and `src/filtered_string_view.cpp`.

* `char` is `Char`; two `char`s are equal when their codes are, and they are ordered as
  signed bytes (`char_value`). `std::size_t` and `int` are `Nat` and `Int`; the wrap modulo
  `2 ^ 64` of a `std::size_t` and the wrap of an `int` counter past `INT_MIN` or `INT_MAX` are
  written out.
* A `const char*` the view is built on is the list of characters of the array it points to,
  up to the array's terminating `'\0'` (not included in the list); `none` is `nullptr`.
  A read outside the array, or through `nullptr`, has no result (`none`).
* A `fsv::filter` is a `std::function`, whose target may carry state that a call changes
  (the closures of `filter_split` and `filter_substr`), so a call returns the answer together
  with the closure after the call, and every member function that calls the predicate returns
  the view after the call next to its result.
-/

namespace fsv

/-- The terminator `'\0'`. -/
def NUL : Char := Char.ofNat 0

/-- The constant `std::string::npos`, the largest `std::size_t`. -/
def npos : Nat := 2 ^ 64 - 1

/-- What `std::function::target_type` tells apart: the callable a filter was built from. -/
inductive type_info where
  | callable (id : Nat)
  | compose_lambda
  | filter_split_lambda
  | filter_substr_lambda
deriving DecidableEq

/-- The callables a `fsv::filter` holds: a stateless callable of the caller (`id` stands for
its C++ type), and the three lambdas of the source with their captured variables. -/
inductive filter where
  | fn (id : Nat) (p : Char → Bool)
  | compose_closure (filts : List filter)
  | split_closure (filt : filter) (size_fsv_data start_index end_index current_index : Nat)
  | substr_closure (fsv_predicate : filter)
      (fsv_index substr_start size_fsv_data rcount rcount_index : Nat)

/-- The `target_type()` of a filter. -/
def filter.target_type : filter → type_info
  | .fn id _ => .callable id
  | .compose_closure _ => .compose_lambda
  | .split_closure _ _ _ _ _ => .filter_split_lambda
  | .substr_closure _ _ _ _ _ _ => .filter_substr_lambda

mutual
/-- One call `filt(c)`: the returned `bool` and the filter after the call. -/
def filter.call : filter → Char → Bool × filter
  | .fn id p, c => (p c, .fn id p)
  | .compose_closure filts, c =>
    let r := filter.call_each filts c
    (r.1, .compose_closure r.2)
  | .split_closure filt size_fsv_data start_index end_index current_index, c =>
    let r :=
      if end_index ≠ npos ∧ start_index ≤ current_index ∧ current_index ≤ end_index then
        filt.call c
      else (false, filt)
    let current_index := current_index + 1
    (r.1, .split_closure r.2 size_fsv_data start_index end_index
      (if current_index = size_fsv_data then 0 else current_index))
  | .substr_closure fsv_predicate fsv_index substr_start size_fsv_data rcount rcount_index, c =>
    let r :=
      if substr_start ≤ fsv_index ∧ fsv_index ≤ size_fsv_data then fsv_predicate.call c
      else (false, fsv_predicate)
    let result := r.1 && decide (rcount_index < rcount)
    let rcount_index := if result then rcount_index + 1 else rcount_index
    let fsv_index := fsv_index + 1
    if fsv_index = size_fsv_data then
      (result, .substr_closure r.2 0 substr_start size_fsv_data rcount 0)
    else
      (result, .substr_closure r.2 fsv_index substr_start size_fsv_data rcount rcount_index)
/-- The loop of the lambda of `compose`: the filters are called in order, and the first one
that answers `false` ends the loop. -/
def filter.call_each : List filter → Char → Bool × List filter
  | [], _ => (true, [])
  | filt :: rest, c =>
    let r := filt.call c
    if r.1 then
      let rs := filter.call_each rest c
      (rs.1, r.2 :: rs.2)
    else (false, r.2 :: rest)
end

/-- The static member `default_predicate`. -/
def default_predicate : filter := .fn 0 fun _ => true

/-- The lambda `filter_split` returns, `current_index` at `0`. -/
def filter_split (filt : filter) (size_fsv_data start_index end_index : Nat) : filter :=
  .split_closure filt size_fsv_data start_index end_index 0

/-- The lambda `filter_substr` returns, both counters at `0`. -/
def filter_substr (fsv_predicate : filter) (substr_start size_fsv_data rcount : Nat) : filter :=
  .substr_closure fsv_predicate 0 substr_start size_fsv_data rcount 0

/-- The read `data[i]` of the array `data` points to: its characters, then the terminator. -/
def index (data : Option (List Char)) (i : Nat) : Option Char :=
  match data with
  | none => none
  | some buf => (buf ++ [NUL])[i]?

/-- The function `std::strlen`: the number of characters before the first `'\0'`. -/
def strlen (str : List Char) : Nat :=
  (str.takeWhile fun c => c != NUL).length

/-- The class `filtered_string_view`. -/
structure filtered_string_view where
  data_ : Option (List Char)
  size_ : Nat
  predicate_ : filter

namespace filtered_string_view

/-- Default constructor. -/
def default : filtered_string_view :=
  { data_ := none, size_ := 0, predicate_ := default_predicate }

/-- Implicit string constructor, from `const std::string&`. -/
def of_string (str : List Char) : filtered_string_view :=
  { data_ := some str, size_ := str.length, predicate_ := default_predicate }

/-- String constructor with predicate. -/
def of_string_pred (str : List Char) (predicate : filter) : filtered_string_view :=
  { data_ := some str, size_ := str.length, predicate_ := predicate }

/-- Null-terminated string with predicate constructor; `strlen` of `nullptr` has no result. -/
def of_cstr_pred (str : Option (List Char)) (predicate : filter) :
    Option filtered_string_view :=
  match str with
  | none => none
  | some s => some { data_ := some s, size_ := strlen s, predicate_ := predicate }

/-- Implicit null-terminated string constructor. -/
def of_cstr (str : Option (List Char)) : Option filtered_string_view :=
  of_cstr_pred str default_predicate

/-- Move constructor and move assignment: the new view, and `other` after the move. -/
def move (other : filtered_string_view) : filtered_string_view × filtered_string_view :=
  (other, { data_ := none, size_ := 0, predicate_ := default_predicate })

/-- The loop of `size` and `empty`, `n` iterations from index `i`. -/
def size_loop (data_ : Option (List Char)) :
    Nat → Nat → filter → Nat → Option (Nat × filter)
  | 0, _, predicate_, size_count => some (size_count, predicate_)
  | n + 1, i, predicate_, size_count =>
    match index data_ i with
    | none => none
    | some c =>
      let r := predicate_.call c
      size_loop data_ n (i + 1) r.2 (if r.1 then size_count + 1 else size_count)

/-- Member function `size`. -/
def size (v : filtered_string_view) : Option (Nat × filtered_string_view) :=
  (size_loop v.data_ v.size_ 0 v.predicate_ 0).map fun r =>
    (r.1, { v with predicate_ := r.2 })

/-- Member function `empty`. -/
def empty (v : filtered_string_view) : Option (Bool × filtered_string_view) :=
  (size_loop v.data_ v.size_ 0 v.predicate_ 0).map fun r =>
    (if r.1 = 0 then true else false, { v with predicate_ := r.2 })

/-- The loop of the string type conversion. -/
def string_loop (data_ : Option (List Char)) :
    Nat → Nat → filter → List Char → Option (List Char × filter)
  | 0, _, predicate_, filtered_string => some (filtered_string, predicate_)
  | n + 1, i, predicate_, filtered_string =>
    match index data_ i with
    | none => none
    | some c =>
      let r := predicate_.call c
      string_loop data_ n (i + 1) r.2
        (if r.1 then filtered_string ++ [c] else filtered_string)

/-- Member operator `operator std::string`. -/
def operator_string (v : filtered_string_view) : Option (List Char × filtered_string_view) :=
  (string_loop v.data_ v.size_ 0 v.predicate_ []).map fun r =>
    (r.1, { v with predicate_ := r.2 })

/-- The message of the `std::domain_error` that `at` throws. -/
def at_message (idx : Int) : String :=
  "filtered_string_view::at(" ++ toString idx ++ "): invalid index"

/-- The decrement `--x` of an `int`: from `INT_MIN` it wraps to `INT_MAX`, so on the values
of an `int` it is the decrement modulo `2 ^ 32`. -/
def int_pred (x : Int) : Int :=
  if x = -2 ^ 31 then 2 ^ 31 - 1 else x - 1

/-- The increment `++x` of an `int`: from `INT_MAX` it wraps to `INT_MIN`, so on the values
of an `int` it is the increment modulo `2 ^ 32`. -/
def int_succ (x : Int) : Int :=
  if x = 2 ^ 31 - 1 then -2 ^ 31 else x + 1

/-- The loop of `at`. `position` is an `int`, decremented by `--position`. -/
def at_loop (data_ : Option (List Char)) (idx : Int) :
    Nat → Nat → filter → Int → Option (Except String Char × filter)
  | 0, _, predicate_, _ => some (.error (at_message idx), predicate_)
  | n + 1, i, predicate_, position =>
    match index data_ i with
    | none => none
    | some c =>
      let r := predicate_.call c
      if r.1 then
        if position = 0 then some (.ok c, r.2)
        else at_loop data_ idx n (i + 1) r.2 (int_pred position)
      else at_loop data_ idx n (i + 1) r.2 position

/-- Member function `at`: `.ok c` is the returned character, `.error msg` the thrown
`std::domain_error`. -/
def at_ (v : filtered_string_view) (idx : Int) :
    Option (Except String Char × filtered_string_view) :=
  (at_loop v.data_ idx v.size_ 0 v.predicate_ idx).map fun r =>
    (r.1, { v with predicate_ := r.2 })

/-- Member function `data`. -/
def data (v : filtered_string_view) : Option (List Char) := v.data_

/-- Member function `predicate`. -/
def predicate (v : filtered_string_view) : filter := v.predicate_

end filtered_string_view

/-- A `const char*` that moves over an array: the array and the offset in it. -/
structure char_ptr where
  buf : Option (List Char)
  off : Int
deriving DecidableEq

/-- The read `*p`; there is nothing to read before the array or past its terminator. -/
def char_ptr.deref (p : char_ptr) : Option Char :=
  if p.off < 0 then none else index p.buf p.off.toNat

/-- The number of characters from `p` to the terminator of its array, terminator included:
the reads a scan towards the end can make before it leaves the array. -/
def char_ptr.ahead (p : char_ptr) : Nat :=
  match p.buf with
  | none => 0
  | some buf => buf.length + 1 - p.off.toNat

/-- The nested class `iter`. -/
structure iter where
  data_ : char_ptr
  predicate_ : filter

namespace iter

/-- The loop `while (not(predicate_(*data_)) and *data_ != '\0') ++data_` of the constructor.
The first argument bounds the iterations by the reads left in the array, so it runs out only
where the next read is outside the array. -/
def skip : Nat → char_ptr → filter → Option iter
  | 0, _, _ => none
  | n + 1, data_, predicate_ =>
    match data_.deref with
    | none => none
    | some c =>
      let r := predicate_.call c
      if !r.1 && c != NUL then skip n { data_ with off := data_.off + 1 } r.2
      else some { data_ := data_, predicate_ := r.2 }

/-- The constructor `iter(const char* data, filter predicate)`. -/
def ctor (data : char_ptr) (predicate : filter) : Option iter :=
  skip data.ahead data predicate

/-- The loop `do ++data_ while (not(predicate_(*data_)) and *data_ != '\0')`. -/
def increment_loop : Nat → iter → Option iter
  | 0, _ => none
  | n + 1, it =>
    let data_ : char_ptr := { it.data_ with off := it.data_.off + 1 }
    match data_.deref with
    | none => none
    | some c =>
      let r := it.predicate_.call c
      if !r.1 && c != NUL then increment_loop n { data_ := data_, predicate_ := r.2 }
      else some { data_ := data_, predicate_ := r.2 }

/-- Helper function `iterate_pre_increment`. -/
def iterate_pre_increment (it : iter) : Option iter :=
  increment_loop it.data_.ahead it

/-- The loop `do --data_ while (not(predicate_(*data_)) and *data_ != '\0')`. -/
def decrement_loop : Nat → iter → Option iter
  | 0, _ => none
  | n + 1, it =>
    let data_ : char_ptr := { it.data_ with off := it.data_.off - 1 }
    match data_.deref with
    | none => none
    | some c =>
      let r := it.predicate_.call c
      if !r.1 && c != NUL then decrement_loop n { data_ := data_, predicate_ := r.2 }
      else some { data_ := data_, predicate_ := r.2 }

/-- Helper function `iterate_pre_decrement`; the loop can read the `off` characters before
the cursor and no more. -/
def iterate_pre_decrement (it : iter) : Option iter :=
  decrement_loop it.data_.off.toNat it

/-- Member operator `operator*`. -/
def deref (it : iter) : Option Char := it.data_.deref

/-- Member operator `operator++()`. -/
def pre_increment (it : iter) : Option iter := it.iterate_pre_increment

/-- Member operator `operator++(int)`: the returned copy, and the iterator afterwards. -/
def post_increment (it : iter) : Option (iter × iter) :=
  it.iterate_pre_increment.map fun next => (it, next)

/-- Member operator `operator--()`. -/
def pre_decrement (it : iter) : Option iter := it.iterate_pre_decrement

/-- Member operator `operator--(int)`: the returned copy, and the iterator afterwards. -/
def post_decrement (it : iter) : Option (iter × iter) :=
  it.iterate_pre_decrement.map fun next => (it, next)

/-- Friend `operator==` of two iterators. -/
def eq (lhs rhs : iter) : Bool :=
  if lhs.data_ ≠ rhs.data_ then false
  else if lhs.predicate_.target_type ≠ rhs.predicate_.target_type then false
  else true

/-- Friend `operator!=` of two iterators. -/
def ne (lhs rhs : iter) : Bool := !(eq lhs rhs)

end iter

/-- The adaptor `std::reverse_iterator<iter>`, which holds the iterator `current`. -/
structure reverse_iterator where
  current : iter

namespace reverse_iterator

/-- The adaptor's `operator*`: `tmp = current; return *--tmp`. -/
def deref (r : reverse_iterator) : Option Char :=
  match r.current.pre_decrement with
  | none => none
  | some tmp => tmp.deref

/-- The adaptor's `operator++()`: `--current`. -/
def pre_increment (r : reverse_iterator) : Option reverse_iterator :=
  r.current.pre_decrement.map fun c => { current := c }

/-- The adaptor's `operator++(int)`: the returned copy, and the adaptor afterwards. -/
def post_increment (r : reverse_iterator) : Option (reverse_iterator × reverse_iterator) :=
  r.current.pre_decrement.map fun c => (r, { current := c })

/-- The adaptor's `operator--()`: `++current`. -/
def pre_decrement (r : reverse_iterator) : Option reverse_iterator :=
  r.current.pre_increment.map fun c => { current := c }

/-- The adaptor's `operator!=`: the two `current` compared. -/
def ne (x y : reverse_iterator) : Bool := iter.ne x.current y.current

end reverse_iterator

namespace filtered_string_view

/-- Range `begin`. -/
def begin_ (v : filtered_string_view) : Option iter :=
  iter.ctor { buf := v.data_, off := 0 } v.predicate_

/-- Range `cbegin`. -/
def cbegin (v : filtered_string_view) : Option iter := v.begin_

/-- Range `end`: the iterator built at `data_ + size_`. -/
def end_ (v : filtered_string_view) : Option iter :=
  iter.ctor { buf := v.data_, off := v.size_ } v.predicate_

/-- Range `cend`. -/
def cend (v : filtered_string_view) : Option iter := v.end_

/-- Range `rbegin`: `reverse_iterator(end())` is post-incremented and the copy taken before
the increment is what is returned. -/
def rbegin (v : filtered_string_view) : Option reverse_iterator :=
  match v.end_ with
  | none => none
  | some e =>
    let forward_rbegin : reverse_iterator := { current := e }
    forward_rbegin.post_increment.map fun r => r.1

/-- Range `crbegin`. -/
def crbegin (v : filtered_string_view) : Option reverse_iterator := v.rbegin

/-- Range `rend`: `reverse_iterator(begin())`, pre-decremented. -/
def rend (v : filtered_string_view) : Option reverse_iterator :=
  match v.begin_ with
  | none => none
  | some b =>
    let forward_rend : reverse_iterator := { current := b }
    forward_rend.pre_decrement

/-- Range `crend`. -/
def crend (v : filtered_string_view) : Option reverse_iterator := v.rend

end filtered_string_view

/-- The algorithm `std::equal` on two ranges of `iter`, which are not random access:
`for (; first1 != last1 && first2 != last2; ++first1, ++first2) if (!(*first1 == *first2))
return false; return first1 == last1 && first2 == last2;`. The first argument bounds the
number of iterations. -/
def std_equal : Nat → iter → iter → iter → iter → Option Bool
  | 0, _, _, _, _ => none
  | n + 1, first1, last1, first2, last2 =>
    if first1.ne last1 && first2.ne last2 then
      match first1.deref, first2.deref with
      | some c1, some c2 =>
        if !(c1 == c2) then some false
        else
          match first1.pre_increment, first2.pre_increment with
          | some next1, some next2 => std_equal n next1 last1 next2 last2
          | _, _ => none
      | _, _ => none
    else some (first1.eq last1 && first2.eq last2)

/-- The value of a `char`, a signed byte: the codes 128 to 255 are the values -128 to -1. -/
def char_value (c : Char) : Int :=
  if 128 ≤ c.toNat ∧ c.toNat < 256 then (c.toNat : Int) - 256 else (c.toNat : Int)

/-- The comparison `c1 <=> c2` of two `char`s. -/
def char_cmp (c1 c2 : Char) : Ordering :=
  compare (char_value c1) (char_value c2)

/-- The algorithm `std::lexicographical_compare_three_way` with `std::compare_three_way`:
`while (first1 != last1) { if (first2 == last2) return greater; if (auto c = *first1 <=>
*first2; c != 0) return c; ++first1; ++first2; } return first2 == last2 ? equal : less;`.
`Ordering.lt`, `.eq`, `.gt` are `std::strong_ordering::less`, `equal`, `greater`. -/
def std_lexicographical_compare_three_way :
    Nat → iter → iter → iter → iter → Option Ordering
  | 0, _, _, _, _ => none
  | n + 1, first1, last1, first2, last2 =>
    if first1.ne last1 then
      if first2.eq last2 then some .gt
      else
        match first1.deref, first2.deref with
        | some c1, some c2 =>
          if char_cmp c1 c2 ≠ .eq then some (char_cmp c1 c2)
          else
            match first1.pre_increment, first2.pre_increment with
            | some next1, some next2 =>
              std_lexicographical_compare_three_way n next1 last1 next2 last2
            | _, _ => none
        | _, _ => none
    else some (if first2.eq last2 then .eq else .lt)

/-- Non-member `operator==`. Each iteration of `std::equal` moves `first1` at least one
character on, so there are no more iterations than characters in the array of `lhs`. -/
def operator_eq (lhs rhs : filtered_string_view) : Option Bool :=
  match lhs.cbegin, lhs.cend, rhs.cbegin, rhs.cend with
  | some first1, some last1, some first2, some last2 =>
    std_equal (first1.data_.ahead + 1) first1 last1 first2 last2
  | _, _, _, _ => none

/-- Non-member `operator<=>`. -/
def operator_cmp (lhs rhs : filtered_string_view) : Option Ordering :=
  match lhs.begin_, lhs.end_, rhs.begin_, rhs.end_ with
  | some first1, some last1, some first2, some last2 =>
    std_lexicographical_compare_three_way (first1.data_.ahead + 1) first1 last1 first2 last2
  | _, _, _, _ => none

/-- The loop `for (auto it = first; it != last; ++it) out.push_back(*it)` of a caller, which
is also the loop of `operator<<`; the first argument bounds the number of iterations. -/
def iterate : Nat → iter → iter → Option (List Char)
  | 0, _, _ => none
  | n + 1, it, last =>
    if it.ne last then
      match it.deref, it.pre_increment with
      | some c, some next => (iterate n next last).map fun cs => c :: cs
      | _, _ => none
    else some []

/-- The characters met by `for (auto it = v.begin(); it != v.end(); ++it)`. -/
def forward_loop (fuel : Nat) (v : filtered_string_view) : Option (List Char) :=
  match v.begin_, v.end_ with
  | some first, some last => iterate fuel first last
  | _, _ => none

/-- Non-member utility function `compose`. -/
def compose (fsv : filtered_string_view) (filts : List filter) :
    Option filtered_string_view :=
  if filts.isEmpty then filtered_string_view.of_cstr_pred fsv.data default_predicate
  else
    let new_predicate := filter.compose_closure filts
    filtered_string_view.of_cstr_pred fsv.data new_predicate

/-- The constructor `std::string(const char*)`: the characters before the first `'\0'`. -/
def std_string (s : List Char) : List Char :=
  s.takeWhile fun c => c != NUL

/-- The search of `std::string::find` from index `i`, `n` start positions left to try. -/
def find_loop (str tok : List Char) : Nat → Nat → Nat
  | 0, _ => npos
  | n + 1, i => if (str.drop i).take tok.length = tok then i else find_loop str tok n (i + 1)

/-- The member `std::string::find(tok, pos)`: the first index from `pos` on at which `tok`
occurs in `str`, `npos` when there is none. -/
def find (str tok : List Char) (pos : Nat) : Nat :=
  if str.length < pos + tok.length then npos
  else find_loop str tok (str.length - tok.length - pos + 1) pos

/-- The `while` loop of `split` and the `emplace_back` after it. The first argument bounds
the number of iterations. -/
def split_loop (data : Option (List Char)) (predicate : filter)
    (fsv_data tok_data : List Char) :
    Nat → Nat → Nat → List filtered_string_view → Option (List filtered_string_view)
  | 0, _, _, _ => none
  | n + 1, fsv_index, end_split_index, result =>
    if end_split_index ≠ npos then
      match filtered_string_view.of_cstr_pred data
          (filter_split predicate fsv_data.length fsv_index
            ((end_split_index + 2 ^ 64 - 1) % 2 ^ 64)) with
      | none => none
      | some segment =>
        let fsv_index := end_split_index + tok_data.length
        split_loop data predicate fsv_data tok_data n fsv_index
          (find fsv_data tok_data fsv_index) (result ++ [segment])
    else
      match filtered_string_view.of_cstr_pred data
          (filter_split predicate fsv_data.length fsv_index fsv_data.length) with
      | none => none
      | some segment => some (result ++ [segment])

/-- Non-member utility function `split`. The calls `fsv.empty()` and `tok.empty()` act on
the closures held by the arguments, so the copy of `fsv` that is returned, and the predicate
the segments capture, are those after `fsv.empty()`. An occurrence of a token of at least one
character starts at a new index below `fsv_data.length` each time, which bounds the loop; with
a token text of no character the search finds index `0` for ever and the loop does not end. -/
def split (fsv tok : filtered_string_view) : Option (List filtered_string_view) :=
  match fsv.empty with
  | none => none
  | some (fsv_empty, fsv) =>
    if fsv_empty then some [fsv]
    else
      match tok.empty with
      | none => none
      | some (tok_empty, tok) =>
        if tok_empty then some [fsv]
        else
          match fsv.data, tok.data with
          | some fsv_chars, some tok_chars =>
            let fsv_data := std_string fsv_chars
            let tok_data := std_string tok_chars
            split_loop fsv.data fsv.predicate fsv_data tok_data (fsv_data.length + 2) 0
              (find fsv_data tok_data 0) []
          | _, _ => none

/-! ## Notions the statements are written in -/

/-- The characters of `cs` that `f` accepts when it is called on each character of `cs` in
turn, and `f` after these calls. For a stateless callable these are the characters that
satisfy it. -/
def filter.scan : filter → List Char → List Char × filter
  | f, [] => ([], f)
  | f, c :: cs =>
    let r := f.call c
    let rest := filter.scan r.2 cs
    (if r.1 then c :: rest.1 else rest.1, rest.2)

namespace filtered_string_view

/-- The characters of the array of the view, none for `nullptr`. -/
def chars (v : filtered_string_view) : List Char := v.data_.getD []

/-- The raw buffer of the view: the first `size_` characters of its array. -/
def raw (v : filtered_string_view) : List Char := v.chars.take v.size_

/-- The filtered content of the view: the characters of its raw buffer, in buffer order,
that its predicate accepts. -/
def content (v : filtered_string_view) : List Char := (v.predicate_.scan v.raw).1

/-- The view after its predicate has been called on every character of the raw buffer. -/
def after_pass (v : filtered_string_view) : filtered_string_view :=
  { v with predicate_ := (v.predicate_.scan v.raw).2 }

/-- What every constructor establishes: `size_` characters lie in the array (none when
`data_` is `nullptr`), and the character at offset `size_` is `'\0'`. -/
def valid (v : filtered_string_view) : Prop :=
  v.size_ ≤ v.chars.length ∧ (v.chars ++ [NUL])[v.size_]? = some NUL

/-- No raw character of the view is `'\0'`. -/
def nul_free (v : filtered_string_view) : Prop := NUL ∉ v.raw

end filtered_string_view

/-- The position of an iterator in a forward pass over the array `buf` of a view of `n` raw
characters: `stands_at buf n ty L it` says that `L` are the characters still to be met from
`it` on. With no character left, `it` is at offset `n`, where `end()` is; otherwise `it` is
before offset `n`, reads the first character of `L`, and `++it` stands at the rest. `ty` is
the `target_type()` of the predicate of `it`. -/
def stands_at (buf : List Char) (n : Nat) (ty : type_info) : List Char → iter → Prop
  | [], it => it.data_ = { buf := some buf, off := n } ∧ it.predicate_.target_type = ty
  | c :: L, it =>
    ∃ j : Nat, j + L.length < n ∧ it.data_ = { buf := some buf, off := j } ∧
      it.predicate_.target_type = ty ∧ it.deref = some c ∧
      ∃ next, it.pre_increment = some next ∧ stands_at buf n ty L next

/-- Lexicographic order in the words of the specification: `x` is a proper prefix of `y`, or
after a common prefix `pre` the first character that differs is smaller in `x`. -/
def lex_less (x y : List Char) : Prop :=
  (∃ c t, y = x ++ c :: t) ∨
  ∃ pre c d s t, x = pre ++ c :: s ∧ y = pre ++ d :: t ∧ c < d

/-- Three-way comparison of two character lists, by recursion on both. -/
def lex3 : List Char → List Char → Ordering
  | [], [] => .eq
  | [], _ :: _ => .lt
  | _ :: _, [] => .gt
  | c :: x, d :: y => if compare c d ≠ .eq then compare c d else lex3 x y

/-- Three-way comparison of two character lists by the values of their `char`s, by recursion
on both. -/
def lex3_char : List Char → List Char → Ordering
  | [], [] => .eq
  | [], _ :: _ => .lt
  | _ :: _, [] => .gt
  | c :: x, d :: y => if char_cmp c d ≠ .eq then char_cmp c d else lex3_char x y

/-- The characters of the list are ASCII: their codes are below 128. -/
def ascii (x : List Char) : Prop := ∀ c ∈ x, c.toNat < 128

instance (x : List Char) : Decidable (ascii x) := by
  unfold ascii; infer_instance

instance (v : filtered_string_view) : Decidable v.valid := by
  unfold filtered_string_view.valid; infer_instance

instance (v : filtered_string_view) : Decidable v.nul_free := by
  unfold filtered_string_view.nul_free; infer_instance

/-! ## Views of the test suite and of the examples -/

/-- The predicate `c == x`; `id` stands for the type of the lambda. -/
def is_char (id : Nat) (x : Char) : filter := .fn id fun c => c == x

/-- The view of `"Toy Poodle"` with the predicate `c == 'o'`. -/
def toy_poodle : filtered_string_view :=
  filtered_string_view.of_string_pred ['T', 'o', 'y', ' ', 'P', 'o', 'o', 'd', 'l', 'e']
    (is_char 1 'o')

/-- The view of `"doggo"` with the predicate `c == 'g'`. -/
def doggo : filtered_string_view :=
  filtered_string_view.of_string_pred ['d', 'o', 'g', 'g', 'o'] (is_char 1 'g')

/-- The view of `"gg"`. -/
def gg : filtered_string_view := filtered_string_view.of_string ['g', 'g']

/-- The view of `"aaa"`. -/
def aaa : filtered_string_view := filtered_string_view.of_string ['a', 'a', 'a']

/-- The view of `"zzz"`. -/
def zzz : filtered_string_view := filtered_string_view.of_string ['z', 'z', 'z']

/-- The view of `"aa"`. -/
def aa : filtered_string_view := filtered_string_view.of_string ['a', 'a']

/-- The view of `"abcadef"` with the predicate `!(c == 'a')`. -/
def abcadef : filtered_string_view :=
  filtered_string_view.of_string_pred ['a', 'b', 'c', 'a', 'd', 'e', 'f']
    (.fn 1 fun c => !(c == 'a'))

/-- The view of `"c / c++"`. -/
def best_languages : filtered_string_view :=
  filtered_string_view.of_string ['c', ' ', '/', ' ', 'c', '+', '+']

/-- The three predicates of the `Compose` test. -/
def best_languages_filters : List (Nat × (Char → Bool)) :=
  [(1, fun c => c == 'c' || c == '+' || c == '/'), (2, fun c => c > ' '), (3, fun _ => true)]

/-- The view of the `std::string` of the three characters `'a'`, `'\0'`, `'a'`, with the
predicate `c == 'a'`. -/
def with_nul : filtered_string_view :=
  filtered_string_view.of_string_pred ['a', NUL, 'a'] (is_char 1 'a')

/-- The view of the `std::string` of the three characters `'a'`, `'\0'`, `'b'`. -/
def a_nul_b : filtered_string_view := filtered_string_view.of_string ['a', NUL, 'b']

/-- The result of `split("xax", "x")`. -/
def xax_segments : Option (List filtered_string_view) :=
  split (filtered_string_view.of_string ['x', 'a', 'x']) (filtered_string_view.of_string ['x'])

/-- The second segment of `split("xax", "x")`: the array `"xax"` with the closure
`filter_split(default_predicate, 3, 1, 1)`. -/
def xax_middle : filtered_string_view :=
  { data_ := some ['x', 'a', 'x'], size_ := 3
    predicate_ := filter_split default_predicate 3 1 1 }

end fsv

/-! ## `substr` -/

namespace fsv

/-- The conversion `static_cast<int>` of a `std::size_t`: the value modulo `2 ^ 32`, read as a
signed 32-bit number. -/
def to_int (n : Nat) : Int :=
  if n % 2 ^ 32 < 2 ^ 31 then ((n % 2 ^ 32 : Nat) : Int) else ((n % 2 ^ 32 : Nat) : Int) - 2 ^ 32

/-- The conversion `static_cast<std::size_t>` of an `int`: the value modulo `2 ^ 64`. -/
def to_size_t (x : Int) : Nat := (x % 2 ^ 64).toNat

/-- The loop of `substr` over the characters of `fsv_string`: `fsv_offset` counts the
characters before the first one that `fsv_predicate` accepts. The local copy `fsv_predicate`
is the one that is called, and it is returned as the calls leave it. -/
def substr_offset_loop : List Char → filter → Int → Int × filter
  | [], fsv_predicate, fsv_offset => (fsv_offset, fsv_predicate)
  | c :: rest, fsv_predicate, fsv_offset =>
    let r := fsv_predicate.call c
    if r.1 then (fsv_offset, r.2) else substr_offset_loop rest r.2 (fsv_offset + 1)

/-- Non-member utility function `substr`; the defaults of `pos` and `count` are `0`. The sums
and differences of `int`s are taken in `Int`. -/
def substr (fsv : filtered_string_view) (pos count : Int) : Option filtered_string_view :=
  match fsv.data with
  | none => none
  | some chars =>
    let fsv_string := std_string chars
    let size_fsv_data := fsv_string.length
    let rcount := if count ≤ 0 then to_int size_fsv_data - pos else count
    let r := substr_offset_loop fsv_string fsv.predicate 0
    let fsv_offset := r.1
    let fsv_predicate := r.2
    let substr_start := to_size_t (pos + fsv_offset)
    let new_predicate := filter_substr fsv_predicate substr_start size_fsv_data (to_size_t rcount)
    filtered_string_view.of_cstr_pred fsv.data new_predicate

/-! ## Notions the statements on `split` are written in -/

/-- The text `t` occurs in `s` at index `j`. -/
def occurs_at (s t : List Char) (j : Nat) : Prop :=
  j + t.length ≤ s.length ∧ (s.drop j).take t.length = t

instance (s t : List Char) (j : Nat) : Decidable (occurs_at s t j) := by
  unfold occurs_at; infer_instance

/-- The successive occurrences of `t` in `s` that a left-to-right search from index `start`
finds, each search starting where the occurrence before it ends: `cuts s t start es` says that
`es` lists their indices. Each `e` is the first index from the current start on at which `t`
occurs, and after the last of them `t` occurs no more. -/
def cuts (s t : List Char) : Nat → List Nat → Prop
  | start, [] => ∀ j ≤ s.length, start ≤ j → ¬ occurs_at s t j
  | start, e :: es =>
    start ≤ e ∧ occurs_at s t e ∧ (∀ j < e, start ≤ j → ¬ occurs_at s t j) ∧
      cuts s t (e + t.length) es

/-- Whether `es` lists the successive occurrences can be computed. -/
def cuts_decidable (s t : List Char) : (es : List Nat) → (start : Nat) →
    Decidable (cuts s t start es)
  | [], start =>
    inferInstanceAs (Decidable (∀ j ≤ s.length, start ≤ j → ¬ occurs_at s t j))
  | e :: es, start =>
    have := cuts_decidable s t es (e + t.length)
    inferInstanceAs (Decidable (start ≤ e ∧ occurs_at s t e ∧
      (∀ j < e, start ≤ j → ¬ occurs_at s t j) ∧ cuts s t (e + t.length) es))

instance (s t : List Char) (start : Nat) (es : List Nat) : Decidable (cuts s t start es) :=
  cuts_decidable s t es start

/-- The gaps between the occurrences at the indices `es` of a text of `len` characters in a
text of `n` characters, as pairs of a first index and an index one past the last: from
`start` to the first occurrence, between two occurrences that follow each other, and from the
end of the last occurrence to `n`. -/
def gaps (n len : Nat) : Nat → List Nat → List (Nat × Nat)
  | start, [] => [(start, n)]
  | start, e :: es => (start, e) :: gaps n len (e + len) es

/-- The characters of `s` at the indices of the gap `g`. -/
def piece (s : List Char) (g : Nat × Nat) : List Char := (s.take g.2).drop g.1

/-- The pieces of `s` between the occurrences at the indices `es` of a text of `len`
characters. -/
def slices (s : List Char) (len : Nat) (start : Nat) (es : List Nat) : List (List Char) :=
  (gaps s.length len start es).map (piece s)

/-- The views that `split` builds over the array `buf` for a source predicate `predicate`,
when `n` is the length of the source text and the token text, of `len` characters, is found
at the indices `es`: one `filter_split` closure for the gap before each occurrence, with
`end_split_index - 1` as its `end_index`, and one for the gap after the last. -/
def split_views (buf : List Char) (predicate : filter) (n len : Nat) :
    Nat → List Nat → List filtered_string_view
  | start, [] =>
    [{ data_ := some buf, size_ := strlen buf, predicate_ := filter_split predicate n start n }]
  | start, e :: es =>
    { data_ := some buf, size_ := strlen buf
      predicate_ := filter_split predicate n start ((e + 2 ^ 64 - 1) % 2 ^ 64) }
      :: split_views buf predicate n len (e + len) es

/-- The texts `xs` concatenated in order, with `sep` between two that follow each other. -/
def join_with (sep : List Char) : List (List Char) → List Char
  | [] => []
  | [x] => x
  | x :: y :: ys => x ++ sep ++ join_with sep (y :: ys)

/-! ## More views of the test suite and of the examples -/

/-- The view of `"Sled Dog"` with the predicate `!(c == 'S' || c == 'D')`. -/
def sled_dog : filtered_string_view :=
  filtered_string_view.of_string_pred ['S', 'l', 'e', 'd', ' ', 'D', 'o', 'g']
    (.fn 1 fun c => !(c == 'S' || c == 'D'))

/-- The view of `"Siberian Husky"`. -/
def siberian_husky : filtered_string_view :=
  filtered_string_view.of_string
    ['S', 'i', 'b', 'e', 'r', 'i', 'a', 'n', ' ', 'H', 'u', 's', 'k', 'y']

/-- The view of `"xax"`. -/
def xax : filtered_string_view := filtered_string_view.of_string ['x', 'a', 'x']

/-- The view of `"x"`. -/
def x_token : filtered_string_view := filtered_string_view.of_string ['x']

/-- The view of `"abcde"`. -/
def abcde : filtered_string_view := filtered_string_view.of_string ['a', 'b', 'c', 'd', 'e']

/-- The view of `"z"`. -/
def z_token : filtered_string_view := filtered_string_view.of_string ['z']

/-- The view of `""`. -/
def empty_text : filtered_string_view := filtered_string_view.of_string []

/-- The view of `"axb"` with the predicate `c != 'x'`, whose filtered content is `"ab"`. -/
def axb : filtered_string_view :=
  filtered_string_view.of_string_pred ['a', 'x', 'b'] (.fn 1 fun c => c != 'x')

/-- The view of `"ab"`. -/
def ab_token : filtered_string_view := filtered_string_view.of_string ['a', 'b']

/-- The view of `"a/xb"`. -/
def a_slash_xb : filtered_string_view :=
  filtered_string_view.of_string ['a', '/', 'x', 'b']

/-- The view of `"/x"` with the predicate `c == '/'`, whose filtered content is `"/"`. -/
def slash_x_token : filtered_string_view :=
  filtered_string_view.of_string_pred ['/', 'x'] (is_char 1 '/')

/-- The predicate of the test `Split - tok is underlying string`: the hexadecimal letters,
the space and `'/'`. -/
def interest (c : Char) : Bool :=
  ['a', 'A', 'b', 'B', 'c', 'C', 'd', 'D', 'e', 'E', 'f', 'F', ' ', '/'].contains c

/-- The view of `"0xDEADBEEF / 0xdeadbeef"` with the predicate `interest`. -/
def deadbeef : filtered_string_view :=
  filtered_string_view.of_string_pred
    ['0', 'x', 'D', 'E', 'A', 'D', 'B', 'E', 'E', 'F', ' ', '/', ' ',
      '0', 'x', 'd', 'e', 'a', 'd', 'b', 'e', 'e', 'f'] (.fn 1 interest)

/-- The view of `" / "`. -/
def slash_token : filtered_string_view := filtered_string_view.of_string [' ', '/', ' ']

/-- The view of a `std::string` of `2 ^ 32` characters `'a'`. -/
def long_text : filtered_string_view :=
  filtered_string_view.of_string (List.replicate (2 ^ 32) 'a')

end fsv

namespace fsv

namespace filtered_string_view

/-- The loop of `operator[]`: `some c` is the character returned from inside the loop, `none`
says that the loop ended. `index` is an `int`, incremented by `++index`. -/
def subscript_loop (data_ : Option (List Char)) (n : Int) :
    Nat → Nat → filter → Int → Option (Option Char × filter)
  | 0, _, predicate_, _ => some (none, predicate_)
  | m + 1, i, predicate_, index_ =>
    match index data_ i with
    | none => none
    | some c =>
      let r := predicate_.call c
      if r.1 then
        if index_ = n then some (some c, r.2)
        else subscript_loop data_ n m (i + 1) r.2 (int_succ index_)
      else subscript_loop data_ n m (i + 1) r.2 index_

/-- Member operator `operator[]`: the character returned and the view after the call. After
the loop it returns `data_[size_]`. -/
def operator_subscript (v : filtered_string_view) (n : Int) :
    Option (Char × filtered_string_view) :=
  match subscript_loop v.data_ n v.size_ 0 v.predicate_ 0 with
  | none => none
  | some (some c, predicate_) => some (c, { v with predicate_ := predicate_ })
  | some (none, predicate_) =>
    (index v.data_ v.size_).map fun c => (c, { v with predicate_ := predicate_ })

/-- Move assignment `self = std::move(other)` between two distinct objects (`this != &other`):
the new value of `self` and what is left in `other`. -/
def move_assign (_self other : filtered_string_view) :
    filtered_string_view × filtered_string_view :=
  (other, { data_ := none, size_ := 0, predicate_ := default_predicate })

end filtered_string_view

/-! ## Iteration over any array -/

/-- The characters that a forward pass of iterators meets in `cs`: an iterator stops where the
predicate accepts the character and at every `'\0'`. The predicate is called once on each
character, in order. -/
def filter.visit : filter → List Char → List Char
  | _, [] => []
  | f, c :: cs =>
    if (f.call c).1 || c == NUL then c :: filter.visit (f.call c).2 cs
    else filter.visit (f.call c).2 cs

/-- The characters that a forward pass of iterators meets in a view. -/
def filtered_string_view.visited (v : filtered_string_view) : List Char :=
  v.predicate_.visit v.raw

/-! ## Views of the test suite and of the examples, continued -/

/-- The view of `"only 90s kids understand"` with the predicate
`c == '9' || c == '0' || c == ' '`. -/
def only_90s : filtered_string_view :=
  filtered_string_view.of_string_pred
    ['o', 'n', 'l', 'y', ' ', '9', '0', 's', ' ', 'k', 'i', 'd', 's', ' ',
      'u', 'n', 'd', 'e', 'r', 's', 't', 'a', 'n', 'd']
    (.fn 1 fun c => c == '9' || c == '0' || c == ' ')

/-- The view of `"Border Collie"` with the predicate `c == 'z'`. -/
def border_collie : filtered_string_view :=
  filtered_string_view.of_string_pred
    ['B', 'o', 'r', 'd', 'e', 'r', ' ', 'C', 'o', 'l', 'l', 'i', 'e'] (is_char 1 'z')

/-- The view of `"Australian Shephard"`. -/
def australian_shephard : filtered_string_view :=
  filtered_string_view.of_string
    ['A', 'u', 's', 't', 'r', 'a', 'l', 'i', 'a', 'n', ' ',
      'S', 'h', 'e', 'p', 'h', 'a', 'r', 'd']

/-- The view of `"'89 baby"` with the predicate `c == '8' || c == '9'`. -/
def baby_89 : filtered_string_view :=
  filtered_string_view.of_string_pred [Char.ofNat 39, '8', '9', ' ', 'b', 'a', 'b', 'y']
    (.fn 1 fun c => c == '8' || c == '9')

/-- The view of the `std::string` of the two characters `'\0'`, `'a'` with the predicate
`c == 'a'`. -/
def nul_a_token : filtered_string_view :=
  filtered_string_view.of_string_pred [NUL, 'a'] (is_char 1 'a')

/-- The view of the `std::string` of the one character of code 233 (`'\xE9'`). -/
def e_acute : filtered_string_view := filtered_string_view.of_string [Char.ofNat 233]

/-- The view of `"a"`. -/
def a_text : filtered_string_view := filtered_string_view.of_string ['a']

end fsv
/-! ## The member functions that scan the buffer -/

namespace fsv

open filtered_string_view

/-- A stateless callable accepts the characters that satisfy it and is not changed. -/
theorem scan_fn (id : Nat) (p : Char → Bool) (cs : List Char) :
    (filter.fn id p).scan cs = (cs.filter p, .fn id p) := by
  induction cs with
  | nil => rfl
  | cons c cs ih =>
    simp only [filter.scan, filter.call, ih, List.filter_cons]

/-- A read inside the array. -/
theorem index_lt (buf : List Char) (i : Nat) (h : i < buf.length) :
    index (some buf) i = some buf[i] := by
  simp [index, List.getElem?_append_left, h]

/-- The window of `n + 1` characters from index `i` starts with the character at `i`. -/
theorem drop_take_succ (buf : List Char) (i n : Nat) (h : i < buf.length) :
    (buf.drop i).take (n + 1) = buf[i] :: (buf.drop (i + 1)).take n := by
  rw [List.drop_eq_getElem_cons h]; rfl

/-- The loop of `size` counts the characters its predicate accepts. -/
theorem size_loop_eq (buf : List Char) (n : Nat) : ∀ (i : Nat) (f : filter) (cnt : Nat),
    i + n ≤ buf.length →
    size_loop (some buf) n i f cnt
      = some (cnt + (f.scan ((buf.drop i).take n)).1.length, (f.scan ((buf.drop i).take n)).2) := by
  induction n with
  | zero => intro i f cnt _; simp [size_loop, filter.scan]
  | succ n ih =>
    intro i f cnt h
    have hi : i < buf.length := by omega
    rw [size_loop, index_lt buf i hi, drop_take_succ buf i n hi]
    simp only [filter.scan]
    rw [ih (i + 1) _ _ (by omega)]
    split
    · simp; omega
    · simp

/-- The loop of the string conversion appends the characters its predicate accepts. -/
theorem string_loop_eq (buf : List Char) (n : Nat) : ∀ (i : Nat) (f : filter) (acc : List Char),
    i + n ≤ buf.length →
    string_loop (some buf) n i f acc
      = some (acc ++ (f.scan ((buf.drop i).take n)).1, (f.scan ((buf.drop i).take n)).2) := by
  induction n with
  | zero => intro i f cnt _; simp [string_loop, filter.scan]
  | succ n ih =>
    intro i f cnt h
    have hi : i < buf.length := by omega
    rw [string_loop, index_lt buf i hi, drop_take_succ buf i n hi]
    simp only [filter.scan]
    rw [ih (i + 1) _ _ (by omega)]
    split <;> simp


/-- The loop of `at` returns the accepted character of index `k` when there is one. -/
theorem at_loop_ok (buf : List Char) (idx : Int) (n : Nat) :
    ∀ (i : Nat) (f : filter) (k : Nat), i + n ≤ buf.length →
    k < (f.scan ((buf.drop i).take n)).1.length →
    ∃ c f', at_loop (some buf) idx n i f (k : Int) = some (.ok c, f') ∧
      (f.scan ((buf.drop i).take n)).1[k]? = some c := by
  induction n with
  | zero => intro i f k _ hk; simp [filter.scan] at hk
  | succ n ih =>
    intro i f k h hk
    have hi : i < buf.length := by omega
    rw [drop_take_succ buf i n hi] at hk ⊢
    rw [at_loop, index_lt buf i hi]
    simp only [filter.scan] at hk ⊢
    by_cases hr : (f.call buf[i]).1 = true
    · simp only [hr, if_true] at hk ⊢
      cases k with
      | zero => exact ⟨buf[i], (f.call buf[i]).2, by simp, by simp⟩
      | succ k =>
        have hk' : k < ((f.call buf[i]).2.scan ((buf.drop (i + 1)).take n)).1.length := by
          simpa using hk
        obtain ⟨c, f', h1, h2⟩ := ih (i + 1) _ k (by omega) hk'
        refine ⟨c, f', ?_, by simpa using h2⟩
        have : ((k + 1 : Nat) : Int) ≠ 0 := by omega
        simp only [this, if_false]
        have e : int_pred ((k + 1 : Nat) : Int) = (k : Int) := by
          unfold int_pred
          split <;> omega
        rw [e]; exact h1
    · simp only [hr] at hk ⊢
      obtain ⟨c, f', h1, h2⟩ := ih (i + 1) _ k (by omega) hk
      exact ⟨c, f', by simpa using h1, h2⟩

/-- The loop of `at` throws for a position past the accepted characters. -/
theorem at_loop_error (buf : List Char) (idx : Int) (n : Nat) :
    ∀ (i : Nat) (f : filter) (position : Int), i + n ≤ buf.length →
    ((f.scan ((buf.drop i).take n)).1.length : Int) ≤ position →
    at_loop (some buf) idx n i f position
      = some (.error (at_message idx), (f.scan ((buf.drop i).take n)).2) := by
  induction n with
  | zero => intro i f k _ _; simp [filter.scan, at_loop]
  | succ n ih =>
    intro i f position h hp
    have hi : i < buf.length := by omega
    rw [drop_take_succ buf i n hi] at hp ⊢
    rw [at_loop, index_lt buf i hi]
    simp only [filter.scan] at hp ⊢
    by_cases hr : (f.call buf[i]).1 = true
    · simp only [hr, if_true] at hp ⊢
      simp only [List.length_cons, Nat.cast_add, Nat.cast_one] at hp
      have hne : position ≠ 0 := by omega
      have e : int_pred position = position - 1 := by
        unfold int_pred
        split <;> omega
      simp only [hne, if_false, e]
      exact ih (i + 1) _ _ (by omega) (by omega)
    · simp only [hr] at hp ⊢
      simpa using ih (i + 1) _ position (by omega) hp

/-- A negative `position` is counted down to `INT_MIN` and wraps to `INT_MAX`: the loop of
`at` runs from a negative `int` as it runs from that number plus `2 ^ 32`. -/
theorem at_loop_wrap (data_ : Option (List Char)) (idx : Int) (n : Nat) :
    ∀ (i : Nat) (f : filter) (position : Int), -2 ^ 31 ≤ position → position < 0 →
    at_loop data_ idx n i f position = at_loop data_ idx n i f (position + 2 ^ 32) := by
  induction n with
  | zero => intro i f position _ _; rfl
  | succ n ih =>
    intro i f position hlo hneg
    rw [at_loop, at_loop]
    cases index data_ i with
    | none => rfl
    | some c =>
      simp only
      have h1 : position ≠ 0 := by omega
      have h2 : position + 2 ^ 32 ≠ 0 := by omega
      have e2 : int_pred (position + 2 ^ 32) = position + 2 ^ 32 - 1 := by
        unfold int_pred
        split <;> omega
      simp only [h1, h2, if_false, e2]
      split
      · by_cases hmin : position = -2 ^ 31
        · have e1 : int_pred position = position + 2 ^ 32 - 1 := by
            unfold int_pred
            rw [if_pos hmin]
            omega
          rw [e1]
        · have e1 : int_pred position = position - 1 := by
            unfold int_pred
            rw [if_neg hmin]
          have e3 : position + 2 ^ 32 - 1 = position - 1 + 2 ^ 32 := by omega
          rw [e1, e3]
          exact ih _ _ _ (by omega) (by omega)
      · exact ih _ _ _ hlo hneg

/-- Counting accepted positions is counting accepted characters. -/
theorem count_positions (p : Char → Bool) (buf : List Char) (n : Nat) (h : n ≤ buf.length) :
    ((List.range n).filter fun i => (index (some buf) i).any p).length
      = ((buf.take n).filter p).length := by
  induction n with
  | zero => simp
  | succ n ih =>
    have hn : n < buf.length := by omega
    rw [List.range_succ, List.filter_append, List.length_append, ih (by omega),
      List.take_succ, List.filter_append, List.length_append, List.getElem?_eq_getElem hn]
    by_cases hp : p buf[n] = true <;> simp [hp, List.filter_cons, index_lt buf n hn]

/-- A valid view is empty over `nullptr`, or lies inside its array. -/
theorem valid_cases (v : filtered_string_view) (hv : v.valid) :
    (v.data_ = none ∧ v.size_ = 0) ∨ ∃ buf, v.data_ = some buf ∧ v.size_ ≤ buf.length := by
  obtain ⟨h1, _⟩ := hv
  cases hd : v.data_ with
  | none => left; simpa [filtered_string_view.chars, hd] using h1
  | some buf => right; exact ⟨buf, rfl, by simpa [filtered_string_view.chars, hd] using h1⟩

/-- The result of `size` on a valid view. -/
theorem size_eq (v : filtered_string_view) (hv : v.valid) :
    v.size = some (v.content.length, v.after_pass) := by
  rcases valid_cases v hv with ⟨hd, hs⟩ | ⟨buf, hd, hs⟩
  · simp [size, content, after_pass, raw, chars, hd, hs, size_loop, filter.scan]
  · simp [size, content, after_pass, raw, chars, hd, size_loop_eq buf v.size_ 0 _ 0 (by omega)]

/-- The result of the string conversion on a valid view. -/
theorem operator_string_eq (v : filtered_string_view) (hv : v.valid) :
    v.operator_string = some (v.content, v.after_pass) := by
  rcases valid_cases v hv with ⟨hd, hs⟩ | ⟨buf, hd, hs⟩
  · simp [operator_string, content, after_pass, raw, chars, hd, hs, string_loop, filter.scan]
  · simp [operator_string, content, after_pass, raw, chars, hd,
      string_loop_eq buf v.size_ 0 _ [] (by omega)]

/-- The content of a view with a stateless predicate. -/
theorem content_fn (v : filtered_string_view) (id : Nat) (p : Char → Bool)
    (hp : v.predicate_ = .fn id p) : v.content = v.raw.filter p ∧ v.after_pass = v := by
  cases v with
  | mk d s f =>
    simp only at hp
    subst hp
    simp [content, after_pass, scan_fn]

/-- The result of `at` at an index below the number of accepted characters. -/
theorem at_ok (v : filtered_string_view) (hv : v.valid) (i : Nat)
    (hi : i < v.content.length) :
    ∃ c v2, v.at_ (i : Int) = some (.ok c, v2) ∧ v.content[i]? = some c := by
  rcases valid_cases v hv with ⟨hd, hs⟩ | ⟨buf, hd, hs⟩
  · simp [content, raw, chars, hd, hs, filter.scan] at hi
  · have hlen : i < (v.predicate_.scan ((buf.drop 0).take v.size_)).1.length := by
      simpa [content, raw, chars, hd] using hi
    obtain ⟨c, f', h1, h2⟩ := at_loop_ok buf i v.size_ 0 v.predicate_ i (by omega) hlen
    refine ⟨c, { v with predicate_ := f' }, ?_, ?_⟩
    · simp [at_, hd, h1]
    · simpa [content, raw, chars, hd] using h2

/-- The result of `at` at an index past the accepted characters, and at a negative `int`
whose countdown does not come round to 0 within the accepted characters. -/
theorem at_error (v : filtered_string_view) (hv : v.valid) (idx : Int)
    (hr : (v.content.length : Int) ≤ idx ∨
      (-2 ^ 31 ≤ idx ∧ idx < 0 ∧ (v.content.length : Int) ≤ idx + 2 ^ 32)) :
    v.at_ idx = some (.error (at_message idx), v.after_pass) := by
  rcases valid_cases v hv with ⟨hd, hs⟩ | ⟨buf, hd, hs⟩
  · simp [at_, after_pass, raw, chars, hd, hs, at_loop, filter.scan]
  · have hlen : v.content.length
        = (v.predicate_.scan ((buf.drop 0).take v.size_)).1.length := by
      simp [content, raw, chars, hd]
    have key : at_loop (some buf) idx v.size_ 0 v.predicate_ idx
        = some (.error (at_message idx), (v.predicate_.scan ((buf.drop 0).take v.size_)).2) := by
      rcases hr with hr | ⟨hlo, hneg, hr⟩
      · exact at_loop_error buf idx v.size_ 0 v.predicate_ idx (by omega) (by rw [← hlen]; exact hr)
      · rw [at_loop_wrap _ _ _ _ _ _ hlo hneg]
        exact at_loop_error buf idx v.size_ 0 v.predicate_ _ (by omega) (by rw [← hlen]; exact hr)
    simp [at_, after_pass, raw, chars, hd, key]

/-- The result of `at` at a negative `int` whose countdown comes round to 0 within the
accepted characters: the character of index `idx + 2 ^ 32` is returned. -/
theorem at_wrapped (v : filtered_string_view) (hv : v.valid) (idx : Int) (k : Nat)
    (hlo : -2 ^ 31 ≤ idx) (hneg : idx < 0) (hk : (k : Int) = idx + 2 ^ 32)
    (hlt : k < v.content.length) :
    ∃ c v2, v.at_ idx = some (.ok c, v2) ∧ v.content[k]? = some c := by
  rcases valid_cases v hv with ⟨hd, hs⟩ | ⟨buf, hd, hs⟩
  · simp [content, raw, chars, hd, hs, filter.scan] at hlt
  · have hlen : k < (v.predicate_.scan ((buf.drop 0).take v.size_)).1.length := by
      simpa [content, raw, chars, hd] using hlt
    obtain ⟨c, f', h1, h2⟩ := at_loop_ok buf idx v.size_ 0 v.predicate_ k (by omega) hlen
    refine ⟨c, { v with predicate_ := f' }, ?_, ?_⟩
    · rw [hk, ← at_loop_wrap _ _ _ _ _ _ hlo hneg] at h1
      simp [at_, hd, h1]
    · simpa [content, raw, chars, hd] using h2
/-! ## C1 to C4: `size`, the string conversion and `at` -/

/-- Claim C1: for a view `v` with a stateless predicate `p`, `v.size()` returns the number of
positions `i` below `size_` whose buffer character `data_[i]` satisfies `p`, and leaves the
view as it was. -/
theorem size_counts_accepted_positions (v : filtered_string_view) (hv : v.valid)
    (id : Nat) (p : Char → Bool) (hp : v.predicate_ = .fn id p) :
    v.size = some (((List.range v.size_).filter fun i => (index v.data_ i).any p).length, v) := by
  rw [size_eq v hv, (content_fn v id p hp).1, (content_fn v id p hp).2]
  rcases valid_cases v hv with ⟨hd, hs⟩ | ⟨buf, hd, hs⟩
  · simp [raw, chars, hd, hs]
  · simp only [hd, count_positions p buf v.size_ hs, raw, chars, Option.getD_some]

/-- Claim C1 on the test `size - with predicate`: `"Toy Poodle"` filtered by `c == 'o'` has
size 3. -/
theorem size_counts_accepted_positions_witness :
    toy_poodle.valid ∧ toy_poodle.size = some (3, toy_poodle) :=
  ⟨by decide, size_counts_accepted_positions toy_poodle (by decide) 1 (fun c => c == 'o') rfl⟩

/-- Claim C2: the string conversion of a view returns its filtered content, the characters of
the first `size_` positions of the buffer that the predicate accepts, in buffer order: for a
stateless predicate `p` these are the characters that satisfy `p`. `size` returns the length
of that string. -/
theorem operator_string_is_filtered_content (v : filtered_string_view) (hv : v.valid) :
    v.operator_string = some (v.content, v.after_pass) ∧
    v.size = some (v.content.length, v.after_pass) ∧
    ∀ (id : Nat) (p : Char → Bool), v.predicate_ = .fn id p →
      v.content = (v.chars.take v.size_).filter p ∧ v.after_pass = v :=
  ⟨operator_string_eq v hv, size_eq v hv, fun id p hp => content_fn v id p hp⟩

/-- Claim C2 on `"doggo"` filtered by `c == 'g'`: the conversion gives `"gg"`. -/
theorem operator_string_is_filtered_content_witness :
    doggo.valid ∧ doggo.operator_string = some (doggo.content, doggo.after_pass) ∧
    doggo.content = ['g', 'g'] :=
  ⟨by decide, (operator_string_is_filtered_content doggo (by decide)).1, by decide⟩

/-- Claim C3: when `v.size()` is `n` and `i < n`, `v.at(i)` returns a character and throws
nothing, and the character is the element of index `i` of the filtered content of `v`; for
a stateless predicate `p` that is the element of index `i` of the buffer characters that
satisfy `p`. -/
theorem at_returns_indexed_element (v : filtered_string_view) (hv : v.valid)
    (i n : Nat) (v1 : filtered_string_view) (hn : v.size = some (n, v1)) (hi : i < n) :
    ∃ c v2, v.at_ (i : Int) = some (.ok c, v2) ∧ v.content[i]? = some c ∧
      ∀ (id : Nat) (p : Char → Bool), v.predicate_ = .fn id p →
        ((v.chars.take v.size_).filter p)[i]? = some c := by
  rw [size_eq v hv] at hn
  simp only [Option.some.injEq, Prod.mk.injEq] at hn
  obtain ⟨c, v2, h1, h2⟩ := at_ok v hv i (by rw [hn.1]; exact hi)
  refine ⟨c, v2, h1, h2, fun id p hp => ?_⟩
  rw [(content_fn v id p hp).1] at h2
  exact h2

/-- Claim C3 on `"doggo"` filtered by `c == 'g'`, whose size is 2: `at(1)` returns a
character. -/
theorem at_returns_indexed_element_witness :
    doggo.valid ∧ doggo.size = some (2, doggo) ∧
    ∃ c v2, doggo.at_ 1 = some (.ok c, v2) ∧ doggo.content[1]? = some c :=
  ⟨by decide, rfl,
    match at_returns_indexed_element doggo (by decide) 1 2 doggo rfl (by decide) with
    | ⟨c, v2, h1, h2, _⟩ => ⟨c, v2, h1, h2⟩⟩
/-! ## Iterators -/

/-- A call does not change the `target_type()` of a filter. -/
theorem target_type_call (f : filter) (c : Char) : (f.call c).2.target_type = f.target_type := by
  cases f with
  | fn id p => rfl
  | compose_closure fs => rfl
  | split_closure g a b c d => rfl
  | substr_closure g a b c d e =>
    simp only [filter.call]
    split <;> rfl

/-- A filter accepts no more characters than it is called on. -/
theorem scan_length_le (cs : List Char) : ∀ f : filter, (f.scan cs).1.length ≤ cs.length := by
  induction cs with
  | nil => intro f; simp [filter.scan]
  | cons c cs ih =>
    intro f
    simp only [filter.scan]
    have := ih (f.call c).2
    split <;> simp <;> omega

/-- The loop of `++` is the loop of the constructor, started one character further. -/
theorem increment_loop_eq_skip (k : Nat) : ∀ it : iter,
    iter.increment_loop k it = iter.skip k { it.data_ with off := it.data_.off + 1 } it.predicate_ := by
  induction k with
  | zero => intro it; rfl
  | succ k ih =>
    intro it
    rw [iter.increment_loop, iter.skip]
    cases hd : char_ptr.deref { it.data_ with off := it.data_.off + 1 } with
    | none => rfl
    | some c =>
      simp only
      split
      · rw [ih]
      · rfl

/-- A read through a pointer inside the array. -/
theorem deref_lt (buf : List Char) (i : Nat) (h : i < buf.length) :
    char_ptr.deref { buf := some buf, off := (i : Int) } = some buf[i] := by
  simp [char_ptr.deref, index_lt buf i h]

/-- A read through a pointer at a readable offset. -/
theorem deref_of_index (buf : List Char) (i : Nat) (c : Char)
    (h : (buf ++ [NUL])[i]? = some c) :
    char_ptr.deref { buf := some buf, off := (i : Int) } = some c := by
  simp [char_ptr.deref, index, h]

/-- A read that has a result is a read inside the array or of its terminator. -/
theorem deref_some_bounds (p : char_ptr) (c : Char) (h : p.deref = some c) :
    ∃ buf, p.buf = some buf ∧ 0 ≤ p.off ∧ p.off.toNat ≤ buf.length := by
  unfold char_ptr.deref at h
  split at h
  · exact absurd h (by simp)
  · cases hb : p.buf with
    | none => simp [index, hb] at h
    | some buf =>
      refine ⟨buf, rfl, by omega, ?_⟩
      simp only [index, hb] at h
      have := (List.getElem?_eq_some_iff.mp h).1
      simp at this
      omega

/-- More iterations than the reads left in the array do not change what the loop of the
constructor returns. -/
theorem skip_fuel (k : Nat) : ∀ (p : char_ptr) (f : filter), p.ahead ≤ k →
    iter.skip k p f = iter.skip p.ahead p f := by
  induction k with
  | zero => intro p f h; rw [Nat.le_zero.mp h]
  | succ k ih =>
    intro p f h
    cases hd : p.deref with
    | none =>
      rw [iter.skip, hd]
      cases ha : p.ahead with
      | zero => rfl
      | succ a => rw [iter.skip, hd]
    | some c =>
      obtain ⟨buf, hb, h0, hle⟩ := deref_some_bounds p c hd
      have ha : p.ahead = (char_ptr.ahead { p with off := p.off + 1 }) + 1 := by
        simp only [char_ptr.ahead, hb]
        have : (p.off + 1).toNat = p.off.toNat + 1 := by omega
        omega
      rw [ha, iter.skip, iter.skip, hd]
      simp only
      split
      · rw [ih _ _ (by omega)]
      · rfl

/-- More iterations than the reads left in the array do not change what `++` returns. -/
theorem increment_fuel (it : iter) (k : Nat) (h : it.data_.ahead ≤ k) :
    iter.increment_loop k it = it.iterate_pre_increment := by
  rw [iter.iterate_pre_increment, increment_loop_eq_skip, increment_loop_eq_skip]
  have h1 : (char_ptr.ahead { it.data_ with off := it.data_.off + 1 }) ≤ it.data_.ahead := by
    simp only [char_ptr.ahead]
    cases it.data_.buf with
    | none => simp
    | some buf => simp only; omega
  rw [skip_fuel k _ _ (by omega), skip_fuel it.data_.ahead _ _ h1]

/-- More iterations than the characters before the cursor do not change what `--` returns. -/
theorem decrement_fuel (k : Nat) : ∀ it : iter, it.data_.off.toNat ≤ k →
    iter.decrement_loop k it = it.iterate_pre_decrement := by
  induction k with
  | zero => intro it h; rw [iter.iterate_pre_decrement, Nat.le_zero.mp h]
  | succ k ih =>
    intro it h
    rw [iter.iterate_pre_decrement]
    cases hd : char_ptr.deref { it.data_ with off := it.data_.off - 1 } with
    | none =>
      rw [iter.decrement_loop, hd]
      cases ha : it.data_.off.toNat with
      | zero => rfl
      | succ a => rw [iter.decrement_loop, hd]
    | some c =>
      obtain ⟨buf, hb, h0, hle⟩ := deref_some_bounds _ c hd
      simp only at h0 hle
      obtain ⟨a, ha⟩ : ∃ a, it.data_.off.toNat = a + 1 := ⟨it.data_.off.toNat - 1, by omega⟩
      rw [ha, iter.decrement_loop, iter.decrement_loop, hd]
      simp only
      split
      · rw [ih _ (by simp only; omega), iter.iterate_pre_decrement]
        have : (it.data_.off - 1).toNat = a := by omega
        simp only [this]
      · rfl

/-- The constructor of `iter`, started at offset `i` of the array of a view without `'\0'`
among its `n` raw characters, stops at the first character from `i` on that the predicate
accepts, or at offset `n`: it stands at the characters accepted from `i` on. -/
theorem skip_stands (buf : List Char) (n : Nat) (hn : n ≤ buf.length)
    (hz : (buf ++ [NUL])[n]? = some NUL) (hfree : NUL ∉ buf.take n) (m : Nat) :
    ∀ (i : Nat) (f : filter) (k : Nat), i + m = n → buf.length + 1 - i ≤ k →
    ∃ it, iter.skip k { buf := some buf, off := (i : Int) } f = some it ∧
      stands_at buf n f.target_type (f.scan ((buf.take n).drop i)).1 it := by
  induction m with
  | zero =>
    intro i f k him hk
    have hin : i = n := by omega
    subst hin
    obtain ⟨k, rfl⟩ : ∃ k', k = k' + 1 := ⟨k - 1, by omega⟩
    refine ⟨{ data_ := { buf := some buf, off := (i : Int) }, predicate_ := (f.call NUL).2 }, ?_, ?_⟩
    · rw [iter.skip, deref_of_index buf i NUL hz]; simp
    · have : (buf.take i).drop i = [] := by simp
      rw [this]
      simp [filter.scan, stands_at, target_type_call]
  | succ m ih =>
    intro i f k him hk
    have hi : i < buf.length := by omega
    have hin : i < n := by omega
    obtain ⟨k, rfl⟩ : ∃ k', k = k' + 1 := ⟨k - 1, by omega⟩
    have hdrop : (buf.take n).drop i = buf[i] :: (buf.take n).drop (i + 1) := by
      have hlt : i < (buf.take n).length := by simp; omega
      rw [List.drop_eq_getElem_cons hlt]; simp
    have hnz : buf[i] ≠ NUL := by
      intro h
      apply hfree
      rw [← h]
      exact List.mem_take_iff_getElem.mpr ⟨i, by omega, rfl⟩ 
    rw [hdrop, iter.skip, deref_lt buf i hi]
    simp only [filter.scan]
    by_cases hr : (f.call buf[i]).1 = true
    · simp only [hr, Bool.not_true, Bool.false_and, if_true]
      obtain ⟨next, h1, h2⟩ := ih (i + 1) (f.call buf[i]).2 (buf.length + 1 - i) (by omega) (by omega)
      refine ⟨_, rfl, i, ?_, rfl, target_type_call f _, deref_lt buf i hi, next, ?_, ?_⟩
      · have := scan_length_le ((buf.take n).drop (i + 1)) (f.call buf[i]).2
        simp at this
        omega
      · simp only [iter.pre_increment, iter.iterate_pre_increment, increment_loop_eq_skip,
          char_ptr.ahead]
        have e : buf.length + 1 - ((i : Int)).toNat = buf.length + 1 - i := by simp
        rw [e]
        exact_mod_cast h1
      · rw [target_type_call] at h2; exact h2
    · have hc : (buf[i] != NUL) = true := by simpa using hnz
      simp only [hr, hc, Bool.not_false, Bool.and_self, if_true]
      obtain ⟨it, h1, h2⟩ := ih (i + 1) (f.call buf[i]).2 k (by omega) (by omega)
      rw [target_type_call] at h2
      exact ⟨it, by exact_mod_cast h1, by simpa using h2⟩


/-- Where an iterator that stands at `L` is. -/
theorem stands_at_length (buf : List Char) (n : Nat) (ty : type_info) (L : List Char) (it : iter)
    (h : stands_at buf n ty L it) :
    ∃ j : Nat, it.data_ = { buf := some buf, off := j } ∧ j + L.length ≤ n ∧
      it.predicate_.target_type = ty ∧ (L = [] ↔ j = n) := by
  cases L with
  | nil => exact ⟨n, h.1, by simp, h.2, by simp⟩
  | cons c L =>
    obtain ⟨j, hj, hd, ht, _⟩ := h
    exact ⟨j, hd, by simp; omega, ht, by simp; omega⟩

/-- An iterator of a forward pass equals `end()` when no character is left to meet. -/
theorem eq_last_iff (buf : List Char) (n : Nat) (ty : type_info) (L : List Char)
    (it last : iter) (h : stands_at buf n ty L it) (hl : stands_at buf n ty [] last) :
    it.eq last = decide (L = []) := by
  obtain ⟨j, hd, _, ht, hiff⟩ := stands_at_length buf n ty L it h
  obtain ⟨hd', ht'⟩ := hl
  by_cases hL : L = []
  · have : j = n := hiff.mp hL
    subst this
    simp [iter.eq, hd, hd', ht, ht', hL]
  · have : j ≠ n := fun e => hL (hiff.mpr e)
    simp [iter.eq, hd, hd', hL, this]

/-- The loop of a caller from an iterator that stands at `L` meets `L`. -/
theorem iterate_stands (buf : List Char) (n : Nat) (ty : type_info) (last : iter)
    (hl : stands_at buf n ty [] last) :
    ∀ (L : List Char) (it : iter) (fuel : Nat), stands_at buf n ty L it → L.length < fuel →
      iterate fuel it last = some L := by
  intro L
  induction L with
  | nil =>
    intro it fuel h hf
    obtain ⟨fuel, rfl⟩ : ∃ k, fuel = k + 1 := ⟨fuel - 1, by simp at hf; omega⟩
    simp [iterate, iter.ne, eq_last_iff buf n ty [] it last h hl]
  | cons c L ih =>
    intro it fuel h hf
    obtain ⟨fuel, rfl⟩ : ∃ k, fuel = k + 1 := ⟨fuel - 1, by omega⟩
    have hne := eq_last_iff buf n ty (c :: L) it last h hl
    obtain ⟨j, _, _, _, hder, next, hnext, hrest⟩ := h
    simp [iterate, iter.ne, hne, hder, hnext, ih next fuel hrest (by simpa using hf)]

/-- The result of `std::equal` on two ranges that stand at `L1` and `L2`. -/
theorem std_equal_stands (buf1 : List Char) (n1 : Nat) (ty1 : type_info) (last1 : iter)
    (hl1 : stands_at buf1 n1 ty1 [] last1)
    (buf2 : List Char) (n2 : Nat) (ty2 : type_info) (last2 : iter)
    (hl2 : stands_at buf2 n2 ty2 [] last2) :
    ∀ (L1 L2 : List Char) (first1 first2 : iter) (fuel : Nat),
      stands_at buf1 n1 ty1 L1 first1 → stands_at buf2 n2 ty2 L2 first2 → L1.length < fuel →
      std_equal fuel first1 last1 first2 last2 = some (decide (L1 = L2)) := by
  intro L1
  induction L1 with
  | nil =>
    intro L2 first1 first2 fuel h1 h2 hf
    obtain ⟨fuel, rfl⟩ : ∃ k, fuel = k + 1 := ⟨fuel - 1, by simp at hf; omega⟩
    have e1 := eq_last_iff buf1 n1 ty1 [] first1 last1 h1 hl1
    have e2 := eq_last_iff buf2 n2 ty2 L2 first2 last2 h2 hl2
    simp only [decide_True] at e1
    simp only [std_equal, iter.ne, e1, e2, Bool.not_true, Bool.false_and, Bool.true_and]
    simp [eq_comm]
  | cons c L1 ih =>
    intro L2 first1 first2 fuel h1 h2 hf
    obtain ⟨fuel, rfl⟩ : ∃ k, fuel = k + 1 := ⟨fuel - 1, by omega⟩
    have e1 := eq_last_iff buf1 n1 ty1 (c :: L1) first1 last1 h1 hl1
    have e2 := eq_last_iff buf2 n2 ty2 L2 first2 last2 h2 hl2
    cases L2 with
    | nil => simp [std_equal, iter.ne, e1, e2]
    | cons d L2 =>
      obtain ⟨_, _, _, _, hd1, next1, hn1, hr1⟩ := h1
      obtain ⟨_, _, _, _, hd2, next2, hn2, hr2⟩ := h2
      simp only [List.cons_ne_nil, decide_False] at e1 e2
      simp only [std_equal, iter.ne, e1, e2, hd1, hd2, Bool.not_false, Bool.and_self, if_true]
      by_cases hcd : c = d
      · subst hcd
        simp [hn1, hn2, ih L2 next1 next2 fuel hr1 hr2 (by simpa using hf)]
      · simp [hcd]

/-- The empty list is below every other list. -/
theorem lex_less_nil_left (y : List Char) : lex_less [] y ↔ y ≠ [] := by
  constructor
  · rintro (⟨c, t, rfl⟩ | ⟨pre, c, d, s, t, h, _⟩)
    · simp
    · simp at h
  · intro h
    cases y with
    | nil => exact absurd rfl h
    | cons d t => exact Or.inl ⟨d, t, rfl⟩

/-- No list is below the empty list. -/
theorem lex_less_nil_right (x : List Char) : ¬ lex_less x [] := by
  rintro (⟨c, t, h⟩ | ⟨pre, c, d, s, t, _, h⟩) <;> simp at h

/-- Lexicographic order of two lists that start with a character. -/
theorem lex_less_cons (c d : Char) (x y : List Char) :
    lex_less (c :: x) (d :: y) ↔ c < d ∨ (c = d ∧ lex_less x y) := by
  constructor
  · rintro (⟨e, t, h⟩ | ⟨pre, e, g, s, t, h1, h2, hlt⟩)
    · simp only [List.cons_append, List.cons.injEq] at h
      exact Or.inr ⟨h.1.symm, Or.inl ⟨e, t, h.2⟩⟩
    · cases pre with
      | nil =>
        simp only [List.nil_append, List.cons.injEq] at h1 h2
        left; rw [h1.1, h2.1]; exact hlt
      | cons a pre =>
        simp only [List.cons_append, List.cons.injEq] at h1 h2
        exact Or.inr ⟨h1.1.trans h2.1.symm, Or.inr ⟨pre, e, g, s, t, h1.2, h2.2, hlt⟩⟩
  · rintro (h | ⟨rfl, ⟨e, t, h⟩ | ⟨pre, e, g, s, t, h1, h2, hlt⟩⟩)
    · exact Or.inr ⟨[], c, d, x, y, rfl, rfl, h⟩
    · exact Or.inl ⟨e, t, by simp [h]⟩
    · exact Or.inr ⟨c :: pre, e, g, s, t, by simp [h1], by simp [h2], hlt⟩


/-- The answer `less` of the three-way comparison. -/
theorem lex3_lt (x : List Char) : ∀ y, lex3 x y = .lt ↔ lex_less x y := by
  induction x with
  | nil =>
    intro y
    cases y with
    | nil => simp [lex3, lex_less_nil_right]
    | cons d y => simp [lex3, lex_less_nil_left]
  | cons c x ih =>
    intro y
    cases y with
    | nil => simp [lex3, lex_less_nil_right]
    | cons d y =>
      rw [lex_less_cons, lex3]
      by_cases h : compare c d = .eq
      · have hcd : c = d := compare_eq_iff_eq.mp h
        subst hcd
        simp [ih, h]
      · have hcd : c ≠ d := fun e => h (compare_eq_iff_eq.mpr e)
        simp [h, hcd, compare_lt_iff_lt]

/-- The answer `greater` of the three-way comparison. -/
theorem lex3_gt (x : List Char) : ∀ y, lex3 x y = .gt ↔ lex_less y x := by
  induction x with
  | nil =>
    intro y
    cases y with
    | nil => simp [lex3, lex_less_nil_right]
    | cons d y => simp [lex3, lex_less_nil_right]
  | cons c x ih =>
    intro y
    cases y with
    | nil => simp [lex3, lex_less_nil_left]
    | cons d y =>
      rw [lex_less_cons, lex3]
      by_cases h : compare c d = .eq
      · have hcd : c = d := compare_eq_iff_eq.mp h
        subst hcd
        simp [ih, h]
      · have hcd : d ≠ c := fun e => h (compare_eq_iff_eq.mpr e.symm)
        simp [h, hcd, compare_gt_iff_gt]

/-- The answer `equal` of the three-way comparison. -/
theorem lex3_eq (x : List Char) : ∀ y, lex3 x y = .eq ↔ x = y := by
  induction x with
  | nil =>
    intro y
    cases y with
    | nil => simp [lex3]
    | cons d y => simp [lex3]
  | cons c x ih =>
    intro y
    cases y with
    | nil => simp [lex3]
    | cons d y =>
      rw [lex3]
      by_cases h : compare c d = .eq
      · have hcd : c = d := compare_eq_iff_eq.mp h
        subst hcd
        simp [ih, h]
      · have hcd : c ≠ d := fun e => h (compare_eq_iff_eq.mpr e)
        simp [h, hcd]

/-- Two `char`s of the same value are the same character. -/
theorem char_value_inj (c d : Char) (h : char_value c = char_value d) : c = d := by
  have ht : c.toNat = d.toNat := by
    unfold char_value at h
    split at h <;> split at h <;> omega
  have := congrArg Char.ofNat ht
  simpa [Char.ofNat_toNat] using this

/-- Two `char`s compare `equal` exactly when they are the same character. -/
theorem char_cmp_eq (c d : Char) : char_cmp c d = .eq ↔ c = d := by
  unfold char_cmp
  rw [compare_eq_iff_eq]
  exact ⟨char_value_inj c d, fun h => by rw [h]⟩

/-- One `char` is `less` than another exactly when the other is `greater` than it. -/
theorem char_cmp_lt_gt (c d : Char) : char_cmp c d = .lt ↔ char_cmp d c = .gt := by
  unfold char_cmp
  rw [compare_lt_iff_lt, compare_gt_iff_gt]

/-- Two ASCII `char`s compare as their codes do. -/
theorem char_cmp_ascii (c d : Char) (hc : c.toNat < 128) (hd : d.toNat < 128) :
    char_cmp c d = compare c d := by
  have vc : char_value c = (c.toNat : Int) := by
    unfold char_value
    rw [if_neg (by omega)]
  have vd : char_value d = (d.toNat : Int) := by
    unfold char_value
    rw [if_neg (by omega)]
  unfold char_cmp
  rw [vc, vd]
  rcases lt_trichotomy c d with h | h | h
  · have h2 : c.toNat < d.toNat := h
    rw [compare_lt_iff_lt.mpr h, compare_lt_iff_lt]
    omega
  · subst h
    rw [compare_eq_iff_eq.mpr rfl]
    exact (compare_eq_iff_eq.mpr rfl).symm
  · have h2 : d.toNat < c.toNat := h
    rw [compare_gt_iff_gt.mpr h, compare_gt_iff_gt]
    omega

/-- The answer `equal` of the three-way comparison by `char` values. -/
theorem lex3_char_eq (x : List Char) : ∀ y, lex3_char x y = .eq ↔ x = y := by
  induction x with
  | nil =>
    intro y
    cases y with
    | nil => simp [lex3_char]
    | cons d y => simp [lex3_char]
  | cons c x ih =>
    intro y
    cases y with
    | nil => simp [lex3_char]
    | cons d y =>
      rw [lex3_char]
      by_cases h : char_cmp c d = .eq
      · have hcd : c = d := (char_cmp_eq c d).mp h
        subst hcd
        simp [ih, h]
      · have hcd : c ≠ d := fun e => h ((char_cmp_eq c d).mpr e)
        simp [h, hcd]

/-- The three-way comparison by `char` values answers `less` exactly when it answers
`greater` with the two lists exchanged. -/
theorem lex3_char_lt_gt (x : List Char) :
    ∀ y, lex3_char x y = .lt ↔ lex3_char y x = .gt := by
  induction x with
  | nil =>
    intro y
    cases y with
    | nil => simp [lex3_char]
    | cons d y => simp [lex3_char]
  | cons c x ih =>
    intro y
    cases y with
    | nil => simp [lex3_char]
    | cons d y =>
      rw [lex3_char, lex3_char]
      by_cases h : char_cmp c d = .eq
      · have hcd : c = d := (char_cmp_eq c d).mp h
        subst hcd
        simp [ih, h]
      · have h2 : char_cmp d c ≠ .eq := fun e => h ((char_cmp_eq c d).mpr ((char_cmp_eq d c).mp e).symm)
        simp only [ne_eq, h, not_false_eq_true, if_true, h2]
        exact char_cmp_lt_gt c d

/-- On ASCII characters the three-way comparison by `char` values is the one by codes. -/
theorem lex3_char_ascii (x : List Char) :
    ∀ y, ascii x → ascii y → lex3_char x y = lex3 x y := by
  induction x with
  | nil =>
    intro y _ _
    cases y <;> rfl
  | cons c x ih =>
    intro y hx hy
    cases y with
    | nil => rfl
    | cons d y =>
      have hc : c.toNat < 128 := hx c (by simp)
      have hd : d.toNat < 128 := hy d (by simp)
      have hx2 : ascii x := fun e he => hx e (List.mem_cons_of_mem _ he)
      have hy2 : ascii y := fun e he => hy e (List.mem_cons_of_mem _ he)
      rw [lex3_char, lex3, char_cmp_ascii c d hc hd, ih y hx2 hy2]

/-- The result of `std::lexicographical_compare_three_way` on two ranges that stand at `L1`
and `L2`. -/
theorem three_way_stands (buf1 : List Char) (n1 : Nat) (ty1 : type_info) (last1 : iter)
    (hl1 : stands_at buf1 n1 ty1 [] last1)
    (buf2 : List Char) (n2 : Nat) (ty2 : type_info) (last2 : iter)
    (hl2 : stands_at buf2 n2 ty2 [] last2) :
    ∀ (L1 L2 : List Char) (first1 first2 : iter) (fuel : Nat),
      stands_at buf1 n1 ty1 L1 first1 → stands_at buf2 n2 ty2 L2 first2 → L1.length < fuel →
      std_lexicographical_compare_three_way fuel first1 last1 first2 last2
        = some (lex3_char L1 L2) := by
  intro L1
  induction L1 with
  | nil =>
    intro L2 first1 first2 fuel h1 h2 hf
    obtain ⟨fuel, rfl⟩ : ∃ k, fuel = k + 1 := ⟨fuel - 1, by simp at hf; omega⟩
    have e1 := eq_last_iff buf1 n1 ty1 [] first1 last1 h1 hl1
    have e2 := eq_last_iff buf2 n2 ty2 L2 first2 last2 h2 hl2
    cases L2 <;> simp [std_lexicographical_compare_three_way, iter.ne, e1, e2, lex3_char]
  | cons c L1 ih =>
    intro L2 first1 first2 fuel h1 h2 hf
    obtain ⟨fuel, rfl⟩ : ∃ k, fuel = k + 1 := ⟨fuel - 1, by omega⟩
    have e1 := eq_last_iff buf1 n1 ty1 (c :: L1) first1 last1 h1 hl1
    have e2 := eq_last_iff buf2 n2 ty2 L2 first2 last2 h2 hl2
    cases L2 with
    | nil => simp [std_lexicographical_compare_three_way, iter.ne, e1, e2, lex3_char]
    | cons d L2 =>
      obtain ⟨_, _, _, _, hd1, next1, hn1, hr1⟩ := h1
      obtain ⟨_, _, _, _, hd2, next2, hn2, hr2⟩ := h2
      simp only [List.cons_ne_nil, decide_False] at e1 e2
      simp only [std_lexicographical_compare_three_way, iter.ne, e1, e2, hd1, hd2,
        Bool.not_false, if_true, lex3_char]
      by_cases hcd : char_cmp c d = .eq
      · simp [hcd, hn1, hn2, ih L2 next1 next2 fuel hr1 hr2 (by simpa using hf)]
      · simp [hcd]

/-- The iterators `begin()` and `end()` of a valid view over an array, without `'\0'` among
its raw characters: `begin()` stands at the filtered content and `end()` at its end. -/
theorem begin_end_stand (v : filtered_string_view) (hv : v.valid) (buf : List Char)
    (hd : v.data_ = some buf) (hfree : v.nul_free) :
    ∃ first last, v.begin_ = some first ∧ v.end_ = some last ∧
      stands_at buf v.size_ v.predicate_.target_type v.content first ∧
      stands_at buf v.size_ v.predicate_.target_type [] last ∧
      v.content.length < first.data_.ahead + 1 := by
  obtain ⟨h1, h2⟩ := hv
  simp only [chars, hd, Option.getD_some] at h1 h2
  have hfree' : NUL ∉ buf.take v.size_ := by simpa [nul_free, raw, chars, hd] using hfree
  obtain ⟨first, hf1, hf2⟩ := skip_stands buf v.size_ h1 h2 hfree' v.size_ 0 v.predicate_
    (buf.length + 1) (by omega) (by omega)
  obtain ⟨last, hl1, hl2⟩ := skip_stands buf v.size_ h1 h2 hfree' 0 v.size_ v.predicate_
    (buf.length + 1 - v.size_) (by omega) (by omega)
  simp only [List.drop_zero] at hf2
  have hnil : (buf.take v.size_).drop v.size_ = [] := by simp
  rw [hnil] at hl2
  have hc : v.content = (v.predicate_.scan (buf.take v.size_)).1 := by
    simp [content, raw, chars, hd]
  refine ⟨first, last, ?_, ?_, by rw [hc]; exact hf2, by simpa [filter.scan] using hl2, ?_⟩
  · simpa [begin_, iter.ctor, hd, char_ptr.ahead] using hf1
  · simpa [end_, iter.ctor, hd, char_ptr.ahead] using hl1
  · obtain ⟨j, hj, hle, _, _⟩ := stands_at_length _ _ _ _ _ hf2
    rw [hc, hj]
    simp only [char_ptr.ahead, Int.toNat_ofNat]
    omega


/-- The lambda of `compose` over stateless callables answers their conjunction. -/
theorem call_each_fn (fs : List (Nat × (Char → Bool))) (c : Char) :
    filter.call_each (fs.map fun q => filter.fn q.1 q.2) c
      = (fs.all fun q => q.2 c, fs.map fun q => filter.fn q.1 q.2) := by
  induction fs with
  | nil => rfl
  | cons q fs ih =>
    simp only [List.map_cons, filter.call_each, filter.call, ih, List.all_cons]
    by_cases h : q.2 c = true <;> simp [h]

/-- The lambda of `compose` over stateless callables accepts the characters that satisfy
all of them, and is not changed. -/
theorem scan_compose_fn (fs : List (Nat × (Char → Bool))) (cs : List Char) :
    (filter.compose_closure (fs.map fun q => filter.fn q.1 q.2)).scan cs
      = (cs.filter fun c => fs.all fun q => q.2 c,
          filter.compose_closure (fs.map fun q => filter.fn q.1 q.2)) := by
  induction cs with
  | nil => rfl
  | cons c cs ih =>
    simp only [filter.scan, filter.call, call_each_fn, ih, List.filter_cons]

/-- The first `strlen` characters are the characters before the first `'\0'`. -/
theorem take_strlen (buf : List Char) : buf.take (strlen buf) = std_string buf := by
  unfold strlen std_string
  induction buf with
  | nil => rfl
  | cons c cs ih =>
    by_cases h : (c != NUL) = true
    · simp only [List.takeWhile_cons, h, if_true, List.length_cons, List.take_succ_cons, ih]
    · simp [List.takeWhile_cons, h]

/-- The character at offset `strlen` is `'\0'`. -/
theorem index_strlen (buf : List Char) : (buf ++ [NUL])[strlen buf]? = some NUL := by
  unfold strlen
  induction buf with
  | nil => rfl
  | cons c cs ih =>
    by_cases h : (c != NUL) = true
    · simp only [List.takeWhile_cons, h, if_true, List.length_cons, List.cons_append,
        List.getElem?_cons_succ, ih]
    · have : c = NUL := by simpa using h
      simp [List.takeWhile_cons, this]

/-- The length `strlen` lies inside the array. -/
theorem strlen_le (buf : List Char) : strlen buf ≤ buf.length := by
  have := congrArg List.length (take_strlen buf)
  unfold std_string at this
  unfold strlen
  rw [← this]
  simp

/-- The default constructor gives a valid view. -/
theorem valid_default : filtered_string_view.default.valid := by decide

/-- The string constructor with predicate gives a valid view. -/
theorem valid_of_string_pred (str : List Char) (predicate : filter) :
    (of_string_pred str predicate).valid := by
  simp [valid, of_string_pred, chars]

/-- The implicit string constructor gives a valid view. -/
theorem valid_of_string (str : List Char) : (of_string str).valid :=
  valid_of_string_pred str default_predicate

/-- The null-terminated string constructors give a valid view of the characters before the
first `'\0'`. -/
theorem valid_of_cstr_pred (str : List Char) (predicate : filter) :
    ∃ v, of_cstr_pred (some str) predicate = some v ∧ v.valid ∧
      v.data_ = some str ∧ v.raw = std_string str ∧ v.predicate_ = predicate ∧ v.nul_free := by
  refine ⟨_, rfl, ⟨strlen_le str, index_strlen str⟩, rfl, take_strlen str, rfl, ?_⟩
  show NUL ∉ (str.take (strlen str))
  rw [take_strlen]
  intro h
  have := List.mem_takeWhile_imp h
  simp at this


/-! ## C4: `at` outside the range -/

/-- Claim C4 as stated fails on a view with `2 ^ 32` accepted characters: on the view of a
`std::string` of `2 ^ 32` characters `'a'`, whose size is `2 ^ 32`, the index `-1` is
negative, and `at(-1)` throws nothing: `position` is decremented from `-1` down to `INT_MIN`,
wraps to `INT_MAX`, reaches 0 at the last character, and that character is returned. -/
theorem at_negative_long_text :
    long_text.valid ∧ long_text.size = some (2 ^ 32, long_text) ∧
    ∃ v2, long_text.at_ (-1) = some (.ok 'a', v2) := by
  have hv : long_text.valid := valid_of_string _
  have hraw : long_text.raw = List.replicate (2 ^ 32) 'a' := by
    show (List.replicate (2 ^ 32) 'a').take (List.replicate (2 ^ 32) 'a').length = _
    exact List.take_length _
  have hc : long_text.content = List.replicate (2 ^ 32) 'a' := by
    rw [(content_fn long_text 0 (fun _ => true) rfl).1, hraw]
    exact List.filter_eq_self.mpr (fun _ _ => rfl)
  have hlen : long_text.content.length = 2 ^ 32 := by rw [hc, List.length_replicate]
  refine ⟨hv, ?_, ?_⟩
  · rw [size_eq long_text hv, hlen, (content_fn long_text 0 (fun _ => true) rfl).2]
  · obtain ⟨c, v2, h1, h2⟩ := at_wrapped long_text hv (-1) (2 ^ 32 - 1) (by norm_num)
      (by norm_num) (by norm_num) (by rw [hlen]; norm_num)
    rw [hc, List.getElem?_replicate] at h2
    have hca : c = 'a' := by
      split at h2
      · exact (Option.some.inj h2).symm
      · exact absurd h2 (by simp)
    exact ⟨v2, by rw [h1, hca]⟩

/-- Claim C4, amended: when `v.size()` is `n` and `n < 2 ^ 31`, `v.at(i)` ends for every
integer `i` that an `int` holds (`-2 ^ 31 ≤ i`; the claim holds above `INT_MAX` as well), it
throws exactly when `i < 0` or `n ≤ i`, and what it throws then carries the message
`filtered_string_view::at(<i>): invalid index` with `<i>` the decimal rendering of `i`. -/
theorem at_throws_iff_out_of_range (v : filtered_string_view) (hv : v.valid)
    (idx : Int) (hlo : -2 ^ 31 ≤ idx)
    (n : Nat) (v1 : filtered_string_view) (hn : v.size = some (n, v1)) (hsize : n < 2 ^ 31) :
    (∃ r, v.at_ idx = some r) ∧
    ((∃ msg v2, v.at_ idx = some (.error msg, v2)) ↔ (idx < 0 ∨ (n : Int) ≤ idx)) ∧
    ∀ msg v2, v.at_ idx = some (.error msg, v2) →
      msg = "filtered_string_view::at(" ++ toString idx ++ "): invalid index" := by
  rw [size_eq v hv] at hn
  simp only [Option.some.injEq, Prod.mk.injEq] at hn
  have hlen := hn.1
  by_cases hr : idx < 0 ∨ (n : Int) ≤ idx
  · have key := at_error v hv idx (by
      rw [hlen]
      rcases hr with h | h
      · exact Or.inr ⟨hlo, h, by omega⟩
      · exact Or.inl h)
    refine ⟨⟨_, key⟩, ⟨fun _ => hr, fun _ => ⟨_, _, key⟩⟩, ?_⟩
    intro msg v2 h
    rw [key] at h
    simp only [Option.some.injEq, Prod.mk.injEq, Except.error.injEq] at h
    rw [← h.1]; rfl
  · have h0 : 0 ≤ idx := by omega
    have hlt : idx.toNat < v.content.length := by omega
    obtain ⟨c, v2, h1, _⟩ := at_ok v hv idx.toNat hlt
    rw [Int.toNat_of_nonneg h0] at h1
    refine ⟨⟨_, h1⟩, ⟨fun ⟨msg, v3, h⟩ => ?_, fun h => absurd h hr⟩, ?_⟩
    · rw [h1] at h; simp at h
    · intro msg v3 h; rw [h1] at h; simp at h

/-- Claim C4, amended, on the test `at - invalid index`: on the view of `""`, whose size is
0, `at(-2)` throws with the message `filtered_string_view::at(-2): invalid index`. -/
theorem at_throws_iff_out_of_range_witness :
    (filtered_string_view.of_string []).valid ∧
    (filtered_string_view.of_string []).size = some (0, filtered_string_view.of_string []) ∧
    ∃ v2, (filtered_string_view.of_string []).at_ (-2)
      = some (.error "filtered_string_view::at(-2): invalid index", v2) :=
  ⟨by decide, rfl,
    match (at_throws_iff_out_of_range (filtered_string_view.of_string []) (by decide) (-2)
        (by decide) 0 (filtered_string_view.of_string []) rfl
        (by decide)).2.1.mpr (Or.inl (by decide)) with
    | ⟨msg, v2, h⟩ =>
      ⟨v2, by
        rw [h, (at_throws_iff_out_of_range (filtered_string_view.of_string []) (by decide)
          (-2) (by decide) 0 (filtered_string_view.of_string []) rfl
          (by decide)).2.2 msg v2 h]
        rfl⟩⟩
/-! ## C5 to C7: equality, ordering and forward iteration -/

/-- Claim C5, amended: for views `a` and `b` over arrays (not `nullptr`), with no `'\0'` among
the raw characters of either, `a == b` returns, and it is true exactly when the filtered
content of `a` equals the filtered content of `b`, whatever the buffers and predicates. -/
theorem operator_eq_iff_content_eq (a b : filtered_string_view) (ha : a.valid) (hb : b.valid)
    (hna : a.data_ ≠ none) (hnb : b.data_ ≠ none) (hfa : a.nul_free) (hfb : b.nul_free) :
    operator_eq a b = some (decide (a.content = b.content)) := by
  obtain ⟨buf1, hd1⟩ := Option.ne_none_iff_exists'.mp hna
  obtain ⟨buf2, hd2⟩ := Option.ne_none_iff_exists'.mp hnb
  obtain ⟨f1, l1, hb1, he1, hs1, ht1, hlen⟩ := begin_end_stand a ha buf1 hd1 hfa
  obtain ⟨f2, l2, hb2, he2, hs2, ht2, _⟩ := begin_end_stand b hb buf2 hd2 hfb
  simp only [operator_eq, cbegin, cend, hb1, he1, hb2, he2]
  exact std_equal_stands _ _ _ l1 ht1 _ _ _ l2 ht2 _ _ f1 f2 _ hs1 hs2 hlen

/-- Claim C5 on the test `predicate`: `"doggo"` filtered by `c == 'g'` equals the view of
`"gg"`. -/
theorem operator_eq_iff_content_eq_witness :
    doggo.valid ∧ gg.valid ∧ doggo.nul_free ∧ gg.nul_free ∧ operator_eq doggo gg = some true :=
  ⟨by decide, by decide, by decide, by decide,
    operator_eq_iff_content_eq doggo gg (by decide) (by decide) (by decide) (by decide)
      (by decide) (by decide)⟩

/-- Claim C5 as stated fails on a `std::string` that holds a `'\0'`: the view of the three
characters `'a'`, `'\0'`, `'a'` filtered by `c == 'a'` has the same filtered content `"aa"`
as the view of `"aa"`, and `==` answers false, since the iterator stops on the `'\0'`. -/
theorem operator_eq_embedded_nul :
    with_nul.valid ∧ aa.valid ∧
    with_nul.operator_string.map Prod.fst = aa.operator_string.map Prod.fst ∧
    with_nul.content = aa.content ∧
    operator_eq with_nul aa = some false :=
  ⟨by decide, by decide, by decide, by decide, by decide⟩

/-- Claim C6, amended: for views `a` and `b` over arrays (not `nullptr`), with no `'\0'` among
the raw characters of either, `a <=> b` returns the lexicographic three-way comparison of
their filtered contents by `char` value. When the filtered contents are ASCII it is `less`
exactly when the filtered content of `a` is a proper prefix of that of `b` or the first
character that differs is smaller in `a`, `greater` in the symmetric case, and `equal`
otherwise. -/
theorem operator_cmp_lexicographic (a b : filtered_string_view) (ha : a.valid) (hb : b.valid)
    (hna : a.data_ ≠ none) (hnb : b.data_ ≠ none) (hfa : a.nul_free) (hfb : b.nul_free) :
    ∃ r, operator_cmp a b = some r ∧ r = lex3_char a.content b.content ∧
      (ascii a.content → ascii b.content →
        (r = .lt ↔ lex_less a.content b.content) ∧
        (r = .gt ↔ lex_less b.content a.content) ∧
        (r = .eq ↔ ¬ lex_less a.content b.content ∧ ¬ lex_less b.content a.content)) := by
  obtain ⟨buf1, hd1⟩ := Option.ne_none_iff_exists'.mp hna
  obtain ⟨buf2, hd2⟩ := Option.ne_none_iff_exists'.mp hnb
  obtain ⟨f1, l1, hb1, he1, hs1, ht1, hlen⟩ := begin_end_stand a ha buf1 hd1 hfa
  obtain ⟨f2, l2, hb2, he2, hs2, ht2, _⟩ := begin_end_stand b hb buf2 hd2 hfb
  refine ⟨lex3_char a.content b.content, ?_, rfl, fun hca hcb => ?_⟩
  · simp only [operator_cmp, hb1, he1, hb2, he2]
    exact three_way_stands _ _ _ l1 ht1 _ _ _ l2 ht2 _ _ f1 f2 _ hs1 hs2 hlen
  · rw [lex3_char_ascii _ _ hca hcb]
    refine ⟨lex3_lt _ _, lex3_gt _ _, ?_⟩
    rw [← lex3_lt, ← lex3_gt]
    cases lex3 a.content b.content <;> simp

/-- Claim C6 on the test `Relational Comparison`: `"aaa" <=> "zzz"` is `less`. -/
theorem operator_cmp_lexicographic_witness :
    aaa.valid ∧ zzz.valid ∧ aaa.nul_free ∧ zzz.nul_free ∧
    ascii aaa.content ∧ ascii zzz.content ∧ operator_cmp aaa zzz = some .lt ∧
    ∃ r, operator_cmp aaa zzz = some r ∧ (r = .lt ↔ lex_less aaa.content zzz.content) :=
  ⟨by decide, by decide, by decide, by decide, by decide, by decide, by decide,
    match operator_cmp_lexicographic aaa zzz (by decide) (by decide) (by decide) (by decide)
        (by decide) (by decide) with
    | ⟨r, h, _, hasc⟩ => ⟨r, h, (hasc (by decide) (by decide)).1⟩⟩

/-- The order of `<=>` on characters that are not ASCII: the `char` of code 233 has the value
-23, so the view of the one character of code 233 is `less` than the view of `"a"`, whose
character has the smaller code 97. -/
theorem operator_cmp_signed_char :
    e_acute.valid ∧ a_text.valid ∧ e_acute.nul_free ∧ a_text.nul_free ∧
    e_acute.content = [Char.ofNat 233] ∧ a_text.content = ['a'] ∧
    'a' < Char.ofNat 233 ∧ char_value (Char.ofNat 233) = -23 ∧
    operator_cmp e_acute a_text = some .lt ∧ operator_cmp a_text e_acute = some .gt :=
  ⟨by decide, by decide, by decide, by decide, by decide, by decide, by decide, by decide,
    by decide, by decide⟩

/-- Claim C6 as stated fails on a `std::string` that holds a `'\0'`: the view of `'a'`,
`'\0'`, `'a'` filtered by `c == 'a'` and the view of `"aa"` have the same filtered content,
for which the claim says `equal`, and `<=>` answers `less`. -/
theorem operator_cmp_embedded_nul :
    with_nul.valid ∧ aa.valid ∧
    with_nul.operator_string.map Prod.fst = aa.operator_string.map Prod.fst ∧
    with_nul.content = aa.content ∧
    operator_cmp with_nul aa = some .lt :=
  ⟨by decide, by decide, by decide, by decide, by decide⟩

/-- Claim C7, amended: for a view over an array (not `nullptr`) with no `'\0'` among its raw
characters, the loop from `begin()` with `++` until the iterator equals `end()` ends, and the
characters it reads are exactly those of the string conversion, in the same order; their
number is `size()`. -/
theorem forward_loop_eq_operator_string (v : filtered_string_view) (hv : v.valid)
    (hn : v.data_ ≠ none) (hfree : v.nul_free) (fuel : Nat) (hfuel : v.size_ < fuel) :
    ∃ s v2, v.operator_string = some (s, v2) ∧ forward_loop fuel v = some s ∧
      v.size = some (s.length, v2) := by
  obtain ⟨buf, hd⟩ := Option.ne_none_iff_exists'.mp hn
  obtain ⟨f, l, hb, he, hs, ht, _⟩ := begin_end_stand v hv buf hd hfree
  refine ⟨v.content, v.after_pass, operator_string_eq v hv, ?_, size_eq v hv⟩
  simp only [forward_loop, hb, he]
  apply iterate_stands buf v.size_ _ l ht v.content f fuel hs
  have := scan_length_le v.raw v.predicate_
  have h2 : v.raw.length ≤ v.size_ := by simp [raw]
  simp only [content]
  omega

/-- Claim C7 on the test `Iterator - normal loop with predicate`: the loop over `"abcadef"`
without `'a'` reads the characters of the string conversion, `"bcdef"`. -/
theorem forward_loop_eq_operator_string_witness :
    abcadef.valid ∧ abcadef.nul_free ∧ forward_loop 8 abcadef = some ['b', 'c', 'd', 'e', 'f'] ∧
    ∃ s v2, abcadef.operator_string = some (s, v2) ∧ forward_loop 8 abcadef = some s ∧
      abcadef.size = some (s.length, v2) :=
  ⟨by decide, by decide, by decide,
    forward_loop_eq_operator_string abcadef (by decide) (by decide) (by decide) 8 (by decide)⟩

/-- Claim C7 as stated fails on a `std::string` that holds a `'\0'`: over the view of `'a'`,
`'\0'`, `'a'` filtered by `c == 'a'` the loop stops on the `'\0'` and reads three characters,
and the string conversion has the two characters `"aa"`. -/
theorem forward_loop_embedded_nul :
    with_nul.valid ∧ forward_loop 4 with_nul = some ['a', NUL, 'a'] ∧
    with_nul.operator_string.map Prod.fst = some ['a', 'a'] :=
  ⟨by decide, by decide, by decide⟩

/-! ## C8 and C9: backward iteration -/

/-- Claim C9 at the second segment of `split("xax", "x")`, whose filtered content is `"a"`:
`begin()` is at offset 1 and reads `'a'`, one `++` takes it to `end()` at offset 3, and one
`--` from `end()` stops at offset 2, reads `'x'` and is not equal to `begin()`: the closure of
`filter_split` counts its calls, and on the way back its count is not the index of the
character it is called on. -/
theorem split_segment_decrement :
    xax_segments.bind (fun l => l[1]?) = some xax_middle ∧
    xax_middle.valid ∧
    xax_middle.operator_string.map Prod.fst = some ['a'] ∧
    (xax_middle.begin_.map fun b => (b.data_.off, b.deref)) = some (1, some 'a') ∧
    (xax_middle.end_.map fun e => e.data_.off) = some 3 ∧
    (xax_middle.begin_.bind fun b => xax_middle.end_.bind fun e =>
      b.pre_increment.map fun it => it.eq e) = some true ∧
    (xax_middle.end_.bind fun e => xax_middle.begin_.bind fun b =>
      e.pre_decrement.map fun it => (it.data_.off, it.deref, it.eq b))
        = some (2, some 'x', false) :=
  ⟨rfl, by decide, by decide, by decide, by decide, by decide, by decide⟩

/-! ## C10: `compose` -/

/-- Claim C10, amended: for a view `v` over an array (not `nullptr`) and a non-empty list
`fs` of stateless predicates, `compose(v, fs)` is a view of the same array whose filtered
content is exactly the characters of the array before its first `'\0'`, in order, for which
every predicate of `fs` is true; the predicate of `v` plays no part. The string conversion
returns that content and `size` its length. -/
theorem compose_content (v : filtered_string_view) (buf : List Char) (hd : v.data_ = some buf)
    (fs : List (Nat × (Char → Bool))) (hfs : fs ≠ []) :
    ∃ w, compose v (fs.map fun q => filter.fn q.1 q.2) = some w ∧
      w.data_ = v.data_ ∧
      w.content = (std_string buf).filter (fun c => fs.all fun q => q.2 c) ∧
      w.operator_string = some (w.content, w) ∧
      w.size = some (w.content.length, w) := by
  obtain ⟨w, hw, hval, hdat, hraw, hpred, _⟩ :=
    valid_of_cstr_pred buf (filter.compose_closure (fs.map fun q => filter.fn q.1 q.2))
  have hne : (fs.map fun q => filter.fn q.1 q.2).isEmpty = false := by
    cases fs with
    | nil => exact absurd rfl hfs
    | cons q fs => rfl
  have hc : w.content = (std_string buf).filter (fun c => fs.all fun q => q.2 c) := by
    simp only [content, hraw, hpred, scan_compose_fn]
  have ha : w.after_pass = w := by
    cases w with
    | mk d s f =>
      simp only at hpred hraw
      subst hpred
      simp only [after_pass, hraw, scan_compose_fn]
  refine ⟨w, ?_, by rw [hdat, hd], hc, ?_, ?_⟩
  · simp only [compose, hne, data, hd]
    exact hw
  · have := operator_string_eq w hval
    rwa [ha] at this
  · have := size_eq w hval
    rwa [ha] at this

/-- Claim C10 on the test `Compose`: `"c / c++"` composed with the three predicates of the
test has the filtered content `"c/c++"` and size 5. -/
theorem compose_content_witness :
    ∃ w, compose best_languages (best_languages_filters.map fun q => filter.fn q.1 q.2) = some w ∧
      w.content = ['c', '/', 'c', '+', '+'] ∧ w.size = some (5, w) :=
  match compose_content best_languages ['c', ' ', '/', ' ', 'c', '+', '+'] rfl
      best_languages_filters (List.cons_ne_nil _ _) with
  | ⟨w, h1, _, h3, _, h5⟩ =>
    have hc : w.content = ['c', '/', 'c', '+', '+'] := h3.trans (by decide)
    ⟨w, h1, hc, by rw [h5, hc]; rfl⟩

/-- Claim C10 as stated fails on a `std::string` that holds a `'\0'`: every one of the three
raw characters `'a'`, `'\0'`, `'b'` satisfies the predicate `true`, and `compose` gives a view
of the characters before the `'\0'`, whose conversion is `"a"`. -/
theorem compose_embedded_nul :
    a_nul_b.valid ∧
    (a_nul_b.raw.filter fun c => [fun _ : Char => true].all fun q => q c) = ['a', NUL, 'b'] ∧
    ((compose a_nul_b [.fn 1 fun _ => true]).bind
      fun w => w.operator_string.map Prod.fst) = some ['a'] :=
  ⟨by decide, by decide, by decide⟩

/-! ## `split` and `substr`: the search and the closures -/

/-- What the loop of `std::string::find` returns. -/
theorem find_loop_spec (s t : List Char) (n : Nat) : ∀ i : Nat,
    (find_loop s t n i = npos ∧ ∀ j, i ≤ j → j < i + n → (s.drop j).take t.length ≠ t) ∨
    (i ≤ find_loop s t n i ∧ find_loop s t n i < i + n ∧
      (s.drop (find_loop s t n i)).take t.length = t ∧
      ∀ j, i ≤ j → j < find_loop s t n i → (s.drop j).take t.length ≠ t) := by
  induction n with
  | zero => intro i; left; exact ⟨rfl, fun j h1 h2 => by omega⟩
  | succ n ih =>
    intro i
    rw [find_loop]
    by_cases h : (s.drop i).take t.length = t
    · right
      rw [if_pos h]
      exact ⟨le_refl _, by omega, h, fun j h1 h2 => by omega⟩
    · rw [if_neg h]
      rcases ih (i + 1) with ⟨h1, h2⟩ | ⟨h1, h2, h3, h4⟩
      · left
        refine ⟨h1, fun j hj1 hj2 => ?_⟩
        by_cases hji : j = i
        · subst hji; exact h
        · exact h2 j (by omega) (by omega)
      · right
        refine ⟨by omega, by omega, h3, fun j hj1 hj2 => ?_⟩
        by_cases hji : j = i
        · subst hji; exact h
        · exact h4 j (by omega) hj2

/-- The member `find` of a text that does not occur from `pos` on returns `npos`. -/
theorem find_eq_npos (s t : List Char) (pos : Nat)
    (h : ∀ j ≤ s.length, pos ≤ j → ¬ occurs_at s t j) : find s t pos = npos := by
  unfold find
  split
  · rfl
  · rename_i hlen
    rcases find_loop_spec s t (s.length - t.length - pos + 1) pos with ⟨h1, _⟩ | ⟨h1, h2, h3, _⟩
    · exact h1
    · exact absurd ⟨by omega, h3⟩ (h _ (by omega) h1)

/-- The member `find` of a text that occurs from `pos` on returns the first index from `pos`
on at which it occurs. -/
theorem find_eq_first (s t : List Char) (pos e : Nat) (hpe : pos ≤ e) (he : occurs_at s t e)
    (hmin : ∀ j < e, pos ≤ j → ¬ occurs_at s t j) : find s t pos = e := by
  unfold find
  have hle := he.1
  rw [if_neg (by omega)]
  rcases find_loop_spec s t (s.length - t.length - pos + 1) pos with ⟨_, h2⟩ | ⟨h1, h2, h3, h4⟩
  · exact absurd he.2 (h2 e hpe (by omega))
  · rcases Nat.lt_trichotomy (find_loop s t (s.length - t.length - pos + 1) pos) e with hlt | heq | hgt
    · exact absurd ⟨by omega, h3⟩ (hmin _ hlt h1)
    · exact heq
    · exact absurd he.2 (h4 e hpe hgt)

/-- The successive occurrences from an index on exist: the search either finds none, or
finds a first one and goes on after it. -/
theorem cuts_exist (s t : List Char) (ht : t ≠ []) (m : Nat) :
    ∀ start : Nat, s.length + 1 - start ≤ m → ∃ es, cuts s t start es := by
  induction m with
  | zero =>
    intro start h
    exact ⟨[], fun j hj hs => by omega⟩
  | succ m ih =>
    intro start h
    by_cases hex : ∃ j, j ≤ s.length ∧ start ≤ j ∧ occurs_at s t j
    · classical
      let e := Nat.find hex
      have he : e ≤ s.length ∧ start ≤ e ∧ occurs_at s t e := Nat.find_spec hex
      have hmin : ∀ j < e, start ≤ j → ¬ occurs_at s t j := by
        intro j hj hs ho
        exact Nat.find_min hex hj ⟨by omega, hs, ho⟩
      have htl : 0 < t.length := List.length_pos.mpr ht
      obtain ⟨es, hes⟩ := ih (e + t.length) (by omega)
      exact ⟨e :: es, he.2.1, he.2.2, hmin, hes⟩
    · exact ⟨[], fun j hj hs ho => hex ⟨j, hj, hs, ho⟩⟩

/-- One call of the lambda of `filter_split` over a stateless callable. -/
theorem call_split_fn (id : Nat) (p : Char → Bool) (n a b ci : Nat) (c : Char) :
    (filter.split_closure (.fn id p) n a b ci).call c
      = (decide (b ≠ npos ∧ a ≤ ci ∧ ci ≤ b) && p c,
          .split_closure (.fn id p) n a b (if ci + 1 = n then 0 else ci + 1)) := by
  simp only [filter.call]
  by_cases h : b ≠ npos ∧ a ≤ ci ∧ ci ≤ b
  · simp [h]
  · simp [h]

/-- One call of the lambda of `filter_substr` over a stateless callable. -/
theorem call_substr_fn (id : Nat) (p : Char → Bool) (fi ss n rc ri : Nat) (c : Char) :
    (filter.substr_closure (.fn id p) fi ss n rc ri).call c
      = (decide (ss ≤ fi ∧ fi ≤ n) && p c && decide (ri < rc),
          if fi + 1 = n then .substr_closure (.fn id p) 0 ss n rc 0
          else .substr_closure (.fn id p) (fi + 1) ss n rc
            (if (decide (ss ≤ fi ∧ fi ≤ n) && p c && decide (ri < rc)) = true then ri + 1
              else ri)) := by
  simp only [filter.call]
  by_cases h : ss ≤ fi ∧ fi ≤ n
  · by_cases h2 : fi + 1 = n <;> simp [h, h2]
  · by_cases h2 : fi + 1 = n <;> simp [h, h2]

/-- The characters of a window of indices, when the first character has index `ci`. -/
theorem window_cons (p : Char → Bool) (a b ci : Nat) (c : Char) (cs : List Char) :
    (((c :: cs).take (b + 1 - ci)).drop (a - ci)).filter p
      = (if a ≤ ci ∧ ci ≤ b ∧ p c = true then [c] else [])
        ++ ((cs.take (b + 1 - (ci + 1))).drop (a - (ci + 1))).filter p := by
  by_cases hb : ci ≤ b
  · have e1 : b + 1 - ci = (b + 1 - (ci + 1)) + 1 := by omega
    rw [e1, List.take_succ_cons]
    by_cases ha : a ≤ ci
    · have e2 : a - ci = 0 := by omega
      have e3 : a - (ci + 1) = 0 := by omega
      rw [e2, e3, List.drop_zero, List.drop_zero, List.filter_cons]
      by_cases hp : p c = true <;> simp [hp, ha, hb]
    · have e2 : a - ci = (a - (ci + 1)) + 1 := by omega
      rw [e2, List.drop_succ_cons]
      simp [ha]
  · have e1 : b + 1 - ci = 0 := by omega
    have e3 : b + 1 - (ci + 1) = 0 := by omega
    simp [e1, e3, hb]

/-- A pass of the lambda of `filter_split` over the characters from index `ci` on: it accepts
the characters that satisfy `p` at the indices from `start_index` to `end_index`, none when
`end_index` is `npos`, and `current_index` is back at `0` after the last character. -/
theorem scan_split_fn (id : Nat) (p : Char → Bool) (n a b : Nat) :
    ∀ (cs : List Char) (ci : Nat), ci + cs.length = n →
    (filter.split_closure (.fn id p) n a b ci).scan cs
      = (if b = npos then [] else ((cs.take (b + 1 - ci)).drop (a - ci)).filter p,
          .split_closure (.fn id p) n a b (if cs = [] then ci else 0)) := by
  intro cs
  induction cs with
  | nil => intro ci _; simp [filter.scan]
  | cons c cs ih =>
    intro ci hlen
    simp only [List.length_cons] at hlen
    have hrest : (filter.split_closure (.fn id p) n a b (if ci + 1 = n then 0 else ci + 1)).scan cs
        = (if b = npos then [] else ((cs.take (b + 1 - (ci + 1))).drop (a - (ci + 1))).filter p,
            .split_closure (.fn id p) n a b 0) := by
      by_cases hn : ci + 1 = n
      · have hcs : cs = [] := List.eq_nil_of_length_eq_zero (by omega)
        subst hcs
        simp [hn, filter.scan]
      · have hne : cs ≠ [] := by
          intro h; subst h; simp at hlen; omega
        rw [if_neg hn, ih (ci + 1) (by omega), if_neg hne]
    rw [filter.scan, call_split_fn]
    simp only [hrest, List.cons_ne_nil, if_false]
    by_cases hb : b = npos
    · simp [hb]
    · rw [if_neg hb, if_neg hb, window_cons]
      by_cases hr : a ≤ ci ∧ ci ≤ b ∧ p c = true
      · obtain ⟨h1, h2, h3⟩ := hr
        simp [hb, h1, h2, h3]
      · rw [if_neg hr]
        have : (decide (b ≠ npos ∧ a ≤ ci ∧ ci ≤ b) && p c) = false := by
          by_cases hp : p c = true
          · simp only [hp, Bool.and_true, decide_eq_false_iff_not]
            exact fun h => hr ⟨h.2.1, h.2.2, hp⟩
          · simp [hp]
        rw [this]
        simp

/-- A pass of the lambda of `filter_substr` over the characters from index `fi` on: it accepts
the first `rcount - rcount_index` characters that satisfy `p` at the indices from
`substr_start` on, and both counters are back at `0` after the last character. -/
theorem scan_substr_fn (id : Nat) (p : Char → Bool) (ss n rc : Nat) :
    ∀ (cs : List Char) (fi ri : Nat), fi + cs.length = n →
    (filter.substr_closure (.fn id p) fi ss n rc ri).scan cs
      = ((((cs.drop (ss - fi)).filter p).take (rc - ri)),
          if cs = [] then .substr_closure (.fn id p) fi ss n rc ri
          else .substr_closure (.fn id p) 0 ss n rc 0) := by
  intro cs
  induction cs with
  | nil => intro fi ri _; simp [filter.scan]
  | cons c cs ih =>
    intro fi ri hlen
    simp only [List.length_cons] at hlen
    rw [filter.scan, call_substr_fn]
    simp only [List.cons_ne_nil, if_false]
    have hfin : fi ≤ n := by omega
    by_cases hn : fi + 1 = n
    · have hcs : cs = [] := List.eq_nil_of_length_eq_zero (by omega)
      subst hcs
      simp only [hn, if_true, filter.scan]
      by_cases hs : ss ≤ fi
      · have e : ss - fi = 0 := by omega
        by_cases hp : p c = true
        · by_cases hr : ri < rc
          · have e2 : rc - ri = (rc - ri - 1) + 1 := by omega
            rw [e, e2]
            simp [hs, hfin, hp, hr]
          · have e2 : rc - ri = 0 := by omega
            simp [hs, hfin, hp, hr, e, e2]
        · simp [hs, hfin, hp, e]
      · have e : ss - fi = (ss - fi - 1) + 1 := by omega
        rw [e]
        simp [hs]
    · have hne : cs ≠ [] := by
        intro h; subst h; simp at hlen; omega
      simp only [hn, if_false]
      rw [ih (fi + 1) _ (by omega)]
      simp only [hne, if_false]
      by_cases hs : ss ≤ fi
      · have e : ss - fi = 0 := by omega
        have e' : ss - (fi + 1) = 0 := by omega
        by_cases hp : p c = true
        · by_cases hr : ri < rc
          · have e2 : rc - ri = (rc - (ri + 1)) + 1 := by omega
            rw [e, e', e2]
            simp [hs, hfin, hp, hr]
          · have e2 : rc - ri = 0 := by omega
            simp [hs, hfin, hp, hr, e, e', e2]
        · simp [hs, hfin, hp, e, e']
      · have e : ss - fi = (ss - (fi + 1)) + 1 := by omega
        rw [e]
        simp [hs]

/-- The raw characters of a valid view without `'\0'` are the text of its array. -/
theorem raw_eq_std_string (v : filtered_string_view) (hv : v.valid) (buf : List Char)
    (hd : v.data_ = some buf) (hfree : v.nul_free) : v.raw = std_string buf := by
  obtain ⟨h1, h2⟩ := hv
  simp only [chars, hd, Option.getD_some] at h1 h2
  have hfree' : NUL ∉ buf.take v.size_ := by simpa [nul_free, raw, chars, hd] using hfree
  have hraw : v.raw = buf.take v.size_ := by simp [raw, chars, hd]
  rw [hraw, std_string]
  conv_rhs => rw [← List.take_append_drop v.size_ buf]
  rw [List.takeWhile_append_of_pos]
  · cases hdrop : buf.drop v.size_ with
    | nil => simp
    | cons c cs =>
      have hlt : v.size_ < buf.length := by
        by_contra hge
        have : buf.drop v.size_ = [] := List.drop_eq_nil_of_le (by omega)
        rw [this] at hdrop
        exact absurd hdrop (by simp)
      have hc : buf[v.size_] = c := by
        have := List.drop_eq_getElem_cons hlt
        rw [hdrop] at this
        exact (List.cons.inj this).1.symm
      rw [List.getElem?_append_left hlt, List.getElem?_eq_getElem hlt] at h2
      have : c = NUL := by rw [← hc]; exact Option.some.inj h2
      simp [List.takeWhile_cons, this]
  · intro c hc
    have : c ≠ NUL := fun h => hfree' (h ▸ hc)
    simpa using this

/-- The length of the text of a valid view without `'\0'` is its `size_`. -/
theorem std_string_length (v : filtered_string_view) (hv : v.valid) (buf : List Char)
    (hd : v.data_ = some buf) (hfree : v.nul_free) : (std_string buf).length = v.size_ := by
  rw [← raw_eq_std_string v hv buf hd hfree]
  have := hv.1
  simp only [chars, hd, Option.getD_some] at this
  simp [raw, chars, hd, this]

/-- The result of `empty` on a valid view. -/
theorem empty_eq (v : filtered_string_view) (hv : v.valid) :
    v.empty = some (decide (v.content = []), v.after_pass) := by
  have h := size_eq v hv
  simp only [size, Option.map_eq_some', Prod.mk.injEq] at h
  obtain ⟨r, hr, h1, h2⟩ := h
  simp only [empty, hr, Option.map_some', Option.some.injEq, Prod.mk.injEq]
  refine ⟨?_, h2⟩
  rw [h1]
  cases v.content <;> simp

/-- A view that `split` builds over a stateless predicate: it is valid, has no `'\0'`, its
filtered content is what satisfies the predicate between `start_index` and `end_index`, and a
pass leaves it as it was. -/
theorem split_view_spec (buf : List Char) (id : Nat) (p : Char → Bool) (a b : Nat)
    (w : filtered_string_view)
    (hw : w = { data_ := some buf, size_ := strlen buf
                predicate_ := filter_split (.fn id p) (std_string buf).length a b }) :
    w.valid ∧ w.nul_free ∧ w.data_ = some buf ∧ w.size_ = (std_string buf).length ∧
    w.content = (if b = npos then []
      else (((std_string buf).take (b + 1)).drop a).filter p) ∧
    w.after_pass = w := by
  obtain ⟨w', hw', hval, hdat, hraw, hpred, hfree⟩ :=
    valid_of_cstr_pred buf (filter_split (.fn id p) (std_string buf).length a b)
  have hww : w = w' := by
    rw [hw]
    simp only [of_cstr_pred, Option.some.injEq] at hw'
    exact hw'
  subst hww
  have hscan := scan_split_fn id p (std_string buf).length a b (std_string buf) 0 (by simp)
  simp only [Nat.sub_zero] at hscan
  refine ⟨hval, hfree, hdat, ?_, ?_, ?_⟩
  · rw [hw]; rfl
  · rw [content, hraw, hpred, filter_split, hscan]
  · have : (w.predicate_.scan w.raw).2 = w.predicate_ := by
      rw [hraw, hpred, filter_split, hscan]
      simp
    rw [after_pass, this]


/-- One occurrence at least one character long is found for each cut, so there are no more
cuts than characters from the start index on. -/
theorem cuts_length (s t : List Char) (ht : t ≠ []) :
    ∀ (es : List Nat) (start : Nat), cuts s t start es → es.length ≤ s.length - start := by
  intro es
  induction es with
  | nil => intro start _; simp
  | cons e es ih =>
    intro start h
    obtain ⟨h1, h2, _, h4⟩ := h
    have := ih (e + t.length) h4
    have htl : 0 < t.length := List.length_pos.mpr ht
    have := h2.1
    simp only [List.length_cons]
    omega

/-- The loop of `split` from a search index on returns the views of the gaps between the
occurrences found from that index on. -/
theorem split_loop_spec (buf : List Char) (f : filter) (t : List Char)
    (hn : (std_string buf).length < npos) :
    ∀ (es : List Nat) (fuel idx : Nat) (acc : List filtered_string_view),
      cuts (std_string buf) t idx es → es.length < fuel →
      split_loop (some buf) f (std_string buf) t fuel idx (find (std_string buf) t idx) acc
        = some (acc ++ split_views buf f (std_string buf).length t.length idx es) := by
  intro es
  induction es with
  | nil =>
    intro fuel idx acc hc hf
    obtain ⟨fuel, rfl⟩ : ∃ k, fuel = k + 1 := ⟨fuel - 1, by simp at hf; omega⟩
    have hfind : find (std_string buf) t idx = npos := find_eq_npos _ _ _ hc
    rw [split_loop, hfind]
    simp [of_cstr_pred, split_views, strlen, std_string]
  | cons e es ih =>
    intro fuel idx acc hc hf
    obtain ⟨fuel, rfl⟩ : ∃ k, fuel = k + 1 := ⟨fuel - 1, by omega⟩
    obtain ⟨h1, h2, h3, h4⟩ := hc
    have hfind : find (std_string buf) t idx = e := find_eq_first _ _ _ _ h1 h2 h3
    have hene : e ≠ npos := by
      have := h2.1
      omega
    rw [split_loop, hfind, if_pos hene]
    simp only [of_cstr_pred]
    rw [ih fuel (e + t.length) _ h4 (by simpa using hf)]
    simp [split_views, strlen, std_string]

/-- The result of `split` for a source with a stateless predicate, when both views have
filtered content and the token text is not empty: the views of the gaps between the
occurrences of the token text in the source text. -/
theorem split_spec (v tok : filtered_string_view) (hv : v.valid) (buf : List Char)
    (hd : v.data_ = some buf) (id : Nat) (p : Char → Bool) (hp : v.predicate_ = .fn id p)
    (hne : v.content ≠ []) (htv : tok.valid) (tbuf : List Char) (htd : tok.data_ = some tbuf)
    (htne : tok.content ≠ []) (ht : std_string tbuf ≠ [])
    (hn : (std_string buf).length < npos) (es : List Nat)
    (hes : cuts (std_string buf) (std_string tbuf) 0 es) :
    split v tok = some (split_views buf (.fn id p) (std_string buf).length
      (std_string tbuf).length 0 es) := by
  have hlen := cuts_length _ _ ht es 0 hes
  have hloop := split_loop_spec buf (.fn id p) (std_string tbuf) hn es
    ((std_string buf).length + 2) 0 [] hes (by omega)
  rw [split, empty_eq v hv, (content_fn v id p hp).2]
  simp only [hne, decide_False]
  rw [empty_eq tok htv]
  simp only [htne, decide_False, data, predicate, hd, hp, after_pass, htd]
  simpa using hloop

/-- Two lists related element by element have the same image under functions that agree on
related elements. -/
theorem map_eq_of_related {α β γ : Type} (R : α → β → Prop) (f : α → γ) (g : β → γ)
    (h : ∀ a b, R a b → f a = g b) :
    ∀ (l1 : List α) (l2 : List β), List.Forall₂ R l1 l2 → l1.map f = l2.map g := by
  intro l1 l2 hf
  induction hf with
  | nil => rfl
  | cons hab _ ih => simp [h _ _ hab, ih]

/-- The views of the gaps, gap by gap: each one is a valid view of the array of the source
without `'\0'`, unchanged by a pass, whose filtered content is what satisfies the predicate
in its gap. -/
theorem split_views_spec (buf : List Char) (id : Nat) (p : Char → Bool) (t : List Char)
    (hn : (std_string buf).length < npos) :
    ∀ (es : List Nat) (start : Nat), start ≤ (std_string buf).length →
      cuts (std_string buf) t start es →
      List.Forall₂ (fun w g =>
          w.valid ∧ w.nul_free ∧ w.data_ = some buf ∧ w.size_ = (std_string buf).length ∧
          w.content = (piece (std_string buf) g).filter p ∧ w.after_pass = w ∧
          g.1 ≤ g.2 ∧ g.2 ≤ (std_string buf).length)
        (split_views buf (.fn id p) (std_string buf).length t.length start es)
        (gaps (std_string buf).length t.length start es) := by
  intro es
  induction es with
  | nil =>
    intro start hs _
    obtain ⟨h1, h2, h3, h4, h5, h6⟩ := split_view_spec buf id p start (std_string buf).length _ rfl
    refine List.Forall₂.cons ⟨h1, h2, h3, h4, ?_, h6, hs, le_refl _⟩ List.Forall₂.nil
    rw [h5, if_neg (by omega), piece]
    simp only
    rw [List.take_of_length_le (by omega), List.take_of_length_le (le_refl _)]
  | cons e es ih =>
    intro start hs hc
    obtain ⟨hc1, hc2, _, hc4⟩ := hc
    have hle := hc2.1
    obtain ⟨h1, h2, h3, h4, h5, h6⟩ :=
      split_view_spec buf id p start ((e + 2 ^ 64 - 1) % 2 ^ 64) _ rfl
    refine List.Forall₂.cons ⟨h1, h2, h3, h4, ?_, h6, hc1, by omega⟩
      (ih (e + t.length) hle hc4)
    rw [h5, piece]
    simp only
    have hnpos : npos = 2 ^ 64 - 1 := rfl
    cases e with
    | zero => simp [npos]
    | succ k =>
      have e1 : (k + 1 + 2 ^ 64 - 1) % 2 ^ 64 = k := by
        have : k + 1 + 2 ^ 64 - 1 = k + 2 ^ 64 := by omega
        rw [this, Nat.add_mod_right, Nat.mod_eq_of_lt (by omega)]
      rw [e1, if_neg (by omega)]

/-- The text from a start index on is its pieces joined by the token text. -/
theorem join_slices (s t : List Char) :
    ∀ (es : List Nat) (start : Nat), cuts s t start es →
      join_with t ((gaps s.length t.length start es).map (piece s)) = s.drop start := by
  intro es
  induction es with
  | nil => intro start _; simp [gaps, join_with, piece]
  | cons e es ih =>
    intro start hc
    obtain ⟨hc1, hc2, _, hc4⟩ := hc
    have hrest := ih (e + t.length) hc4
    cases hg : gaps s.length t.length (e + t.length) es with
    | nil => cases es <;> simp [gaps] at hg
    | cons g gs =>
      rw [hg] at hrest
      simp only [gaps, hg, List.map_cons, join_with]
      simp only [List.map_cons] at hrest
      rw [hrest, piece]
      simp only
      have h1 : s.drop start = (s.take e).drop start ++ s.drop e := by
        conv_lhs => rw [← List.take_append_drop e s]
        rw [List.drop_append_of_le_length (by simp; have := hc2.1; omega)]
      have h2 : s.drop e = t ++ s.drop (e + t.length) := by
        conv_lhs => rw [← List.take_append_drop t.length (s.drop e)]
        rw [hc2.2, List.drop_drop]
      rw [h1, h2, List.append_assoc]

/-- A filter goes through the joining of texts. -/
theorem filter_join_with (p : Char → Bool) (sep : List Char) :
    ∀ xs : List (List Char),
      (join_with sep xs).filter p = join_with (sep.filter p) (xs.map (List.filter p)) := by
  intro xs
  induction xs with
  | nil => rfl
  | cons x xs ih =>
    cases xs with
    | nil => rfl
    | cons y ys =>
      simp only [join_with, List.map_cons, List.filter_append]
      simp only [List.map_cons] at ih
      rw [ih]

/-- The loop of `substr` with a stateless predicate counts the characters before the first
one that satisfies it. -/
theorem substr_offset_loop_fn (id : Nat) (p : Char → Bool) :
    ∀ (s : List Char) (off : Int),
      substr_offset_loop s (.fn id p) off
        = (off + ((s.takeWhile fun c => !p c).length : Nat), .fn id p) := by
  intro s
  induction s with
  | nil => intro off; simp [substr_offset_loop]
  | cons c cs ih =>
    intro off
    rw [substr_offset_loop]
    simp only [filter.call]
    by_cases hp : p c = true
    · simp [hp, List.takeWhile_cons]
    · simp only [hp, if_false, ih, List.takeWhile_cons]
      simp only [Bool.not_eq_true] at hp
      simp [hp]
      omega

/-- Leaving out the characters before the first one that satisfies `p` leaves out nothing
that satisfies `p`. -/
theorem filter_drop_takeWhile (p : Char → Bool) (s : List Char) :
    (s.drop (s.takeWhile fun c => !p c).length).filter p = s.filter p := by
  induction s with
  | nil => rfl
  | cons c cs ih =>
    by_cases hp : p c = true
    · simp [hp, List.takeWhile_cons]
    · simp only [Bool.not_eq_true] at hp
      simp [hp, List.takeWhile_cons, ih]

/-- The result of `substr` on a view over an array, with a stateless predicate: a valid
view of the same array without `'\0'`, unchanged by a pass, whose filtered content is the
first `rcount` of the characters that satisfy the predicate from `substr_start` on. -/
theorem substr_spec (v : filtered_string_view) (buf : List Char) (hd : v.data_ = some buf)
    (id : Nat) (p : Char → Bool) (hp : v.predicate_ = .fn id p) (pos count : Int) :
    ∃ w, substr v pos count = some w ∧ w.valid ∧ w.nul_free ∧ w.data_ = some buf ∧
      w.size_ = (std_string buf).length ∧ w.after_pass = w ∧
      w.content = ((((std_string buf).drop
          (to_size_t (pos + (((std_string buf).takeWhile fun c => !p c).length : Nat)))).filter
            p).take
          (to_size_t (if count ≤ 0 then to_int (std_string buf).length - pos else count))) := by
  obtain ⟨w, hw, hval, hdat, hraw, hpred, hfree⟩ :=
    valid_of_cstr_pred buf (filter_substr (.fn id p)
      (to_size_t (pos + (((std_string buf).takeWhile fun c => !p c).length : Nat)))
      (std_string buf).length
      (to_size_t (if count ≤ 0 then to_int (std_string buf).length - pos else count)))
  have hscan := scan_substr_fn id p
    (to_size_t (pos + (((std_string buf).takeWhile fun c => !p c).length : Nat)))
    (std_string buf).length
    (to_size_t (if count ≤ 0 then to_int (std_string buf).length - pos else count))
    (std_string buf) 0 0 (by simp)
  simp only [Nat.sub_zero] at hscan
  have hsz : w.size_ = (std_string buf).length := by
    simp only [of_cstr_pred, Option.some.injEq] at hw
    rw [← hw]; rfl
  refine ⟨w, ?_, hval, hfree, hdat, hsz, ?_, ?_⟩
  · rw [← hw]
    simp only [substr, data, predicate, hd, hp, substr_offset_loop_fn, zero_add]
  · have : (w.predicate_.scan w.raw).2 = w.predicate_ := by
      rw [hraw, hpred, filter_substr, hscan]
      simp
    rw [after_pass, this]
  · rw [content, hraw, hpred, filter_substr, hscan]

/-- The conversion to `int` of a size below `2 ^ 31` is exact. -/
theorem to_int_of_lt (n : Nat) (h : n < 2 ^ 31) : to_int n = (n : Int) := by
  unfold to_int
  have : n % 2 ^ 32 = n := Nat.mod_eq_of_lt (by omega)
  rw [this, if_pos h]

/-- The conversion to `std::size_t` of an `int` that is not negative is exact. -/
theorem to_size_t_of_nonneg (x : Int) (h0 : 0 ≤ x) (h : x < 2 ^ 64) : to_size_t x = x.toNat := by
  unfold to_size_t
  rw [Int.emod_eq_of_lt h0 h]

/-- The forward loop over a valid view of an array, without `'\0'` among its raw characters,
reads the filtered content. -/
theorem forward_loop_content (v : filtered_string_view) (hv : v.valid) (buf : List Char)
    (hd : v.data_ = some buf) (hfree : v.nul_free) (fuel : Nat) (hfuel : v.size_ < fuel) :
    forward_loop fuel v = some v.content := by
  obtain ⟨f, l, hb, he, hs, ht, _⟩ := begin_end_stand v hv buf hd hfree
  simp only [forward_loop, hb, he]
  apply iterate_stands buf v.size_ _ l ht v.content f fuel hs
  have := scan_length_le v.raw v.predicate_
  have h2 : v.raw.length ≤ v.size_ := by simp [raw]
  simp only [content]
  omega

/-- A valid view with filtered content is a view of an array. -/
theorem data_of_content (v : filtered_string_view) (hv : v.valid) (hne : v.content ≠ []) :
    ∃ buf, v.data_ = some buf := by
  rcases valid_cases v hv with ⟨hd, hs⟩ | ⟨buf, hd, _⟩
  · exact absurd (by simp [content, raw, chars, hd, hs, filter.scan]) hne
  · exact ⟨buf, hd⟩

/-- The predicate that is always true keeps every character. -/
theorem content_of_true (v : filtered_string_view) (id : Nat) (p : Char → Bool)
    (hp : v.predicate_ = .fn id p) (htrue : ∀ c, p c = true) : v.content = v.raw := by
  rw [(content_fn v id p hp).1]
  exact List.filter_eq_self.mpr fun c _ => htrue c

/-! ## C11: `compose` with no filter -/

/-- Claim C11, amended: for a view `v` over an array (not `nullptr`), whatever its own
predicate, `compose(v, [])` is a view of the same array whose filtered content is the
characters of the array before its first `'\0'`, and `size` is their number: when `v` has no
`'\0'` among its raw characters, that is the entire raw buffer of `v` and its raw length. -/
theorem compose_empty_content (v : filtered_string_view) (buf : List Char)
    (hd : v.data_ = some buf) :
    ∃ w, compose v [] = some w ∧ w.data_ = v.data_ ∧
      w.content = std_string buf ∧
      w.operator_string = some (std_string buf, w) ∧
      w.size = some ((std_string buf).length, w) ∧
      (v.valid → v.nul_free → std_string buf = v.raw ∧ (std_string buf).length = v.size_) := by
  obtain ⟨w, hw, hval, hdat, hraw, hpred, _⟩ := valid_of_cstr_pred buf default_predicate
  have hc : w.content = std_string buf := by
    rw [content_of_true w 0 (fun _ => true) hpred (fun _ => rfl), hraw]
  have ha : w.after_pass = w := (content_fn w 0 (fun _ => true) hpred).2
  refine ⟨w, ?_, by rw [hdat, hd], hc, ?_, ?_, fun hv hfree => ?_⟩
  · simp only [compose, List.isEmpty_nil, if_true, data, hd]
    exact hw
  · have := operator_string_eq w hval
    rwa [ha, hc] at this
  · have := size_eq w hval
    rwa [ha, hc] at this
  · exact ⟨(raw_eq_std_string v hv buf hd hfree).symm, std_string_length v hv buf hd hfree⟩

/-- Claim C11 on the test `Compose - empty vector of filters`: `"c / c++"` composed with no
filter has size 7, the raw length. -/
theorem compose_empty_content_witness :
    ∃ w, compose best_languages [] = some w ∧ w.size = some (7, w) ∧
      w.content = best_languages.raw :=
  match compose_empty_content best_languages ['c', ' ', '/', ' ', 'c', '+', '+'] rfl with
  | ⟨w, h1, _, h3, _, h5, _⟩ => ⟨w, h1, h5, h3.trans (by decide)⟩

/-- Claim C11 as stated fails on a `std::string` that holds a `'\0'`: the raw buffer of the
view of `'a'`, `'\0'`, `'b'` has three characters, and `compose` with no filter gives a view
of size 1 whose content is `"a"`. -/
theorem compose_empty_embedded_nul :
    a_nul_b.valid ∧ a_nul_b.raw = ['a', NUL, 'b'] ∧
    ((compose a_nul_b []).bind fun w => w.size.map Prod.fst) = some 1 ∧
    ((compose a_nul_b []).bind fun w => w.operator_string.map Prod.fst) = some ['a'] :=
  ⟨by decide, by decide, by decide, by decide⟩

/-! ## C12 to C17: `split` -/

/-- Claim C12, amended: for a source view with a stateless predicate `p` over an array, with
no `'\0'` among its raw characters, and a token view whose text (the characters of its array
before the first `'\0'`) is not empty, both with filtered content, `split` returns views
whose filtered contents are, in order, the pieces obtained by cutting the raw buffer of the
source at each left-to-right occurrence of the text of the token, each piece filtered by
`p`. -/
theorem split_cuts_raw_text (v tok : filtered_string_view) (hv : v.valid) (buf : List Char)
    (hd : v.data_ = some buf) (hfree : v.nul_free) (id : Nat) (p : Char → Bool)
    (hp : v.predicate_ = .fn id p) (hne : v.content ≠ []) (htv : tok.valid)
    (tbuf : List Char) (htd : tok.data_ = some tbuf) (htne : tok.content ≠ [])
    (ht : std_string tbuf ≠ []) (hn : v.size_ < npos) :
    ∃ es ws, cuts v.raw (std_string tbuf) 0 es ∧ split v tok = some ws ∧
      ws.map content = (slices v.raw (std_string tbuf).length 0 es).map (List.filter p) := by
  have hraw := raw_eq_std_string v hv buf hd hfree
  have hlen := std_string_length v hv buf hd hfree
  obtain ⟨es, hes⟩ := cuts_exist (std_string buf) (std_string tbuf) ht
    ((std_string buf).length + 1) 0 (by omega)
  refine ⟨es, _, by rw [hraw]; exact hes,
    split_spec v tok hv buf hd id p hp hne htv tbuf htd htne ht (by omega) es hes, ?_⟩
  rw [hraw, slices, List.map_map]
  exact map_eq_of_related _ _ _ (fun w g h => h.2.2.2.2.1) _ _
    (split_views_spec buf id p (std_string tbuf) (by omega) es 0 (by omega) hes)

/-- Claim C12 on the test `Split - tok is underlying string`: the filtered view of
`"0xDEADBEEF / 0xdeadbeef"` split by `" / "` gives `"DEADBEEF"` and `"deadbeef"`. -/
theorem split_cuts_raw_text_witness :
    ((split deadbeef slash_token).map fun ws => ws.map content)
      = some [['D', 'E', 'A', 'D', 'B', 'E', 'E', 'F'], ['d', 'e', 'a', 'd', 'b', 'e', 'e', 'f']] ∧
    ∃ es ws, cuts deadbeef.raw (std_string [' ', '/', ' ']) 0 es ∧
      split deadbeef slash_token = some ws ∧
      ws.map content
        = (slices deadbeef.raw (std_string [' ', '/', ' ']).length 0 es).map
            (List.filter interest) :=
  ⟨by decide,
    split_cuts_raw_text deadbeef slash_token (by decide) _ rfl (by decide) 1 interest rfl
      (by decide) (by decide) [' ', '/', ' '] rfl (by decide) (by decide) (by decide)⟩

/-- Claim C12 as stated fails where the raw buffer and the filtered content differ: `"axb"`
filtered by `c != 'x'` has the filtered content `"ab"`, in which the filtered content `"ab"`
of the token occurs at index 0, so that the cut of the claim gives two empty pieces; `split`
searches `"ab"` in the raw buffer `"axb"`, finds nothing and returns the one piece `"ab"`. -/
theorem split_searches_raw_text :
    axb.valid ∧ ab_token.valid ∧ axb.content = ['a', 'b'] ∧ ab_token.content = ['a', 'b'] ∧
    cuts axb.content ab_token.content 0 [0] ∧
    slices axb.content ab_token.content.length 0 [0] = [[], []] ∧
    ((split axb ab_token).map fun ws => ws.map content) = some [['a', 'b']] :=
  ⟨by decide, by decide, by decide, by decide, by decide, by decide, by decide⟩

/-- Claim C13: for a source and a token that both have an always-true predicate over text
without `'\0'`, both not empty, `split` returns views whose filtered contents are, in order,
the pieces of the source text between the successive occurrences of the token text that a
left-to-right search finds, each search starting where the occurrence before it ends: the
piece before the first occurrence, the pieces between occurrences and the piece after the
last, empty pieces included, so one more view than there are occurrences. -/
theorem split_default_predicate (v tok : filtered_string_view) (hv : v.valid)
    (buf : List Char) (hd : v.data_ = some buf) (hfree : v.nul_free)
    (id : Nat) (p : Char → Bool) (hp : v.predicate_ = .fn id p) (htrue : ∀ c, p c = true)
    (hne : v.raw ≠ []) (htv : tok.valid) (tbuf : List Char) (htd : tok.data_ = some tbuf)
    (htfree : tok.nul_free) (idt : Nat) (q : Char → Bool) (hq : tok.predicate_ = .fn idt q)
    (hqtrue : ∀ c, q c = true) (htne : tok.raw ≠ []) (hn : v.size_ < npos) :
    ∃ es ws, cuts v.raw tok.raw 0 es ∧ split v tok = some ws ∧
      ws.map content = slices v.raw tok.raw.length 0 es ∧ ws.length = es.length + 1 := by
  have hraw := raw_eq_std_string v hv buf hd hfree
  have hlen := std_string_length v hv buf hd hfree
  have htraw := raw_eq_std_string tok htv tbuf htd htfree
  have hvc : v.content ≠ [] := by rw [content_of_true v id p hp htrue]; exact hne
  have htc : tok.content ≠ [] := by rw [content_of_true tok idt q hq hqtrue]; exact htne
  have ht : std_string tbuf ≠ [] := by rw [← htraw]; exact htne
  obtain ⟨es, hes⟩ := cuts_exist (std_string buf) (std_string tbuf) ht
    ((std_string buf).length + 1) 0 (by omega)
  have hspec := split_views_spec buf id p (std_string tbuf) (by omega) es 0 (by omega) hes
  refine ⟨es, _, by rw [hraw, htraw]; exact hes,
    split_spec v tok hv buf hd id p hp hvc htv tbuf htd htc ht (by omega) es hes, ?_, ?_⟩
  · rw [hraw, htraw, slices]
    refine map_eq_of_related _ _ _ (fun w g h => ?_) _ _ hspec
    rw [h.2.2.2.2.1]
    exact List.filter_eq_self.mpr fun c _ => htrue c
  · rw [hspec.length_eq]
    clear hspec hes
    generalize (0 : Nat) = start
    induction es generalizing start with
    | nil => rfl
    | cons e es ih => simp [gaps, ih]

/-- Claim C13 on the test `Split - empty on both side`: `"xax"` split by `"x"` gives `""`,
`"a"`, `""`. -/
theorem split_default_predicate_witness :
    ((split xax x_token).map fun ws => ws.map content) = some [[], ['a'], []] ∧
    ∃ es ws, cuts xax.raw x_token.raw 0 es ∧ split xax x_token = some ws ∧
      ws.map content = slices xax.raw x_token.raw.length 0 es ∧ ws.length = es.length + 1 :=
  ⟨by decide,
    split_default_predicate xax x_token (by decide) _ rfl (by decide) 0 (fun _ => true) rfl
      (fun _ => rfl) (by decide) (by decide) _ rfl (by decide) 0 (fun _ => true) rfl
      (fun _ => rfl) (by decide) (by decide)⟩

/-- Claim C14, amended: for a source view `v` with a stateless predicate `p` over an array,
with no `'\0'` among its raw characters, and a token view whose text is not empty, both with
filtered content: the filtered contents of the views of `split(v, token)`, joined in order
with the text of the token filtered by `p` between two that follow each other, are the
filtered content of `v`. What is put between them is the filtered content of the token when
the token has an always-true predicate over text without `'\0'`, all of whose characters
satisfy `p`. -/
theorem split_join (v tok : filtered_string_view) (hv : v.valid) (buf : List Char)
    (hd : v.data_ = some buf) (hfree : v.nul_free) (id : Nat) (p : Char → Bool)
    (hp : v.predicate_ = .fn id p) (hne : v.content ≠ []) (htv : tok.valid)
    (tbuf : List Char) (htd : tok.data_ = some tbuf) (htne : tok.content ≠ [])
    (ht : std_string tbuf ≠ []) (hn : v.size_ < npos) :
    ∃ ws, split v tok = some ws ∧
      join_with ((std_string tbuf).filter p) (ws.map content) = v.content ∧
      ∀ (idt : Nat) (q : Char → Bool), tok.predicate_ = .fn idt q → (∀ c, q c = true) →
        tok.nul_free → (∀ c ∈ tok.raw, p c = true) →
        join_with tok.content (ws.map content) = v.content := by
  have hraw := raw_eq_std_string v hv buf hd hfree
  have hlen := std_string_length v hv buf hd hfree
  obtain ⟨es, hes⟩ := cuts_exist (std_string buf) (std_string tbuf) ht
    ((std_string buf).length + 1) 0 (by omega)
  have hspec := split_views_spec buf id p (std_string tbuf) (by omega) es 0 (by omega) hes
  have hmap : (split_views buf (.fn id p) (std_string buf).length (std_string tbuf).length 0
      es).map content
      = ((gaps (std_string buf).length (std_string tbuf).length 0 es).map
          (piece (std_string buf))).map (List.filter p) := by
    rw [List.map_map]
    exact map_eq_of_related _ _ _ (fun w g h => h.2.2.2.2.1) _ _ hspec
  have hjoin : join_with ((std_string tbuf).filter p)
      ((split_views buf (.fn id p) (std_string buf).length (std_string tbuf).length 0
        es).map content) = v.content := by
    rw [hmap, ← filter_join_with, join_slices _ _ es 0 hes, List.drop_zero,
      (content_fn v id p hp).1, hraw]
  refine ⟨_, split_spec v tok hv buf hd id p hp hne htv tbuf htd htne ht (by omega) es hes,
    hjoin, fun idt q hq hqtrue htfree hall => ?_⟩
  have htraw := raw_eq_std_string tok htv tbuf htd htfree
  have : tok.content = (std_string tbuf).filter p := by
    rw [content_of_true tok idt q hq hqtrue, ← htraw]
    exact (List.filter_eq_self.mpr hall).symm
  rw [this]
  exact hjoin

/-- Claim C14 on `"xax"` split by `"x"`: the pieces `""`, `"a"`, `""` joined by `"x"` give
`"xax"`. -/
theorem split_join_witness :
    ∃ ws, split xax x_token = some ws ∧
      join_with ((std_string ['x']).filter fun _ => true) (ws.map content) = xax.content :=
  match split_join xax x_token (by decide) _ rfl (by decide) 0 (fun _ => true) rfl
      (by decide) (by decide) ['x'] rfl (by decide) (by decide) (by decide) with
  | ⟨ws, h1, h2, _⟩ => ⟨ws, h1, h2⟩

/-- Claim C14 as stated fails for a token whose filtered content is not its text: the
filtered content `"/"` of the token `"/x"` filtered by `c == '/'` occurs at index 1 of the
filtered content `"a/xb"` of the source; `split` cuts at the text `"/x"` and returns `"a"`
and `"b"`, which joined by `"/"` give `"a/b"`. -/
theorem split_join_filtered_token :
    a_slash_xb.valid ∧ slash_x_token.valid ∧
    a_slash_xb.content = ['a', '/', 'x', 'b'] ∧ slash_x_token.content = ['/'] ∧
    occurs_at a_slash_xb.content slash_x_token.content 1 ∧
    ((split a_slash_xb slash_x_token).map fun ws => ws.map content) = some [['a'], ['b']] ∧
    ((split a_slash_xb slash_x_token).map fun ws =>
      join_with slash_x_token.content (ws.map content)) = some ['a', '/', 'b'] :=
  ⟨by decide, by decide, by decide, by decide, by decide, by decide, by decide⟩

/-- The early return of `split`, when `fsv.empty()` or `tok.empty()` is true. -/
theorem split_early (v tok : filtered_string_view) (hv : v.valid) (htv : tok.valid)
    (h : v.content = [] ∨ tok.content = []) : split v tok = some [v.after_pass] := by
  rw [split, empty_eq v hv]
  by_cases hvc : v.content = []
  · simp [hvc]
  · have htc : tok.content = [] := h.resolve_left hvc
    simp [hvc, empty_eq tok htv, htc]

/-- Claim C15: when the filtered content of `v` or of the token is empty, `split` returns
exactly one view, with the buffer, the length and the predicate of `v`: the predicate is the
one `v` holds once `fsv.empty()` has called it on every raw character, which for a stateless
predicate is the predicate of `v` unchanged, so that the view is `v`. -/
theorem split_of_empty (v tok : filtered_string_view) (hv : v.valid) (htv : tok.valid)
    (h : v.content = [] ∨ tok.content = []) :
    split v tok = some [v.after_pass] ∧ v.after_pass.data_ = v.data_ ∧
    v.after_pass.size_ = v.size_ ∧
    ∀ (id : Nat) (p : Char → Bool), v.predicate_ = .fn id p →
      split v tok = some [v] ∧ v.after_pass.content = v.content := by
  have key := split_early v tok hv htv h
  refine ⟨key, rfl, rfl, fun id p hp => ?_⟩
  rw [key, (content_fn v id p hp).2]
  exact ⟨rfl, rfl⟩

/-- Claim C15 on the test `Split - tok empty`: `"abcde"` split by `""` gives the view of
`"abcde"` alone. -/
theorem split_of_empty_witness :
    abcde.valid ∧ empty_text.valid ∧ empty_text.content = [] ∧
    split abcde empty_text = some [abcde] :=
  ⟨by decide, by decide, by decide,
    ((split_of_empty abcde empty_text (by decide) (by decide) (Or.inr (by decide))).2.2.2
      0 (fun _ => true) rfl).1⟩

/-- Claim C16, amended: for a source view `v` with a stateless predicate over an array, with
no `'\0'` among its raw characters, and a token view with filtered content whose text does
not occur in the raw buffer of `v`: when `v` has filtered content, `split` returns exactly
one view, a view of the array of `v` with the filtered content of `v`. -/
theorem split_no_occurrence (v tok : filtered_string_view) (hv : v.valid) (buf : List Char)
    (hd : v.data_ = some buf) (hfree : v.nul_free) (id : Nat) (p : Char → Bool)
    (hp : v.predicate_ = .fn id p) (hne : v.content ≠ []) (htv : tok.valid)
    (tbuf : List Char) (htd : tok.data_ = some tbuf) (htne : tok.content ≠ [])
    (hn : v.size_ < npos)
    (hno : ∀ j ≤ v.raw.length, ¬ occurs_at v.raw (std_string tbuf) j) :
    ∃ w, split v tok = some [w] ∧ w.data_ = v.data_ ∧ w.content = v.content := by
  have ht : std_string tbuf ≠ [] := by
    intro h
    exact hno 0 (Nat.zero_le _) ⟨by simp [h], by simp [h]⟩
  have hraw := raw_eq_std_string v hv buf hd hfree
  have hlen := std_string_length v hv buf hd hfree
  have hes : cuts (std_string buf) (std_string tbuf) 0 [] := by
    intro j hj _
    rw [← hraw] at hj ⊢
    exact hno j hj
  have hsplit := split_spec v tok hv buf hd id p hp hne htv tbuf htd htne ht (by omega) [] hes
  obtain ⟨_, _, h3, _, h5, _⟩ :=
    split_view_spec buf id p 0 (std_string buf).length _ rfl
  refine ⟨_, hsplit, by rw [h3, hd], ?_⟩
  rw [h5, if_neg (by omega), (content_fn v id p hp).1, hraw, List.drop_zero,
    List.take_of_length_le (by omega)]

/-- Claim C16 on the test `Split - tok not underlying string`: `"abcde"` split by `"z"` gives
one view, with the content `"abcde"`. -/
theorem split_no_occurrence_witness :
    ((split abcde z_token).map fun ws => ws.map content) = some [['a', 'b', 'c', 'd', 'e']] ∧
    ∃ w, split abcde z_token = some [w] ∧ w.data_ = abcde.data_ ∧ w.content = abcde.content :=
  ⟨by decide,
    split_no_occurrence abcde z_token (by decide) _ rfl (by decide) 0 (fun _ => true) rfl
      (by decide) (by decide) ['z'] rfl (by decide) (by decide) (by decide)⟩

/-- Claim C16 as stated fails on a `std::string` that holds a `'\0'`: the text `"z"` does not
occur in the raw buffer `'a'`, `'\0'`, `'b'`, the filtered content of the source is these
three characters, and the one view that `split` returns has the content `"a"`. -/
theorem split_no_occurrence_embedded_nul :
    a_nul_b.valid ∧ z_token.valid ∧ a_nul_b.content = ['a', NUL, 'b'] ∧
    (∀ j ≤ a_nul_b.raw.length, ¬ occurs_at a_nul_b.raw z_token.raw j) ∧
    ((split a_nul_b z_token).map fun ws => ws.map content) = some [['a']] :=
  ⟨by decide, by decide, by decide, by decide, by decide⟩

/-- Claim C17, amended: for a source view `v` with a stateless predicate `p` over an array,
with no `'\0'` among its raw characters, and a token whose text is not empty when it has
filtered content, `split` returns views that each go with one gap `[start, end)` of positions
in the buffer of `v`: the view is a view of the array of `v`, and its filtered content, as
read by `size`, by the string conversion and by the forward loop, is exactly the raw
characters of `v` at the positions of the gap that satisfy `p`. -/
theorem split_segments_are_gaps (v tok : filtered_string_view) (hv : v.valid)
    (buf : List Char) (hd : v.data_ = some buf) (hfree : v.nul_free)
    (id : Nat) (p : Char → Bool) (hp : v.predicate_ = .fn id p) (htv : tok.valid)
    (ht : tok.content ≠ [] → std_string tok.chars ≠ []) (hn : v.size_ < npos) :
    ∃ ws gs, split v tok = some ws ∧
      List.Forall₂ (fun w g =>
          g.1 ≤ g.2 ∧ g.2 ≤ v.size_ ∧ w.data_ = v.data_ ∧
          w.content = (piece v.raw g).filter p ∧
          w.size = some (w.content.length, w) ∧
          w.operator_string = some (w.content, w) ∧
          ∀ fuel, v.size_ < fuel → forward_loop fuel w = some w.content) ws gs := by
  have hraw := raw_eq_std_string v hv buf hd hfree
  have hlen := std_string_length v hv buf hd hfree
  by_cases hemp : v.content = [] ∨ tok.content = []
  · have hva := (content_fn v id p hp).2
    have h4 := split_early v tok hv htv hemp
    rw [hva] at h4
    refine ⟨[v], [(0, v.size_)], h4, List.Forall₂.cons ⟨Nat.zero_le _, le_refl _, rfl,
      ?_, ?_, ?_, fun fuel hf => forward_loop_content v hv buf hd hfree fuel hf⟩
      List.Forall₂.nil⟩
    · rw [(content_fn v id p hp).1, piece]
      simp [raw, List.take_take]
    · have := size_eq v hv
      rwa [hva] at this
    · have := operator_string_eq v hv
      rwa [hva] at this
  · have hvc : v.content ≠ [] := fun h => hemp (Or.inl h)
    have htc : tok.content ≠ [] := fun h => hemp (Or.inr h)
    obtain ⟨tbuf, htd⟩ := data_of_content tok htv htc
    have htt : std_string tbuf ≠ [] := by
      have := ht htc
      simpa [chars, htd] using this
    obtain ⟨es, hes⟩ := cuts_exist (std_string buf) (std_string tbuf) htt
      ((std_string buf).length + 1) 0 (by omega)
    have hspec := split_views_spec buf id p (std_string tbuf) (by omega) es 0 (by omega) hes
    refine ⟨_, _, split_spec v tok hv buf hd id p hp hvc htv tbuf htd htc htt (by omega) es hes,
      hspec.imp fun {w g} h => ?_⟩
    obtain ⟨h1, h2, h3, h4, h5, h6, h7, h8⟩ := h
    refine ⟨h7, by omega, by rw [h3, hd], by rw [h5, hraw], ?_, ?_, fun fuel hf => ?_⟩
    · have := size_eq w h1
      rwa [h6] at this
    · have := operator_string_eq w h1
      rwa [h6] at this
    · exact forward_loop_content w h1 buf h3 h2 fuel (by omega)

/-- Claim C17 on the test `Split - tok is underlying string`: the two views returned for
`"0xDEADBEEF / 0xdeadbeef"` split by `" / "` have the contents `"DEADBEEF"` and `"deadbeef"`,
by the string conversion and by the forward loop, and each goes with a gap. -/
theorem split_segments_are_gaps_witness :
    ((split deadbeef slash_token).map fun ws =>
        ws.map fun w => (w.operator_string.map Prod.fst, forward_loop 24 w))
      = some [(some ['D', 'E', 'A', 'D', 'B', 'E', 'E', 'F'],
                some ['D', 'E', 'A', 'D', 'B', 'E', 'E', 'F']),
              (some ['d', 'e', 'a', 'd', 'b', 'e', 'e', 'f'],
                some ['d', 'e', 'a', 'd', 'b', 'e', 'e', 'f'])] ∧
    ∃ (ws : List filtered_string_view) (gs : List (Nat × Nat)),
      split deadbeef slash_token = some ws ∧ ws.length = gs.length ∧ gs.length = 2 :=
  ⟨by decide,
    match split_segments_are_gaps deadbeef slash_token (by decide) _ rfl (by decide) 1
        interest rfl (by decide) (by decide) (by decide) with
    | ⟨ws, gs, h1, h2⟩ =>
      ⟨ws, gs, h1, h2.length_eq, by
        have h3 : ws.length = 2 := by
          have : (split deadbeef slash_token).map List.length = some 2 := by decide
          rw [h1] at this
          exact Option.some.inj this
        rw [← h2.length_eq, h3]⟩⟩

/-- Claim C17 as stated fails on a `std::string` that holds a `'\0'`: `split` of the view of
`'a'`, `'\0'`, `'a'` filtered by `c == 'a'`, by the token `""`, returns that view, whose
content is `"aa"` by `size` and by the string conversion, and the forward loop over it reads
`'a'`, `'\0'`, `'a'`. -/
theorem split_segment_embedded_nul :
    with_nul.valid ∧ empty_text.valid ∧
    ((split with_nul empty_text).map fun ws =>
        ws.map fun w => (w.size.map Prod.fst, w.operator_string.map Prod.fst, forward_loop 4 w))
      = some [(some 2, some ['a', 'a'], some ['a', NUL, 'a'])] :=
  ⟨by decide, by decide, by decide⟩

/-! ## C18 to C20: `substr` -/

/-- Claim C18 at `"Sled Dog"` without `'S'` and `'D'`, whose filtered content is `"led og"`:
`substr(v, 2, 4)` is `"d og"` as in the test, and `substr(v, 5, 1)` is `"o"`, where the run
of length 1 at logical index 5 of `"led og"` is `"g"`. `substr` adds to `pos` the number of
raw characters before the first accepted one and takes the sum as a position in the raw
buffer, so the `'D'` between the accepted characters is counted as one of them. -/
theorem substr_start_is_physical :
    sled_dog.valid ∧ sled_dog.content = ['l', 'e', 'd', ' ', 'o', 'g'] ∧
    (substr sled_dog 2 4).map content = some ['d', ' ', 'o', 'g'] ∧
    (substr sled_dog 5 1).map content = some ['o'] ∧
    ((substr sled_dog 5 1).bind fun w => w.operator_string.map Prod.fst) = some ['o'] ∧
    (sled_dog.content.drop 5).take 1 = ['g'] :=
  ⟨by decide, by decide, by decide, by decide, by decide, by decide⟩

/-- No character comes before the first one that an always-true predicate accepts. -/
theorem takeWhile_not_of_true (p : Char → Bool) (htrue : ∀ c, p c = true) (s : List Char) :
    (s.takeWhile fun c => !p c) = [] := by
  cases s with
  | nil => rfl
  | cons c cs => simp [List.takeWhile_cons, htrue c]

/-- Claim C19, amended: for a view `v` with an always-true predicate over a text `s` without
`'\0'`, of fewer than `2 ^ 31` characters, and `0 ≤ pos ≤ |s|`: `substr(v, pos, count)` with
`count ≤ 0`, as in `substr(v, pos)`, has as filtered content the suffix of `s` from index
`pos` and size `|s| - pos`, and with `count > 0` it has the filtered content
`s[pos .. min(pos + count, |s|))`. -/
theorem substr_of_text (v : filtered_string_view) (hv : v.valid) (buf : List Char)
    (hd : v.data_ = some buf) (hfree : v.nul_free) (id : Nat) (p : Char → Bool)
    (hp : v.predicate_ = .fn id p) (htrue : ∀ c, p c = true) (hint : v.size_ < 2 ^ 31)
    (pos : Nat) (hpos : pos ≤ v.size_) (count : Int) (hcount : count < 2 ^ 31) :
    ∃ w, substr v pos count = some w ∧ w.data_ = v.data_ ∧
      w.size = some (w.content.length, w) ∧
      (count ≤ 0 → w.content = v.raw.drop pos ∧ w.content.length = v.size_ - pos) ∧
      (0 < count →
        w.content = (v.raw.take (min (pos + count.toNat) v.size_)).drop pos) := by
  have hraw := raw_eq_std_string v hv buf hd hfree
  have hlen := std_string_length v hv buf hd hfree
  obtain ⟨w, hw, hval, _, hdat, _, hpass, hc⟩ := substr_spec v buf hd id p hp pos count
  rw [takeWhile_not_of_true p htrue, List.length_nil, ← hraw] at hc
  have hss : to_size_t ((pos : Int) + ((0 : Nat) : Int)) = pos := by
    rw [to_size_t_of_nonneg _ (by omega) (by omega)]
    omega
  rw [hss, List.filter_eq_self.mpr (fun c _ => htrue c)] at hc
  have hrl : v.raw.length = v.size_ := by rw [hraw]; exact hlen
  rw [hrl] at hc
  refine ⟨w, hw, by rw [hdat, hd], ?_, fun hle => ?_, fun hlt => ?_⟩
  · have := size_eq w hval
    rwa [hpass] at this
  · rw [if_pos hle, to_int_of_lt _ hint,
      to_size_t_of_nonneg _ (by omega) (by omega)] at hc
    have e : ((v.size_ : Int) - (pos : Int)).toNat = v.size_ - pos := by omega
    rw [e] at hc
    have hfull : (v.raw.drop pos).take (v.size_ - pos) = v.raw.drop pos :=
      List.take_of_length_le (by simp [hrl])
    rw [hfull] at hc
    exact ⟨hc, by rw [hc]; simp [hrl]⟩
  · rw [if_neg (by omega), to_size_t_of_nonneg _ (by omega) (by omega)] at hc
    rw [hc]
    apply List.ext_getElem?
    intro i
    simp only [List.getElem?_take, List.getElem?_drop]
    by_cases hi : i < count.toNat
    · by_cases h2 : pos + i < v.size_
      · have : pos + i < min (pos + count.toNat) v.size_ := by omega
        simp [hi, this]
      · have h3 : ¬ pos + i < min (pos + count.toNat) v.size_ := by omega
        have h4 : v.raw[pos + i]? = none := List.getElem?_eq_none (by omega)
        simp [hi, h3, h4]
    · have h3 : ¬ pos + i < min (pos + count.toNat) v.size_ := by omega
      simp [hi, h3]

/-- Claim C19 on the test `Substr - without length`: `substr("Siberian Husky", 9)` is
`"Husky"`, of size 5. -/
theorem substr_of_text_witness :
    siberian_husky.valid ∧ siberian_husky.nul_free ∧
    ∃ w, substr siberian_husky 9 0 = some w ∧ w.content = ['H', 'u', 's', 'k', 'y'] ∧
      w.size = some (5, w) :=
  ⟨by decide, by decide,
    match substr_of_text siberian_husky (by decide) _ rfl (by decide) 0 (fun _ => true) rfl
        (fun _ => rfl) (by decide) 9 (by decide) 0 (by decide) with
    | ⟨w, h1, _, h3, h4, _⟩ =>
      have hc : w.content = ['H', 'u', 's', 'k', 'y'] := (h4 (le_refl 0)).1.trans (by decide)
      ⟨w, h1, hc, by rw [h3, hc]; rfl⟩⟩

/-- Claim C19 as stated fails on a text of `2 ^ 32` characters: `substr` converts the length
of the text to `int`, which gives `0`, so that `substr(v, 0)` takes `0` characters and its
filtered content is empty, where the suffix of the text from index 0 is the whole text. -/
theorem substr_long_text :
    long_text.valid ∧ long_text.nul_free ∧ long_text.predicate_ = default_predicate ∧
    long_text.raw.length = 2 ^ 32 ∧
    ∃ w, substr long_text 0 0 = some w ∧ w.content = [] ∧ w.size = some (0, w) := by
  have hv : long_text.valid := valid_of_string _
  have hfree : long_text.nul_free := by
    intro h
    have h' : NUL ∈ List.replicate (2 ^ 32) 'a' := List.mem_of_mem_take h
    have := List.eq_of_mem_replicate h'
    exact absurd this (by decide)
  have hd : long_text.data_ = some (List.replicate (2 ^ 32) 'a') := rfl
  have hsz : long_text.size_ = 2 ^ 32 := List.length_replicate _ _
  have hlen := std_string_length long_text hv _ hd hfree
  obtain ⟨w, hw, hval, _, _, _, hpass, hc⟩ :=
    substr_spec long_text _ hd 0 (fun _ => true) rfl 0 0
  have hzero : to_size_t (if (0 : Int) ≤ 0
      then to_int (std_string (List.replicate (2 ^ 32) 'a')).length - 0 else 0) = 0 := by
    rw [hlen, hsz]
    decide
  rw [hzero, List.take_zero] at hc
  refine ⟨hv, hfree, rfl, ?_, w, hw, hc, ?_⟩
  · have : long_text.raw = List.replicate (2 ^ 32) 'a' := by
      show (List.replicate (2 ^ 32) 'a').take (List.replicate (2 ^ 32) 'a').length = _
      exact List.take_length _
    rw [this, List.length_replicate]
  · have := size_eq w hval
    rwa [hpass, hc] at this

/-- Claim C20, amended: for a view `v` with a stateless predicate over an array, with no
`'\0'` among its raw characters, which are fewer than `2 ^ 31`: `substr(v, 0, count)` with
`count ≤ 0`, as in `substr(v)`, has exactly the filtered content of `v`, and `size` is its
length; when no character satisfies the predicate the result is empty, of size 0. -/
theorem substr_whole (v : filtered_string_view) (hv : v.valid) (buf : List Char)
    (hd : v.data_ = some buf) (hfree : v.nul_free) (id : Nat) (p : Char → Bool)
    (hp : v.predicate_ = .fn id p) (hint : v.size_ < 2 ^ 31) (count : Int)
    (hcount : count ≤ 0) :
    ∃ w, substr v 0 count = some w ∧ w.data_ = v.data_ ∧ w.content = v.content ∧
      w.size = some (v.content.length, w) ∧
      ((∀ c ∈ v.raw, p c = false) → w.content = [] ∧ w.size = some (0, w)) := by
  have hraw := raw_eq_std_string v hv buf hd hfree
  have hlen := std_string_length v hv buf hd hfree
  obtain ⟨w, hw, hval, _, hdat, _, hpass, hc⟩ := substr_spec v buf hd id p hp 0 count
  have hk : ((std_string buf).takeWhile fun c => !p c).length ≤ (std_string buf).length :=
    (List.takeWhile_sublist _).length_le
  have hss : to_size_t ((0 : Int) + ((((std_string buf).takeWhile fun c => !p c).length : Nat)
      : Int)) = ((std_string buf).takeWhile fun c => !p c).length := by
    rw [to_size_t_of_nonneg _ (by omega) (by omega)]
    omega
  have hrc : to_size_t (if count ≤ 0 then to_int (std_string buf).length - 0 else count)
      = (std_string buf).length := by
    rw [if_pos hcount, hlen, to_int_of_lt _ hint, to_size_t_of_nonneg _ (by omega) (by omega)]
    omega
  rw [hss, hrc, filter_drop_takeWhile,
    List.take_of_length_le (List.length_filter_le _ _), ← hraw, ← (content_fn v id p hp).1] at hc
  have hsize : w.size = some (v.content.length, w) := by
    have := size_eq w hval
    rwa [hpass, hc] at this
  refine ⟨w, hw, by rw [hdat, hd], hc, hsize, fun hnone => ?_⟩
  have hempty : v.content = [] := by
    rw [(content_fn v id p hp).1]
    exact List.filter_eq_nil_iff.mpr fun c hc' => by simp [hnone c hc']
  rw [hsize, hc, hempty]
  exact ⟨rfl, rfl⟩

/-- Claim C20 on `"Sled Dog"` without `'S'` and `'D'`: `substr(v)` has the filtered content
`"led og"` of the view. -/
theorem substr_whole_witness :
    sled_dog.valid ∧ sled_dog.nul_free ∧
    ∃ w, substr sled_dog 0 0 = some w ∧ w.content = ['l', 'e', 'd', ' ', 'o', 'g'] :=
  ⟨by decide, by decide,
    match substr_whole sled_dog (by decide) _ rfl (by decide) 1
        (fun c => !(c == 'S' || c == 'D')) rfl (by decide) 0 (by decide) with
    | ⟨w, h1, _, h3, _, _⟩ => ⟨w, h1, h3.trans (by decide)⟩⟩

/-- Claim C20 as stated fails on a `std::string` that holds a `'\0'`: the filtered content of
the view of `'a'`, `'\0'`, `'b'` is these three characters, and that of `substr(v)` is
`"a"`. -/
theorem substr_whole_embedded_nul :
    a_nul_b.valid ∧ a_nul_b.content = ['a', NUL, 'b'] ∧
    (substr a_nul_b 0 0).map content = some ['a'] ∧
    ((substr a_nul_b 0 0).bind fun w => w.size.map Prod.fst) = some 1 :=
  ⟨by decide, by decide, by decide, by decide⟩


/-! ## C21 to C23: the subscript operator, moves and emptiness -/

/-- The loop of `operator[]` for an index `n` that an `int` holds takes the steps of the loop
of `at` whose countdown starts at the distance from `index` to `n`: it returns a character
where `at` returns it, and ends where `at` throws. -/
theorem subscript_loop_eq_at_loop (data_ : Option (List Char)) (n idx : Int)
    (hn : n < 2 ^ 31) (m : Nat) :
    ∀ (i : Nat) (f : filter) (index_ : Int), 0 ≤ index_ → index_ ≤ n →
    subscript_loop data_ n m i f index_ =
      (at_loop data_ idx m i f (n - index_)).map fun r => (r.1.toOption, r.2) := by
  induction m with
  | zero => intro i f k _ _; simp [subscript_loop, at_loop, Except.toOption]
  | succ m ih =>
    intro i f k h0 hk
    rw [subscript_loop, at_loop]
    cases index data_ i with
    | none => rfl
    | some c =>
      simp only
      by_cases hr : (f.call c).1 = true
      · simp only [hr, if_true]
        by_cases hkn : k = n
        · subst hkn; simp [Except.toOption]
        · have h1 : n - k ≠ 0 := by omega
          have e1 : int_succ k = k + 1 := by
            unfold int_succ
            split <;> omega
          have e2 : int_pred (n - k) = n - (k + 1) := by
            unfold int_pred
            split <;> omega
          simp only [hkn, h1, if_false, e1, e2]
          exact ih _ _ _ (by omega) (by omega)
      · simp only [hr, Bool.false_eq_true, if_false]
        exact ih _ _ _ h0 hk

/-- The result of `operator[]` at an index below the number of accepted characters. -/
theorem subscript_ok (v : filtered_string_view) (hv : v.valid) (i : Nat)
    (hint : i < 2 ^ 31) (hi : i < v.content.length) :
    ∃ c v2, v.operator_subscript (i : Int) = some (c, v2) ∧
      v.at_ (i : Int) = some (.ok c, v2) ∧ v.content[i]? = some c := by
  obtain ⟨c, v2, h1, h2⟩ := at_ok v hv i hi
  refine ⟨c, v2, ?_, h1, h2⟩
  simp only [at_, Option.map_eq_some', Prod.mk.injEq, Prod.exists] at h1
  obtain ⟨e, f', hl, he, hv2⟩ := h1
  subst he
  have := subscript_loop_eq_at_loop v.data_ (i : Int) (i : Int) (by omega) v.size_ 0
    v.predicate_ 0 (le_refl 0) (by omega)
  rw [sub_zero, hl] at this
  simp only [operator_subscript, this, Option.map_some', Except.toOption, hv2]

/-- The loop of `operator[]` ends without a match for an index that is below the count it
starts from or past the accepted characters, when `index` stays below `INT_MAX`. -/
theorem subscript_loop_none (buf : List Char) (n : Int) (m : Nat) :
    ∀ (i : Nat) (f : filter) (j : Nat), i + m ≤ buf.length →
    j + (f.scan ((buf.drop i).take m)).1.length < 2 ^ 31 →
    (n < (j : Int) ∨ ((j + (f.scan ((buf.drop i).take m)).1.length : Nat) : Int) ≤ n) →
    subscript_loop (some buf) n m i f (j : Int)
      = some (none, (f.scan ((buf.drop i).take m)).2) := by
  induction m with
  | zero => intro i f j _ _ _; simp [filter.scan, subscript_loop]
  | succ m ih =>
    intro i f j h hlen hr
    have hi : i < buf.length := by omega
    rw [drop_take_succ buf i m hi] at hlen hr ⊢
    rw [subscript_loop, index_lt buf i hi]
    simp only [filter.scan] at hlen hr ⊢
    by_cases hc : (f.call buf[i]).1 = true
    · simp only [hc, if_true, List.length_cons] at hlen hr ⊢
      have hne : (j : Int) ≠ n := by omega
      have e : int_succ (j : Int) = ((j + 1 : Nat) : Int) := by
        unfold int_succ
        split <;> omega
      simp only [hne, if_false, e]
      exact ih (i + 1) _ (j + 1) (by omega) (by omega) (by omega)
    · simp only [hc, Bool.false_eq_true, if_false] at hlen hr ⊢
      exact ih (i + 1) _ j (by omega) hlen hr

/-- The result of `operator[]` at a negative index and at one past the accepted characters of
a view over an array with fewer than `2 ^ 31` accepted characters: the loop ends and the
character at offset `size_` is returned. -/
theorem subscript_sentinel (v : filtered_string_view) (hv : v.valid) (buf : List Char)
    (hd : v.data_ = some buf) (idx : Int) (hsize : v.content.length < 2 ^ 31)
    (hr : idx < 0 ∨ (v.content.length : Int) ≤ idx) :
    v.operator_subscript idx = some (NUL, v.after_pass) ∧ index v.data_ v.size_ = some NUL := by
  have hz : index v.data_ v.size_ = some NUL := by
    have := hv.2
    simpa [chars, hd, index] using this
  refine ⟨?_, hz⟩
  have hs : v.size_ ≤ buf.length := by simpa [chars, hd] using hv.1
  have hlen : v.content.length
      = (v.predicate_.scan ((buf.drop 0).take v.size_)).1.length := by
    simp [content, raw, chars, hd]
  have h1 := subscript_loop_none buf idx v.size_ 0 v.predicate_ 0 (by omega)
    (by rw [← hlen]; omega) (by rw [← hlen]; omega)
  rw [hd] at hz
  simp only [Nat.cast_zero] at h1
  simp [operator_subscript, hd, h1, hz, after_pass, raw, chars]

/-- Claim C21: when `v.size()` is `n` and `0 ≤ i < n`, for an `int` `i` (so `i < 2 ^ 31`),
`v[i]` returns the character that `v.at(i)` returns, the element of index `i` of the filtered
content, and both calls leave the view in the same state. -/
theorem subscript_eq_at (v : filtered_string_view) (hv : v.valid)
    (i n : Nat) (v1 : filtered_string_view) (hn : v.size = some (n, v1)) (hi : i < n)
    (hint : i < 2 ^ 31) :
    ∃ c v2, v.operator_subscript (i : Int) = some (c, v2) ∧
      v.at_ (i : Int) = some (.ok c, v2) ∧ v.content[i]? = some c := by
  rw [size_eq v hv] at hn
  simp only [Option.some.injEq, Prod.mk.injEq] at hn
  exact subscript_ok v hv i hint (by rw [hn.1]; exact hi)

/-- Claim C21 on the test `Subscript - string`: `"only 90s kids understand"` filtered to
`'9'`, `'0'` and `' '` has size 5, and `v[2]` is `'0'`, as `v.at(2)` is. -/
theorem subscript_eq_at_witness :
    only_90s.valid ∧ only_90s.size = some (5, only_90s) ∧
    only_90s.operator_subscript 2 = some ('0', only_90s) ∧
    ∃ c v2, only_90s.operator_subscript 2 = some (c, v2) ∧
      only_90s.at_ 2 = some (.ok c, v2) ∧ only_90s.content[2]? = some c :=
  ⟨by decide, rfl, rfl, subscript_eq_at only_90s (by decide) 2 5 only_90s rfl (by decide)
    (by decide)⟩

/-- Claim C22: a move construction and a move assignment from `s` into a distinct view `t`
give `t` the buffer, the length and the predicate of `s`, and so its filtered content. They
leave `s` over `nullptr` with length 0 and the always-true default predicate, and `s.size()`
is then 0 and `s.empty()` is true. -/
theorem move_transfers_and_resets (s t : filtered_string_view) :
    (move s).1.data_ = s.data_ ∧ (move s).1.size_ = s.size_ ∧
    (move s).1.predicate_ = s.predicate_ ∧ (move s).1.content = s.content ∧
    (move_assign t s).1.data_ = s.data_ ∧ (move_assign t s).1.size_ = s.size_ ∧
    (move_assign t s).1.predicate_ = s.predicate_ ∧ (move_assign t s).1.content = s.content ∧
    (move_assign t s).2 = (move s).2 ∧
    (move s).2.data = none ∧ (move s).2.size_ = 0 ∧
    (move s).2.predicate = default_predicate ∧
    (move s).2.size = some (0, (move s).2) ∧ (move s).2.empty = some (true, (move s).2) :=
  ⟨rfl, rfl, rfl, rfl, rfl, rfl, rfl, rfl, rfl, rfl, rfl, rfl, rfl, rfl⟩

/-- Claim C23: `v.empty()` returns `true` exactly when `v.size()` returns 0: on a view whose
`size()` is `n`, `empty()` returns the truth value of `n = 0`, and leaves the view in the state
that `size()` leaves it in. -/
theorem empty_iff_size_zero (v : filtered_string_view) (hv : v.valid) :
    ∃ n v1, v.size = some (n, v1) ∧ v.empty = some (decide (n = 0), v1) ∧
      (v.empty = some (true, v1) ↔ n = 0) := by
  refine ⟨v.content.length, v.after_pass, size_eq v hv, ?_, ?_⟩
  · rw [empty_eq v hv]; simp
  · rw [empty_eq v hv]; simp

/-- Claim C23 on the tests `empty`: `"Border Collie"` filtered by `c == 'z'` and the default
view are empty, `"Australian Shephard"` is not. -/
theorem empty_iff_size_zero_witness :
    border_collie.valid ∧
    border_collie.empty = some (true, border_collie) ∧
    filtered_string_view.default.empty = some (true, filtered_string_view.default) ∧
    australian_shephard.empty = some (false, australian_shephard) ∧
    ∃ n v1, border_collie.size = some (n, v1) ∧ border_collie.empty = some (decide (n = 0), v1) ∧
      (border_collie.empty = some (true, v1) ↔ n = 0) :=
  ⟨by decide, rfl, rfl, rfl, empty_iff_size_zero border_collie (by decide)⟩

/-! ## C24: `substr` by raw positions -/

/-- Claim C24 fails on a `std::string` with an embedded `'\0'`: on the view of the three
characters `'a'`, `'\0'`, `'b'` with the default predicate no leading character fails, so the
claim gives `substr(v, 0, 2)` the first two raw characters `'a'`, `'\0'`; the code gives it
the content `"a"`, the text before the `'\0'`. -/
theorem substr_physical_embedded_nul :
    a_nul_b.valid ∧ a_nul_b.raw = ['a', NUL, 'b'] ∧
    (a_nul_b.raw.takeWhile fun c => !(fun _ => true) c).length = 0 ∧
    ((a_nul_b.raw.drop (0 + 0)).filter fun _ => true).take 2 = ['a', NUL] ∧
    (substr a_nul_b 0 2).map content = some ['a'] := by
  decide

/-- Claim C24, amended: for a view `v` over an array, without `'\0'` among its fewer than
`2 ^ 31` raw characters, with a stateless predicate `p`, for `0 ≤ pos` and `count` in the range
of `int`: with `k` the number of leading raw characters that fail `p` (the raw length when
none satisfies it) and `r` equal to `count` when `count > 0` and to the raw length minus `pos`
otherwise (nothing when that is negative), the filtered content of `substr(v, pos, count)` is
the first `r` of the raw characters at positions `≥ pos + k` that satisfy `p`. -/
theorem substr_physical (v : filtered_string_view) (hv : v.valid) (buf : List Char)
    (hd : v.data_ = some buf) (hfree : v.nul_free) (id : Nat) (p : Char → Bool)
    (hp : v.predicate_ = .fn id p) (hsize : v.size_ < 2 ^ 31)
    (pos : Nat) (hpos : pos < 2 ^ 31) (count : Int) (hcount : count < 2 ^ 31) :
    ∃ w, substr v (pos : Int) count = some w ∧ w.valid ∧
      w.content = (((v.raw.drop (pos + (v.raw.takeWhile fun c => !p c).length)).filter p).take
        (if 0 < count then count.toNat else v.raw.length - pos)) := by
  obtain ⟨w, h1, h2, _, _, _, _, hc⟩ := substr_spec v buf hd id p hp (pos : Int) count
  have hraw := raw_eq_std_string v hv buf hd hfree
  have hlen := std_string_length v hv buf hd hfree
  refine ⟨w, h1, h2, ?_⟩
  rw [hc, hlen, ← hraw]
  have hk : (v.raw.takeWhile fun c => !p c).length ≤ v.raw.length :=
    (List.takeWhile_sublist _).length_le
  have hrl : v.raw.length = v.size_ := by rw [hraw, hlen]
  have e1 : to_size_t ((pos : Int) + ((v.raw.takeWhile fun c => !p c).length : Nat))
      = pos + (v.raw.takeWhile fun c => !p c).length := by
    rw [to_size_t_of_nonneg _ (by omega) (by omega)]
    omega
  rw [e1]
  by_cases h0 : 0 < count
  · have hn : ¬ count ≤ 0 := by omega
    rw [if_neg hn, if_pos h0, to_size_t_of_nonneg _ (by omega) (by omega)]
  · have hn : count ≤ 0 := by omega
    rw [if_pos hn, if_neg h0, to_int_of_lt _ hsize]
    by_cases hle : pos ≤ v.size_
    · rw [to_size_t_of_nonneg _ (by omega) (by omega), hrl]
      congr 1
      omega
    · have hnil : v.raw.drop (pos + (v.raw.takeWhile fun c => !p c).length) = [] :=
        List.drop_eq_nil_of_le (by omega)
      rw [hnil]
      simp

/-- Claim C24, amended, on the test view `"Sled Dog"` without `'S'` and `'D'`: one leading
character fails, so `substr(v, 2, 4)` holds the first 4 accepted characters from raw position
3 on, `"d og"`. -/
theorem substr_physical_witness :
    sled_dog.valid ∧ sled_dog.nul_free ∧
    (sled_dog.raw.takeWhile fun c => !(fun c => !(c == 'S' || c == 'D')) c).length = 1 ∧
    ∃ w, substr sled_dog ((2 : Nat) : Int) 4 = some w ∧ w.valid ∧
      w.content = ['d', ' ', 'o', 'g'] :=
  ⟨by decide, by decide, by decide,
    match substr_physical sled_dog (by decide) _ rfl (by decide) 1
        (fun c => !(c == 'S' || c == 'D')) rfl (by decide) 2 (by decide) 4 (by decide) with
    | ⟨w, h1, h2, h3⟩ => ⟨w, h1, h2, by rw [h3]; decide⟩⟩

/-! ## C25: reading twice -/

/-- The loop of `at` leaves a stateless predicate as it is. -/
theorem at_loop_fn (data_ : Option (List Char)) (idx : Int) (id : Nat) (p : Char → Bool)
    (m : Nat) : ∀ (i : Nat) (position : Int) (r : Except String Char × filter),
    at_loop data_ idx m i (.fn id p) position = some r → r.2 = .fn id p := by
  induction m with
  | zero =>
    intro i position r h
    simp only [at_loop, Option.some.injEq] at h
    rw [← h]
  | succ m ih =>
    intro i position r h
    rw [at_loop] at h
    cases hc : index data_ i with
    | none => simp [hc] at h
    | some c =>
      simp only [hc, filter.call] at h
      split at h
      · split at h
        · simp only [Option.some.injEq] at h
          rw [← h]
        · exact ih _ _ _ h
      · exact ih _ _ _ h

/-- A call of `at` leaves a view with a stateless predicate as it is, so a second call
returns what the first one returned. -/
theorem at_stateless (v : filtered_string_view) (id : Nat) (p : Char → Bool)
    (hp : v.predicate_ = .fn id p) (idx : Int) (r : Except String Char)
    (v2 : filtered_string_view) (h : v.at_ idx = some (r, v2)) :
    v2 = v ∧ v2.at_ idx = some (r, v2) := by
  have hv2 : v2 = v := by
    simp only [at_, Option.map_eq_some', Prod.mk.injEq, Prod.exists] at h
    obtain ⟨e, f, hl, _, hv⟩ := h
    rw [hp] at hl
    have := at_loop_fn _ _ _ _ _ _ _ _ hl
    simp only at this
    rw [← hv, this, ← hp]
  refine ⟨hv2, ?_⟩
  rw [hv2]
  rw [hv2] at h
  exact h

/-- Claim C25 at the second segment of `split("xax", "x")`, whose filtered content is `"a"`
and whose size is 1: the first `at(0)` returns `'a'` from inside its loop, after two calls of
the closure of `filter_split`, and leaves the closure's count at 2; the second `at(0)` on the
same view starts from that count and returns `'x'`. The same holds of a view returned by
`substr`: on `substr(v, 2, 4)` of `"Sled Dog"` without `'S'` and `'D'`, whose content is
`"d og"`, the first `at(0)` returns `'d'` and the second `'l'`. The calls of `size`, which
run the closure over the whole array, leave both views as they were. -/
theorem at_twice_differs :
    xax_segments.bind (fun l => l[1]?) = some xax_middle ∧
    xax_middle.valid ∧
    xax_middle.size = some (1, xax_middle) ∧
    (xax_middle.at_ 0).map Prod.fst = some (.ok 'a') ∧
    ((xax_middle.at_ 0).bind fun r => (r.2.at_ 0).map Prod.fst) = some (.ok 'x') ∧
    ((substr sled_dog 2 4).bind fun w => w.size.map Prod.fst) = some 4 ∧
    ((substr sled_dog 2 4).bind fun w => (w.at_ 0).map Prod.fst) = some (.ok 'd') ∧
    ((substr sled_dog 2 4).bind fun w => (w.at_ 0).bind fun r => (r.2.at_ 0).map Prod.fst)
      = some (.ok 'l') :=
  ⟨rfl, by decide, rfl, rfl, rfl, rfl, rfl, rfl⟩

/-! ## C26: the loop of `split` -/

/-- With a token text of no character the loop of `split` does not end: the search finds
index 0, the next search starts at index 0 again, and so with every bound on the number of
iterations the bound is reached. -/
theorem split_loop_empty_token (data : Option (List Char)) (predicate : filter)
    (s : List Char) :
    ∀ (fuel : Nat) (result : List filtered_string_view),
      split_loop data predicate s [] fuel 0 (find s [] 0) result = none := by
  have hfind : find s [] 0 = 0 := by simp [find, find_loop]
  have h0 : (0 : Nat) ≠ npos := by decide
  intro fuel
  induction fuel with
  | zero => intro result; rfl
  | succ n ih =>
    intro result
    rw [split_loop, hfind, if_pos h0]
    cases of_cstr_pred data (filter_split predicate s.length 0 ((0 + 2 ^ 64 - 1) % 2 ^ 64)) with
    | none => rfl
    | some segment =>
      have := ih (result ++ [segment])
      rw [hfind] at this
      simpa using this

/-- The function `split` returns for every pair of valid views, whatever their predicates,
when the text of the token is not empty or the filtered content of either view is. -/
theorem split_returns (v tok : filtered_string_view) (hv : v.valid) (htv : tok.valid)
    (ht : v.content ≠ [] → tok.content ≠ [] → std_string tok.chars ≠ [])
    (hn : (std_string v.chars).length < npos) : ∃ ws, split v tok = some ws := by
  by_cases hvc : v.content = []
  · exact ⟨_, split_early v tok hv htv (Or.inl hvc)⟩
  by_cases htc : tok.content = []
  · exact ⟨_, split_early v tok hv htv (Or.inr htc)⟩
  rcases valid_cases v hv with ⟨hd, hs⟩ | ⟨buf, hd, _⟩
  · exact absurd (by simp [content, raw, chars, hd, hs, filter.scan]) hvc
  rcases valid_cases tok htv with ⟨htd, hts⟩ | ⟨tbuf, htd, _⟩
  · exact absurd (by simp [content, raw, chars, htd, hts, filter.scan]) htc
  have ht2 : std_string tbuf ≠ [] := by simpa [chars, htd] using ht hvc htc
  have hn2 : (std_string buf).length < npos := by simpa [chars, hd] using hn
  obtain ⟨es, hes⟩ := cuts_exist (std_string buf) (std_string tbuf) ht2
    ((std_string buf).length + 1) 0 (by omega)
  have hlen := cuts_length _ _ ht2 es 0 hes
  have hloop := split_loop_spec buf v.after_pass.predicate_ (std_string tbuf) hn2 es
    ((std_string buf).length + 2) 0 [] hes (by omega)
  refine ⟨split_views buf v.after_pass.predicate_ (std_string buf).length
    (std_string tbuf).length 0 es, ?_⟩
  rw [split, empty_eq v hv]
  simp only [hvc, decide_False]
  rw [empty_eq tok htv]
  simp only [htc, decide_False, data, predicate, hd, after_pass, htd]
  simpa [after_pass] using hloop

/-- Claim C26 at the source `"abcde"` and the token built from the `std::string` of the two
characters `'\0'`, `'a'` with the predicate `c == 'a'`: the filtered content of the token is
`"a"`, so `tok.empty()` is false and `split` goes on to its loop; the token text, read up to
the first `'\0'`, has no character, so each search finds index 0 and the next search starts
at index 0 again. The loop reaches every bound on its iterations, and `split` returns
nothing. -/
theorem split_nul_token_never_ends :
    abcde.valid ∧ nul_a_token.valid ∧
    abcde.empty = some (false, abcde) ∧ nul_a_token.empty = some (false, nul_a_token) ∧
    nul_a_token.content = ['a'] ∧ std_string [NUL, 'a'] = [] ∧
    find (std_string ['a', 'b', 'c', 'd', 'e']) (std_string [NUL, 'a']) 0 = 0 ∧
    (∀ (fuel : Nat) (result : List filtered_string_view),
      split_loop abcde.data abcde.predicate (std_string ['a', 'b', 'c', 'd', 'e'])
        (std_string [NUL, 'a']) fuel 0
        (find (std_string ['a', 'b', 'c', 'd', 'e']) (std_string [NUL, 'a']) 0) result = none) ∧
    split abcde nul_a_token = none :=
  ⟨by decide, by decide, rfl, rfl, by decide, by decide, by decide,
    split_loop_empty_token _ _ _, rfl⟩

/-! ## Iteration over any array -/

/-- A forward pass meets no more characters than there are. -/
theorem visit_length_le (cs : List Char) : ∀ f : filter, (f.visit cs).length ≤ cs.length := by
  induction cs with
  | nil => intro f; simp [filter.visit]
  | cons c cs ih =>
    intro f
    simp only [filter.visit]
    have := ih (f.call c).2
    split
    · simp; omega
    · simp; omega

/-- Without `'\0'` a forward pass meets the characters that the predicate accepts. -/
theorem visit_eq_scan (cs : List Char) (h : NUL ∉ cs) :
    ∀ f : filter, f.visit cs = (f.scan cs).1 := by
  induction cs with
  | nil => intro f; rfl
  | cons c cs ih =>
    intro f
    have hc : (c == NUL) = false := by
      have : c ≠ NUL := fun e => h (by simp [e])
      simpa using this
    have hcs : NUL ∉ cs := fun e => h (List.mem_cons_of_mem _ e)
    simp only [filter.visit, filter.scan, hc, Bool.or_false, ih hcs]

/-- The constructor of `iter`, started at offset `i` of the array of a view of `n` raw
characters, stops at the first character from `i` on that the predicate accepts or that is
`'\0'`, at the latest at offset `n`: it stands at the characters that a forward pass meets
from `i` on. -/
theorem skip_visits (buf : List Char) (n : Nat) (hn : n ≤ buf.length)
    (hz : (buf ++ [NUL])[n]? = some NUL) (m : Nat) :
    ∀ (i : Nat) (f : filter) (k : Nat), i + m = n → buf.length + 1 - i ≤ k →
    ∃ it, iter.skip k { buf := some buf, off := (i : Int) } f = some it ∧
      stands_at buf n f.target_type (f.visit ((buf.take n).drop i)) it := by
  induction m with
  | zero =>
    intro i f k him hk
    have hin : i = n := by omega
    subst hin
    obtain ⟨k, rfl⟩ : ∃ k', k = k' + 1 := ⟨k - 1, by omega⟩
    refine ⟨{ data_ := { buf := some buf, off := (i : Int) }, predicate_ := (f.call NUL).2 }, ?_, ?_⟩
    · rw [iter.skip, deref_of_index buf i NUL hz]; simp
    · have : (buf.take i).drop i = [] := by simp
      rw [this]
      simp [filter.visit, stands_at, target_type_call]
  | succ m ih =>
    intro i f k him hk
    have hi : i < buf.length := by omega
    have hin : i < n := by omega
    obtain ⟨k, rfl⟩ : ∃ k', k = k' + 1 := ⟨k - 1, by omega⟩
    have hdrop : (buf.take n).drop i = buf[i] :: (buf.take n).drop (i + 1) := by
      have hlt : i < (buf.take n).length := by simp; omega
      rw [List.drop_eq_getElem_cons hlt]; simp
    rw [hdrop, iter.skip, deref_lt buf i hi]
    simp only [filter.visit]
    by_cases hr : ((f.call buf[i]).1 || buf[i] == NUL) = true
    · have hstop : (!(f.call buf[i]).1 && buf[i] != NUL) = false := by
        rcases Bool.or_eq_true_iff.mp hr with h | h
        · simp [h]
        · have : buf[i] = NUL := by simpa using h
          simp [this]
      simp only [hr, hstop, if_true, Bool.false_eq_true, if_false]
      obtain ⟨next, h1, h2⟩ := ih (i + 1) (f.call buf[i]).2 (buf.length + 1 - i) (by omega) (by omega)
      refine ⟨_, rfl, i, ?_, rfl, target_type_call f _, deref_lt buf i hi, next, ?_, ?_⟩
      · have := visit_length_le ((buf.take n).drop (i + 1)) (f.call buf[i]).2
        simp at this
        omega
      · simp only [iter.pre_increment, iter.iterate_pre_increment, increment_loop_eq_skip,
          char_ptr.ahead]
        have e : buf.length + 1 - ((i : Int)).toNat = buf.length + 1 - i := by simp
        rw [e]
        exact_mod_cast h1
      · rw [target_type_call] at h2; exact h2
    · have hgo : (!(f.call buf[i]).1 && buf[i] != NUL) = true := by
        have h2 : (f.call buf[i]).1 = false ∧ ¬ buf[i] = NUL := by simpa using hr
        simp [h2.1, h2.2]
      simp only [hr, hgo, if_true, Bool.false_eq_true, if_false]
      obtain ⟨it, h1, h2⟩ := ih (i + 1) (f.call buf[i]).2 k (by omega) (by omega)
      rw [target_type_call] at h2
      exact ⟨it, by exact_mod_cast h1, h2⟩

/-- The iterators `begin()` and `end()` of a valid view over an array: `begin()` stands at the
characters that a forward pass meets and `end()` at their end. -/
theorem begin_end_visit (v : filtered_string_view) (hv : v.valid) (buf : List Char)
    (hd : v.data_ = some buf) :
    ∃ first last, v.begin_ = some first ∧ v.end_ = some last ∧
      stands_at buf v.size_ v.predicate_.target_type v.visited first ∧
      stands_at buf v.size_ v.predicate_.target_type [] last ∧
      v.visited.length < first.data_.ahead + 1 := by
  obtain ⟨h1, h2⟩ := hv
  simp only [chars, hd, Option.getD_some] at h1 h2
  obtain ⟨first, hf1, hf2⟩ := skip_visits buf v.size_ h1 h2 v.size_ 0 v.predicate_
    (buf.length + 1) (by omega) (by omega)
  obtain ⟨last, hl1, hl2⟩ := skip_visits buf v.size_ h1 h2 0 v.size_ v.predicate_
    (buf.length + 1 - v.size_) (by omega) (by omega)
  simp only [List.drop_zero] at hf2
  have hnil : (buf.take v.size_).drop v.size_ = [] := by simp
  rw [hnil] at hl2
  have hc : v.visited = v.predicate_.visit (buf.take v.size_) := by
    simp [visited, raw, chars, hd]
  refine ⟨first, last, ?_, ?_, by rw [hc]; exact hf2, by simpa [filter.visit] using hl2, ?_⟩
  · simpa [begin_, iter.ctor, hd, char_ptr.ahead] using hf1
  · simpa [end_, iter.ctor, hd, char_ptr.ahead] using hl1
  · obtain ⟨j, hj, hle, _, _⟩ := stands_at_length _ _ _ _ _ hf2
    rw [hc, hj]
    simp only [char_ptr.ahead, Int.toNat_ofNat]
    omega

/-- The results of `==` and `<=>` on valid views over arrays, in terms of the characters that
a forward pass of each view meets. -/
theorem eq_cmp_visited (a b : filtered_string_view) (ha : a.valid) (hb : b.valid)
    (hna : a.data_ ≠ none) (hnb : b.data_ ≠ none) :
    operator_eq a b = some (decide (a.visited = b.visited)) ∧
    operator_cmp a b = some (lex3_char a.visited b.visited) := by
  obtain ⟨buf1, hd1⟩ := Option.ne_none_iff_exists'.mp hna
  obtain ⟨buf2, hd2⟩ := Option.ne_none_iff_exists'.mp hnb
  obtain ⟨f1, l1, hb1, he1, hs1, ht1, hlen⟩ := begin_end_visit a ha buf1 hd1
  obtain ⟨f2, l2, hb2, he2, hs2, ht2, _⟩ := begin_end_visit b hb buf2 hd2
  constructor
  · simp only [operator_eq, cbegin, cend, hb1, he1, hb2, he2]
    exact std_equal_stands _ _ _ l1 ht1 _ _ _ l2 ht2 _ _ f1 f2 _ hs1 hs2 hlen
  · simp only [operator_cmp, hb1, he1, hb2, he2]
    exact three_way_stands _ _ _ l1 ht1 _ _ _ l2 ht2 _ _ f1 f2 _ hs1 hs2 hlen

/-! ## C27: the bounds of the cursor -/

/-- The loop of the constructor of `iter` moves the cursor forward in its array. -/
theorem skip_offset_ge (k : Nat) : ∀ (p : char_ptr) (f : filter) (it : iter),
    iter.skip k p f = some it → it.data_.buf = p.buf ∧ p.off ≤ it.data_.off := by
  induction k with
  | zero => intro p f it h; simp [iter.skip] at h
  | succ k ih =>
    intro p f it h
    rw [iter.skip] at h
    cases hd : p.deref with
    | none => simp [hd] at h
    | some c =>
      simp only [hd] at h
      split at h
      · obtain ⟨h1, h2⟩ := ih _ _ _ h
        simp only at h1 h2
        exact ⟨h1, by omega⟩
      · simp only [Option.some.injEq] at h
        subst h
        exact ⟨rfl, le_refl _⟩

/-- In the array of a view of `n` raw characters, `++` on an iterator at an offset below `n`
returns an iterator further on, at an offset that is at most `n`, whatever the predicate and
its state. -/
theorem increment_within (buf : List Char) (n : Nat) (hn : n ≤ buf.length)
    (hz : (buf ++ [NUL])[n]? = some NUL) (j : Nat) (hj : j < n) (f : filter) :
    ∃ (next : iter) (j2 : Nat),
      iter.pre_increment { data_ := { buf := some buf, off := (j : Int) }, predicate_ := f }
        = some next ∧
      next.data_ = { buf := some buf, off := (j2 : Int) } ∧ j < j2 ∧ j2 ≤ n := by
  obtain ⟨it, h1, h2⟩ := skip_visits buf n hn hz (n - (j + 1)) (j + 1) f (buf.length + 1 - j)
    (by omega) (by omega)
  obtain ⟨j2, hd, hle, _, _⟩ := stands_at_length _ _ _ _ _ h2
  obtain ⟨_, hge⟩ := skip_offset_ge _ _ _ _ h1
  rw [hd] at hge
  simp only at hge
  refine ⟨it, j2, ?_, hd, by omega, by omega⟩
  simp only [iter.pre_increment, iter.iterate_pre_increment, increment_loop_eq_skip,
    char_ptr.ahead]
  have e : buf.length + 1 - ((j : Int)).toNat = buf.length + 1 - j := by simp
  rw [e]
  exact_mod_cast h1

/-- With a stateless predicate that accepts the character at offset `b`, `--` on an iterator
at an offset above `b` returns an iterator at an offset that is at least `b`. -/
theorem decrement_within (buf : List Char) (id : Nat) (p : Char → Bool) (b : Nat)
    (hb : b < buf.length) (hpb : p buf[b] = true) :
    ∀ (d j k : Nat), j = b + d + 1 → j ≤ buf.length + 1 → d + 1 ≤ k →
    ∃ (prev : iter) (j2 : Nat),
      iter.decrement_loop k
        { data_ := { buf := some buf, off := (j : Int) }, predicate_ := .fn id p } = some prev ∧
      prev.data_ = { buf := some buf, off := (j2 : Int) } ∧ b ≤ j2 ∧ j2 < j ∧
      prev.predicate_ = .fn id p := by
  intro d
  induction d with
  | zero =>
    intro j k hj _ hk
    obtain ⟨k, rfl⟩ : ∃ k', k = k' + 1 := ⟨k - 1, by omega⟩
    subst hj
    have e : ((b + 0 + 1 : Nat) : Int) - 1 = (b : Int) := by omega
    refine ⟨{ data_ := { buf := some buf, off := (b : Int) }, predicate_ := .fn id p }, b,
      ?_, rfl, le_refl _, by omega, rfl⟩
    rw [iter.decrement_loop]
    simp only [e, deref_lt buf b hb, filter.call, hpb, Bool.not_true, Bool.false_and,
      Bool.false_eq_true, if_false]
  | succ d ih =>
    intro j k hj hjl hk
    obtain ⟨k, rfl⟩ : ∃ k', k = k' + 1 := ⟨k - 1, by omega⟩
    subst hj
    have e : ((b + (d + 1) + 1 : Nat) : Int) - 1 = ((b + d + 1 : Nat) : Int) := by omega
    have hr : (buf ++ [NUL])[b + d + 1]? ≠ none := by
      rw [ne_eq, List.getElem?_eq_none_iff]
      simp
      omega
    obtain ⟨c, hc⟩ := Option.ne_none_iff_exists'.mp hr
    rw [iter.decrement_loop]
    simp only [e, deref_of_index buf (b + d + 1) c hc, filter.call]
    split
    · obtain ⟨prev, j2, h1, h2, h3, h4, h5⟩ := ih (b + d + 1) k rfl (by omega) (by omega)
      exact ⟨prev, j2, h1, h2, h3, by omega, h5⟩
    · exact ⟨_, b + d + 1, rfl, rfl, by omega, by omega, rfl⟩

/-- The bounds of the cursor for a view `v` over an array, without `'\0'` among its `n` raw
characters, with a stateless predicate: `begin()` is at an offset `b ≤ n`; from an offset
below `n`, `++` leads to a larger offset that is at most `n`, whatever predicate the iterator
holds; from an offset above `b` and at most `n`, `--` leads to a smaller offset that is at
least `b`. -/
theorem iterator_bounds_stateless (v : filtered_string_view) (hv : v.valid) (buf : List Char)
    (hd : v.data_ = some buf) (hfree : v.nul_free) (id : Nat) (p : Char → Bool)
    (hp : v.predicate_ = .fn id p) :
    ∃ (first : iter) (b : Nat), v.begin_ = some first ∧
      first.data_ = { buf := some buf, off := (b : Int) } ∧ b ≤ v.size_ ∧
      (∀ (j : Nat) (f : filter), j < v.size_ → ∃ (next : iter) (j2 : Nat),
        iter.pre_increment { data_ := { buf := some buf, off := (j : Int) }, predicate_ := f }
          = some next ∧
        next.data_ = { buf := some buf, off := (j2 : Int) } ∧ j < j2 ∧ j2 ≤ v.size_) ∧
      (∀ j : Nat, b < j → j ≤ v.size_ → ∃ (prev : iter) (j2 : Nat),
        iter.pre_decrement
          { data_ := { buf := some buf, off := (j : Int) }, predicate_ := .fn id p }
            = some prev ∧
        prev.data_ = { buf := some buf, off := (j2 : Int) } ∧ b ≤ j2 ∧ j2 < j) := by
  obtain ⟨first, last, hb1, _, hs1, _, _⟩ := begin_end_stand v hv buf hd hfree
  obtain ⟨b, hfd, hle, _, hiff⟩ := stands_at_length _ _ _ _ _ hs1
  have h1 : v.size_ ≤ buf.length := by simpa [chars, hd] using hv.1
  have h2 : (buf ++ [NUL])[v.size_]? = some NUL := by simpa [chars, hd] using hv.2
  refine ⟨first, b, hb1, hfd, by omega, ?_, ?_⟩
  · intro j f hj
    exact increment_within buf v.size_ h1 h2 j hj f
  · intro j hbj hjn
    have hne : v.content ≠ [] := fun e => by
      have := hiff.mp e
      omega
    obtain ⟨c, L, hcL⟩ := List.exists_cons_of_ne_nil hne
    rw [hcL] at hs1
    obtain ⟨j0, hj0, hd0, _, hderef, _⟩ := hs1
    have hb0 : j0 = b := by
      rw [hd0] at hfd
      simpa using hfd
    subst hb0
    have hblt : j0 < buf.length := by omega
    have hcb : buf[j0] = c := by
      have := hderef
      rw [iter.deref, hd0, deref_lt buf j0 hblt] at this
      simpa using this
    have hpc : p c = true := by
      have hmem : c ∈ v.content := by rw [hcL]; simp
      rw [(content_fn v id p hp).1] at hmem
      exact (List.mem_filter.mp hmem).2
    obtain ⟨prev, j2, h3, h4, h5, h6, _⟩ := decrement_within buf id p j0 hblt (by rw [hcb]; exact hpc)
      (j - j0 - 1) j j (by omega) (by omega) (by omega)
    refine ⟨prev, j2, ?_, h4, h5, h6⟩
    simpa [iter.pre_decrement, iter.iterate_pre_decrement] using h3

/-- Claim C27 at the second segment of `split("xax", "x")`, a view of the array `"xax"`, whose
only `'\0'` is the terminator at offset 3, with the closure of `filter_split`: `begin()` is at
offset 1 and `end()` at offset 3. The first `--` from `end()` stops at offset 2, not at
`begin()`; the closure then answers false at offset 1, where `begin()` is, and at offset 0,
so the second `--` moves the cursor past both to offset -1, before the array, where nothing
can be read. The closure counts its calls as positions, which on the way back they are
not. -/
theorem decrement_runs_below_begin :
    xax_segments.bind (fun l => l[1]?) = some xax_middle ∧
    xax_middle.valid ∧ xax_middle.nul_free ∧
    (xax_middle.begin_.map fun b => b.data_.off) = some 1 ∧
    (xax_middle.end_.map fun e => e.data_.off) = some 3 ∧
    ((xax_middle.end_.bind fun e => e.pre_decrement).map fun it => it.data_.off) = some 2 ∧
    ((xax_middle.end_.bind fun e => e.pre_decrement).map fun it =>
      ((it.predicate_.call 'a').1, ((it.predicate_.call 'a').2.call 'x').1))
        = some (false, false) ∧
    char_ptr.deref { buf := some ['x', 'a', 'x'], off := -1 } = none ∧
    ((xax_middle.end_.bind fun e => e.pre_decrement).bind fun it =>
      it.pre_decrement.map fun it2 => it2.data_.off) = none :=
  ⟨rfl, by decide, by decide, by decide, by decide, by decide, by decide, by decide, by decide⟩

/-! ## C28: the subscript out of range -/

/-- Claim C28 fails on a view over `nullptr`: the default view is valid and of size 0, so the
index 0 is out of range; `v[0]` then returns `data_[size_]`, the character at offset 0 of
`nullptr`, which is no character of any array. -/
theorem subscript_null_view :
    filtered_string_view.default.valid ∧
    filtered_string_view.default.size = some (0, filtered_string_view.default) ∧
    index filtered_string_view.default.data_ filtered_string_view.default.size_ = none ∧
    filtered_string_view.default.operator_subscript 0 = none :=
  ⟨by decide, rfl, rfl, rfl⟩

/-- Claim C28, amended: on a view over an array (not over `nullptr`) whose `size()` is `n`
with `n < 2 ^ 31`, for every integer `idx` with `idx < 0` or `n ≤ idx`, `v[idx]` returns a
character: the one at offset `size_` of the array, which is the terminating `'\0'`; the view
is left as after a full pass of the predicate. -/
theorem subscript_out_of_range (v : filtered_string_view) (hv : v.valid) (buf : List Char)
    (hd : v.data_ = some buf) (idx : Int) (n : Nat) (v1 : filtered_string_view)
    (hn : v.size = some (n, v1)) (hsize : n < 2 ^ 31) (hr : idx < 0 ∨ (n : Int) ≤ idx) :
    v.operator_subscript idx = some (NUL, v1) ∧ index v.data_ v.size_ = some NUL := by
  rw [size_eq v hv] at hn
  simp only [Option.some.injEq, Prod.mk.injEq] at hn
  rw [← hn.2]
  exact subscript_sentinel v hv buf hd idx (by rw [hn.1]; exact hsize) (by rw [hn.1]; exact hr)

/-- Claim C28, amended, on `"only 90s kids understand"` filtered to `'9'`, `'0'` and `' '`,
whose size is 5: `v[5]` and `v[-1]` are the terminating `'\0'`. -/
theorem subscript_out_of_range_witness :
    only_90s.valid ∧ only_90s.size = some (5, only_90s) ∧
    only_90s.operator_subscript (-1) = some (NUL, only_90s) ∧
    only_90s.operator_subscript 5 = some (NUL, only_90s) ∧
    index only_90s.data_ only_90s.size_ = some NUL :=
  ⟨by decide, rfl, rfl,
    subscript_out_of_range only_90s (by decide) _ rfl 5 5 only_90s rfl (by decide)
      (Or.inr (by decide))⟩

/-! ## C29: `<=>` against `==` -/

/-- On a view over `nullptr` the constructor of `iter` reads through `nullptr`, and neither
`==` nor `<=>` has a result, on either side. -/
theorem eq_cmp_null (a b : filtered_string_view) (h : a.data_ = none ∨ b.data_ = none) :
    operator_eq a b = none ∧ operator_cmp a b = none := by
  have hbegin : ∀ v : filtered_string_view, v.data_ = none → v.begin_ = none := by
    intro v hv
    simp [begin_, iter.ctor, hv, char_ptr.ahead, iter.skip]
  rcases h with h | h
  · simp [operator_eq, operator_cmp, cbegin, hbegin a h]
  · have hb := hbegin b h
    constructor
    · simp only [operator_eq, cbegin, hb]
      split
      · next h3 _ => exact absurd h3 (by simp)
      · rfl
    · simp only [operator_cmp, hb]
      split
      · next h3 _ => exact absurd h3 (by simp)
      · rfl

/-- Claim C29: for all views `a` and `b`, whatever their predicates and whether or not their
buffers hold a `'\0'`: `a == b` is the answer to whether `a <=> b` is `equal`, and `a <=> b`
is `less` exactly when `b <=> a` is `greater`. When both views are over arrays the three
comparisons return; when one is over `nullptr` none of them does. -/
theorem cmp_agrees_with_eq (a b : filtered_string_view) (ha : a.valid) (hb : b.valid) :
    operator_eq a b = (operator_cmp a b).map (fun r => decide (r = .eq)) ∧
    (operator_cmp a b).map (fun r => decide (r = .lt))
      = (operator_cmp b a).map (fun r => decide (r = .gt)) ∧
    (a.data_ ≠ none → b.data_ ≠ none →
      ∃ r1 r2 e, operator_cmp a b = some r1 ∧ operator_cmp b a = some r2 ∧
        operator_eq a b = some e ∧ (r1 = .eq ↔ e = true) ∧ (r1 = .lt ↔ r2 = .gt)) := by
  by_cases hn : a.data_ = none ∨ b.data_ = none
  · have h1 := eq_cmp_null a b hn
    have h2 := eq_cmp_null b a hn.symm
    refine ⟨by rw [h1.1, h1.2]; rfl, by rw [h1.2, h2.2]; rfl, fun hna hnb => ?_⟩
    rcases hn with h | h
    · exact absurd h hna
    · exact absurd h hnb
  · have hna : a.data_ ≠ none := fun h => hn (Or.inl h)
    have hnb : b.data_ ≠ none := fun h => hn (Or.inr h)
    have h1 := eq_cmp_visited a b ha hb hna hnb
    have h2 := eq_cmp_visited b a hb ha hnb hna
    have hlt : lex3_char a.visited b.visited = .lt ↔ lex3_char b.visited a.visited = .gt :=
      lex3_char_lt_gt _ _
    have heq : lex3_char a.visited b.visited = .eq ↔ a.visited = b.visited :=
      lex3_char_eq _ _
    refine ⟨?_, ?_, fun _ _ => ⟨_, _, _, h1.2, h2.2, h1.1, ?_, hlt⟩⟩
    · rw [h1.1, h1.2]
      simp only [Option.map_some', Option.some.injEq, decide_eq_decide]
      exact heq.symm
    · rw [h1.2, h2.2]
      simp only [Option.map_some', Option.some.injEq, decide_eq_decide]
      exact hlt
    · rw [heq]; simp

/-- Claim C29 on the views of the `std::string`s `"a\0b"` and, filtered by `c == 'a'`,
`"a\0a"`: `a <=> b` is `greater`, `b <=> a` is `less`, and `a == b` is false. -/
theorem cmp_agrees_with_eq_witness :
    a_nul_b.valid ∧ with_nul.valid ∧
    operator_cmp a_nul_b with_nul = some .gt ∧ operator_cmp with_nul a_nul_b = some .lt ∧
    operator_eq a_nul_b with_nul = some false ∧
    operator_eq a_nul_b with_nul
      = (operator_cmp a_nul_b with_nul).map (fun r => decide (r = .eq)) ∧
    (operator_cmp a_nul_b with_nul).map (fun r => decide (r = .lt))
      = (operator_cmp with_nul a_nul_b).map (fun r => decide (r = .gt)) :=
  ⟨by decide, by decide, by decide, by decide, by decide,
    (cmp_agrees_with_eq a_nul_b with_nul (by decide) (by decide)).1,
    (cmp_agrees_with_eq a_nul_b with_nul (by decide) (by decide)).2.1⟩
end fsv
